import Mathlib

/-!
The path-name algebra of pystring (`pystring::os::path`) and the string layer under it:
a shallow embedding of `src/pystring.cpp`.

* A `std::string` / `std::string_view` is a `List Char` (`Str`); one list element per `char`.
* The C++ `int` (`Py_ssize_t`) is modelled by `Int`.  The source converts `str.size()` to `int`
  and documents that this limits it to strings of fewer than 2^31 characters; theorems whose
  truth depends on that conversion carry the hypothesis `s.length ≤ MAX_32BIT_INT`.
* Output parameters become components of a returned pair.
* Loops whose index is not a structural argument take an explicit fuel argument, supplied by
  the caller with a value that is proved sufficient where it matters.
-/

namespace pystring

/-- The value of a `std::string`: its sequence of characters. -/
abbrev Str := List Char

/-- The constant `MAX_32BIT_INT` of pystring.h, the default `end` argument. -/
def MAX_32BIT_INT : Int := 2147483647

def forward_slash : Str := ['/']
def double_forward_slash : Str := ['/', '/']
def triple_forward_slash : Str := ['/', '/', '/']
def double_back_slash : Str := ['\\']
def empty_string : Str := []
def dot : Str := ['.']
def double_dot : Str := ['.', '.']
def colon : Str := [':']

/-- The macro `ADJUST_INDICES(start, end, len)`; returns the adjusted `(start, end)`. -/
def ADJUST_INDICES (start end_ len : Int) : Int × Int :=
  let end1 :=
    if end_ > len then len
    else if end_ < 0 then (if end_ + len < 0 then 0 else end_ + len)
    else end_
  let start1 :=
    if start < 0 then (if start + len < 0 then 0 else start + len)
    else start
  (start1, end1)

/-- The library call `std::string_view::substr(pos, n)` for `pos ≤ size()`. -/
def substr (str : Str) (pos n : Nat) : Str := (str.drop pos).take n

/-- The library call `std::string_view::find(sub, pos)` on the suffix `l` that starts at
index `i`: the first index at which `sub` occurs, `none` standing for `npos`. -/
def std_find_aux (sub : Str) : Str → Nat → Option Nat
  | [], i => if sub.isPrefixOf [] then some i else none
  | c :: l, i => if sub.isPrefixOf (c :: l) then some i else std_find_aux sub l (i + 1)

/-- The library call `std::string_view::find(sub, pos)`. -/
def std_find (str sub : Str) (pos : Nat) : Option Nat :=
  if pos > str.length then none else std_find_aux sub (str.drop pos) pos

/-- Downward search of `std::string_view::rfind`: the last index `≤ i` at which `sub`
occurs in `str`. -/
def std_rfind_aux (str sub : Str) : Nat → Option Nat
  | 0 => if sub.isPrefixOf str then some 0 else none
  | i + 1 => if sub.isPrefixOf (str.drop (i + 1)) then some (i + 1) else std_rfind_aux str sub i

/-- The library call `std::string_view::rfind(sub, pos)`. -/
def std_rfind (str sub : Str) (pos : Nat) : Option Nat :=
  if sub.length > str.length then none
  else std_rfind_aux str sub (min pos (str.length - sub.length))

/-- The function `slice(str, start, end)`. The conversion `(int) str.size()` is
`str.length`, which is exact for sizes up to `MAX_32BIT_INT`. -/
def slice (str : Str) (start : Int := 0) (end_ : Int := MAX_32BIT_INT) : Str :=
  let se := ADJUST_INDICES start end_ (str.length : Int)
  if se.1 ≥ se.2 then empty_string
  else substr str se.1.toNat (se.2 - se.1).toNat

/-- The function `find(str, sub, start, end)`. The conversion `(int) str.size()` is
`str.length`, which is exact for sizes up to `MAX_32BIT_INT`. -/
def find (str sub : Str) (start : Int := 0) (end_ : Int := MAX_32BIT_INT) : Int :=
  let se := ADJUST_INDICES start end_ (str.length : Int)
  match std_find str sub se.1.toNat with
  | none => -1
  | some result => if (result : Int) + sub.length > se.2 then -1 else result

/-- The function `rfind(str, sub, start, end)`. The conversion `(int) str.size()` is
`str.length`, which is exact for sizes up to `MAX_32BIT_INT`. -/
def rfind (str sub : Str) (start : Int := 0) (end_ : Int := MAX_32BIT_INT) : Int :=
  let se := ADJUST_INDICES start end_ (str.length : Int)
  match std_rfind str sub se.2.toNat with
  | none => -1
  | some result =>
    if (result : Int) < se.1 ∨ (result : Int) + sub.length > se.2 then -1 else result

inductive string_tailmatch_direction_ where
  | startswith
  | endswith
  deriving DecidableEq

/-- The helper `_string_tailmatch(self, substr, start, end, direction)`. The conversions of
`self.size()` and `substr.size()` to `Py_ssize_t` are the lengths, which is exact for sizes up
to `MAX_32BIT_INT`. -/
def _string_tailmatch (self substr : Str) (start end_ : Int)
    (direction : string_tailmatch_direction_) : Bool :=
  let len : Int := self.length
  let slen : Int := substr.length
  let se := ADJUST_INDICES start end_ len
  let end1 := se.2
  let cmp (start1 : Int) : Bool :=
    if end1 - start1 ≥ slen then
      pystring.substr self start1.toNat slen.toNat == substr
    else false
  match direction with
  | .startswith => if se.1 + slen > len then false else cmp se.1
  | .endswith =>
    if end1 - se.1 < slen ∨ se.1 > len then false
    else cmp (if end1 - slen > se.1 then end1 - slen else se.1)

def endswith (str suffix : Str) (start : Int := 0) (end_ : Int := MAX_32BIT_INT) : Bool :=
  _string_tailmatch str suffix start end_ .endswith

def startswith (str pre : Str) (start : Int := 0) (end_ : Int := MAX_32BIT_INT) : Bool :=
  _string_tailmatch str pre start end_ .startswith

/-- The function `join(str, seq)` of the string layer. -/
def join (str : Str) (seq : List Str) : Str :=
  match seq with
  | [] => empty_string
  | [x] => x
  | x :: rest => rest.foldl (fun result s => result ++ (str ++ s)) x

/-- The function `mul(str, n)`. -/
def mul (str : Str) (n : Int) : Str :=
  if n ≤ 0 then empty_string
  else if n = 1 then str
  else (List.range n.toNat).foldl (fun os _ => os ++ str) []

/-- The C library call `::isspace` in the "C" locale. -/
def isspace (c : Char) : Bool :=
  c = ' ' || c = '\t' || c = '\n' || c = '\x0b' || c = '\x0c' || c = '\r'

/-- The inner loops `while (i < len && P(str[i])) i++` of the string layer, run on the
suffix of `str` that starts at `i`; returns the final `i`. -/
def skip_while (P : Char → Bool) : Str → Nat → Nat
  | [], i => i
  | c :: l, i => if P c then skip_while P l (i + 1) else i

/-- The outer loop of `split_whitespace`; `none` when the fuel runs out. -/
def split_whitespace_loop (str : Str) :
    Nat → Nat → Nat → Int → List Str → Option (Nat × List Str)
  | 0, _, _, _, _ => none
  | fuel + 1, i, j, maxsplit, result =>
    if i < str.length then
      let i1 := skip_while isspace (str.drop i) i
      let j1 := i1
      let i2 := skip_while (fun c => !isspace c) (str.drop i1) i1
      if j1 < i2 then
        if maxsplit ≤ 0 then some (j1, result)
        else
          let result1 := result ++ [substr str j1 (i2 - j1)]
          let i3 := skip_while isspace (str.drop i2) i2
          split_whitespace_loop str fuel i3 i3 (maxsplit - 1) result1
      else split_whitespace_loop str fuel i2 j1 maxsplit result
    else some (j, result)

/-- The helper `split_whitespace(str, result, maxsplit)`, `result` being empty on entry. -/
def split_whitespace (str : Str) (maxsplit : Int) : List Str :=
  match split_whitespace_loop str (str.length + 1) 0 0 maxsplit [] with
  | none => []
  | some (j, result) =>
    if j < str.length then result ++ [substr str j (str.length - j)] else result

/-- The main loop of `split` for a non-empty separator; `none` when the fuel runs out. -/
def split_loop (str sep : Str) : Nat → Nat → Nat → Int → List Str → Option (Nat × List Str)
  | 0, _, _, _, _ => none
  | fuel + 1, i, j, maxsplit, result =>
    if i + sep.length ≤ str.length then
      if str[i]? = sep[0]? ∧ substr str i sep.length = sep then
        if maxsplit ≤ 0 then some (j, result)
        else
          split_loop str sep fuel (i + sep.length) (i + sep.length) (maxsplit - 1)
            (result ++ [substr str j (i - j)])
      else split_loop str sep fuel (i + 1) j maxsplit result
    else some (j, result)

/-- The function `split(str, result, sep, maxsplit)`; returns `result`. -/
def split (str : Str) (sep : Str := []) (maxsplit : Int := -1) : List Str :=
  let maxsplit1 := if maxsplit < 0 then MAX_32BIT_INT else maxsplit
  if sep.length = 0 then split_whitespace str maxsplit1
  else
    match split_loop str sep (str.length + 1) 0 0 maxsplit1 [] with
    | none => []
    | some (j, result) => result ++ [substr str j (str.length - j)]

inductive string_strip_direction_ where
  | leftstrip
  | rightstrip
  | bothstrip
  deriving DecidableEq

/-- The loop `do { j--; } while (j >= i && P(str[j])); j++;` of `do_strip`: the argument is
the value of `j` on entry, the result its value after the final `j++`. -/
def strip_right (P : Char → Bool) (str : Str) (i : Nat) : Nat → Nat
  | 0 => 0
  | j + 1 => if j ≥ i ∧ (str[j]?.map P) = some true then strip_right P str i j else j + 1

/-- The function `do_strip(str, striptype, chars)`. -/
def do_strip (str : Str) (striptype : string_strip_direction_) (chars : Str) : Str :=
  let len := str.length
  let P : Char → Bool := if chars.length = 0 then isspace else fun c => decide (c ∈ chars)
  let i := if striptype ≠ .rightstrip then skip_while P str 0 else 0
  let j := if striptype ≠ .leftstrip then strip_right P str i len else len
  if i = 0 ∧ j = len then str else substr str i (j - i)

def strip (str : Str) (chars : Str := []) : Str := do_strip str .bothstrip chars

def lstrip (str : Str) (chars : Str := []) : Str := do_strip str .leftstrip chars

def rstrip (str : Str) (chars : Str := []) : Str := do_strip str .rightstrip chars

/-- The library call `std::string::replace(pos, len, str)` for `pos ≤ size()`. -/
def std_replace (s : Str) (pos len : Nat) (str : Str) : Str :=
  s.take pos ++ str ++ s.drop (pos + len)

/-- The loop of `replace`; `none` when the fuel runs out. -/
def replace_loop (oldstr newstr : Str) (count : Int) : Nat → Str → Int → Int → Option Str
  | 0, _, _, _ => none
  | fuel + 1, s, cursor, sofar =>
    if cursor ≠ -1 ∧ cursor ≤ (s.length : Int) then
      if count > -1 ∧ sofar ≥ count then some s
      else
        let s1 := std_replace s cursor.toNat oldstr.length newstr
        let cursor1 := cursor + (newstr.length : Int)
        let cursor2 := if oldstr.length ≠ 0 then find s1 oldstr cursor1 else cursor1 + 1
        replace_loop oldstr newstr count fuel s1 cursor2 (sofar + 1)
    else some s

/-- The function `replace(str, oldstr, newstr, count)`. -/
def replace (str oldstr newstr : Str) (count : Int := -1) : Str :=
  (replace_loop oldstr newstr count (str.length + 2) str (find str oldstr 0) 0).getD []

/-- The helper `reverse_strings(result)`: the loop that swaps `result[i]` with
`result[size - 1 - i]` for `i < size / 2`. -/
def reverse_strings (result : List Str) : List Str :=
  (List.range (result.length / 2)).foldl
    (fun r i =>
      match r[i]?, r[r.length - 1 - i]? with
      | some a, some b => (r.set i b).set (r.length - 1 - i) a
      | _, _ => r)
    result

/-- The inner loops `while (i > 0 && P(str[i - 1])) i--` of `rsplit_whitespace`; the
argument is the value of `i` on entry, the result its value on exit. -/
def skip_back (P : Char → Bool) (str : Str) : Nat → Nat
  | 0 => 0
  | i + 1 => if (str[i]?.map P) = some true then skip_back P str i else i + 1

/-- The outer loop of `rsplit_whitespace`; `none` when the fuel runs out. -/
def rsplit_whitespace_loop (str : Str) :
    Nat → Nat → Nat → Int → List Str → Option (Nat × List Str)
  | 0, _, _, _, _ => none
  | fuel + 1, i, j, maxsplit, result =>
    if i > 0 then
      let i1 := skip_back isspace str i
      let j1 := i1
      let i2 := skip_back (fun c => !isspace c) str i1
      if j1 > i2 then
        if maxsplit ≤ 0 then some (j1, result)
        else
          let result1 := result ++ [substr str i2 (j1 - i2)]
          let i3 := skip_back isspace str i2
          rsplit_whitespace_loop str fuel i3 i3 (maxsplit - 1) result1
      else rsplit_whitespace_loop str fuel i2 j1 maxsplit result
    else some (j, result)

/-- The helper `rsplit_whitespace(str, result, maxsplit)`, `result` being empty on entry. -/
def rsplit_whitespace (str : Str) (maxsplit : Int) : List Str :=
  match rsplit_whitespace_loop str (str.length + 1) str.length str.length maxsplit [] with
  | none => []
  | some (j, result) =>
    reverse_strings (if j > 0 then result ++ [substr str 0 j] else result)

/-- The main loop of `rsplit` for a non-empty separator, `i` and `j` being the `Py_ssize_t`
variables of the source; `none` when the fuel runs out. -/
def rsplit_loop (str sep : Str) : Nat → Int → Int → Int → List Str → Option (Int × List Str)
  | 0, _, _, _, _ => none
  | fuel + 1, i, j, maxsplit, result =>
    if i ≥ (sep.length : Int) then
      if str[(i - 1).toNat]? = sep[sep.length - 1]? ∧
          substr str (i - (sep.length : Int)).toNat sep.length = sep then
        if maxsplit ≤ 0 then some (j, result)
        else
          rsplit_loop str sep fuel (i - (sep.length : Int)) (i - (sep.length : Int))
            (maxsplit - 1) (result ++ [substr str i.toNat (j - i).toNat])
      else rsplit_loop str sep fuel (i - 1) j maxsplit result
    else some (j, result)

/-- The function `rsplit(str, result, sep, maxsplit)`; returns `result`. -/
def rsplit (str : Str) (sep : Str := []) (maxsplit : Int := -1) : List Str :=
  if maxsplit < 0 then split str sep maxsplit
  else if sep.length = 0 then rsplit_whitespace str maxsplit
  else
    match rsplit_loop str sep (str.length + 1) str.length str.length maxsplit [] with
    | none => []
    | some (j, result) => reverse_strings (result ++ [substr str 0 j.toNat])

/-- The `while (1)` loop of `count`, on the variables `cursor` and `nummatches`; `none` when
the fuel runs out before the loop reaches its `break`. -/
def count_loop (str sub : Str) (end_ : Int) : Nat → Int → Int → Option Int
  | 0, _, _ => none
  | fuel + 1, cursor, nummatches =>
    let cursor1 := find str sub cursor end_
    if cursor1 < 0 then some nummatches
    else count_loop str sub end_ fuel (cursor1 + (sub.length : Int)) (nummatches + 1)

/-- The function `count(str, substr, start, end)`, run for at most `fuel` iterations of its
loop; `none` when the loop has not reached its `break` by then. -/
def count (fuel : Nat) (str sub : Str) (start : Int := 0) (end_ : Int := MAX_32BIT_INT) :
    Option Int :=
  count_loop str sub end_ fuel start 0

namespace cctype

/-- The C library call `::islower` in the "C" locale. -/
def islower (c : Char) : Bool := decide ('a' ≤ c) && decide (c ≤ 'z')

/-- The C library call `::isupper` in the "C" locale. -/
def isupper (c : Char) : Bool := decide ('A' ≤ c) && decide (c ≤ 'Z')

end cctype

/-- The `for` loop of `islower` on the characters from index `i` on: `false` at the first
character that is not lowercase, `true` when it runs to the end. -/
def islower_loop : Str → Bool
  | [] => true
  | c :: l => if !cctype.islower c then false else islower_loop l

/-- The function `islower(str)`. -/
def islower (str : Str) : Bool :=
  if str.length = 0 then false
  else if str.length = 1 then (str[0]?.map cctype.islower) = some true
  else islower_loop str

namespace os
namespace path

/-- The function `splitdrive_nt(drivespec, pathspec, p)`; returns `(drivespec, pathspec)`. -/
def splitdrive_nt (p : Str) : Str × Str :=
  if p.length ≥ 2 ∧ p[1]? = some ':' then
    let path := p
    (slice path 0 2, slice path 2)
  else (empty_string, p)

/-- The function `splitdrive_posix(drivespec, pathspec, path)`. -/
def splitdrive_posix (path : Str) : Str × Str := (empty_string, path)

/-- The function `isabs_nt(path)`. -/
def isabs_nt (path : Str) : Bool :=
  let pathspec := (splitdrive_nt path).2
  if pathspec.isEmpty then false
  else pathspec[0]? = some '/' || pathspec[0]? = some '\\'

/-- The function `isabs_posix(s)`. -/
def isabs_posix (s : Str) : Bool := startswith s forward_slash

/-- The value of the local variable `b_nts` of `join_nt` for the accumulator `path` and the
component `b`: whether `b` replaces the accumulator. -/
def join_nt_b_nts (path b : Str) : Bool :=
  if path.isEmpty then true
  else if isabs_nt b then
    if (path.length ≥ 2 ∧ path[1]? ≠ some ':') ∨ (b.length ≥ 2 ∧ b[1]? = some ':') then true
    else if path.length > 3 ∨
        (path.length = 3 ∧ !endswith path forward_slash ∧ !endswith path double_back_slash)
      then true
    else false
  else false

/-- The body of the `for` loop of `join_nt`: the new value of `path` after component `b`. -/
def join_nt_step (path b : Str) : Str :=
  if join_nt_b_nts path b then b
  else if endswith path forward_slash || endswith path double_back_slash then
    if startswith b forward_slash || startswith b double_back_slash then path ++ slice b 1
    else path ++ b
  else if endswith path colon then path ++ b
  else if !b.isEmpty then
    if startswith b forward_slash || startswith b double_back_slash then path ++ b
    else path ++ (double_back_slash ++ b)
  else path ++ double_back_slash

/-- The function `join_nt(paths)` on a sequence of components. -/
def join_nt (paths : List Str) : Str :=
  match paths with
  | [] => empty_string
  | [x] => x
  | x :: rest => rest.foldl join_nt_step x

/-- The two-argument overload `join_nt(a, b)`. -/
def join_nt2 (a b : Str) : Str := join_nt [a, b]

/-- The body of the `for` loop of `join_posix`. -/
def join_posix_step (path b : Str) : Str :=
  if startswith b forward_slash then b
  else if path.isEmpty || endswith path forward_slash then path ++ b
  else path ++ (forward_slash ++ b)

/-- The function `join_posix(paths)` on a sequence of components. -/
def join_posix (paths : List Str) : Str :=
  match paths with
  | [] => empty_string
  | [x] => x
  | x :: rest => rest.foldl join_posix_step x

/-- The two-argument overload `join_posix(a, b)`. -/
def join_posix2 (a b : Str) : Str := join_posix [a, b]

/-- The loop `while (i>0 && p[i-1] != '\\' && p[i-1] != '/') i = i - 1` of `split_nt`;
the argument is the value of `i` on entry, the result its value on exit. -/
def split_nt_scan (p : Str) : Nat → Nat
  | 0 => 0
  | i + 1 => if p[i]? ≠ some '\\' ∧ p[i]? ≠ some '/' then split_nt_scan p i else i + 1

/-- The loop of `split_nt` that removes trailing slashes from `head2`; `none` when the
fuel runs out. -/
def split_nt_strip : Nat → Str → Option Str
  | 0, _ => none
  | fuel + 1, head2 =>
    if !head2.isEmpty ∧
        (slice head2 (-1) = forward_slash ∨ slice head2 (-1) = double_back_slash) then
      split_nt_strip fuel (slice head2 0 (-1))
    else some head2

/-- The function `split_nt(head, tail, path)`; returns `(head, tail)`. -/
def split_nt (path : Str) : Str × Str :=
  let d := (splitdrive_nt path).1
  let p := (splitdrive_nt path).2
  let i := split_nt_scan p p.length
  let head := slice p 0 i
  let tail := slice p i
  let head2 := (split_nt_strip (head.length + 1) head).getD []
  let head1 := if !head2.isEmpty then head2 else head
  (d ++ head1, tail)

/-- The function `split_posix(head, tail, p)`; returns `(head, tail)`. -/
def split_posix (p : Str) : Str × Str :=
  let i := rfind p forward_slash + 1
  let head := slice p 0 i
  let tail := slice p i
  if !head.isEmpty ∧ head ≠ mul forward_slash (head.length : Int) then
    (rstrip head forward_slash, tail)
  else (head, tail)

/-- The loop of `normpath_nt` that moves initial backslashes from `path` to `prefix`;
returns `(prefix, path)`, `none` when the fuel runs out. -/
def normpath_nt_initial : Nat → Str → Str → Option (Str × Str)
  | 0, _, _ => none
  | fuel + 1, pre, path =>
    if slice path 0 1 = double_back_slash then
      normpath_nt_initial fuel (pre ++ double_back_slash) (slice path 1)
    else some (pre, path)

/-- The `while (i < comps.size())` loop of `normpath_nt`; `none` when the fuel runs out. -/
def normpath_nt_comps (pre : Str) : Nat → List Str → Nat → Option (List Str)
  | 0, _, _ => none
  | fuel + 1, comps, i =>
    if i < comps.length then
      if comps[i]? = some [] ∨ comps[i]? = some dot then
        normpath_nt_comps pre fuel (comps.eraseIdx i) i
      else if comps[i]? = some double_dot then
        if i > 0 ∧ comps[i - 1]? ≠ some double_dot then
          normpath_nt_comps pre fuel (comps.take (i - 1) ++ comps.drop (i + 1)) (i - 1)
        else if i = 0 ∧ endswith pre double_back_slash then
          normpath_nt_comps pre fuel (comps.eraseIdx i) i
        else normpath_nt_comps pre fuel comps (i + 1)
      else normpath_nt_comps pre fuel comps (i + 1)
    else some comps

/-- The function `normpath_nt(p)`. -/
def normpath_nt (p : Str) : Str :=
  let path0 := replace p forward_slash double_back_slash
  let pre0 := (splitdrive_nt path0).1
  let path1 := (splitdrive_nt path0).2
  let pp : Str × Str :=
    if pre0.isEmpty then
      (normpath_nt_initial (path1.length + 1) pre0 path1).getD ([], [])
    else if startswith path1 double_back_slash then
      (pre0 ++ double_back_slash, lstrip path1 double_back_slash)
    else (pre0, path1)
  let comps0 := split pp.2 double_back_slash
  let comps1 := (normpath_nt_comps pp.1 (2 * comps0.length + 1) comps0 0).getD []
  let comps2 := if pp.1.isEmpty ∧ comps1.isEmpty then comps1 ++ [dot] else comps1
  pp.1 ++ pystring.join double_back_slash comps2

/-- The body of the `for` loop of `normpath_posix`: the new value of `new_comps`. -/
def normpath_posix_step (initial_slashes : Int) (new_comps : List Str) (comp : Str) :
    List Str :=
  if comp.isEmpty ∨ comp = dot then new_comps
  else if comp ≠ double_dot ∨ (initial_slashes = 0 ∧ new_comps.isEmpty) ∨
      (!new_comps.isEmpty ∧ new_comps.getLast? = some double_dot) then
    new_comps ++ [comp]
  else if !new_comps.isEmpty then new_comps.dropLast
  else new_comps

/-- The value of the local variable `initial_slashes` of `normpath_posix` for `path`. -/
def normpath_posix_initial_slashes (path : Str) : Int :=
  let initial_slashes0 : Int := if startswith path forward_slash then 1 else 0
  if initial_slashes0 ≠ 0 ∧ startswith path double_forward_slash ∧
      !startswith path triple_forward_slash then 2
  else initial_slashes0

/-- The function `normpath_posix(p)`. -/
def normpath_posix (p : Str) : Str :=
  if p.isEmpty then dot
  else
    let path := p
    let initial_slashes := normpath_posix_initial_slashes path
    let comps := split path forward_slash
    let new_comps := comps.foldl (normpath_posix_step initial_slashes) []
    let path1 := pystring.join forward_slash new_comps
    let path2 := if initial_slashes > 0 then mul forward_slash initial_slashes ++ path1 else path1
    if path2.isEmpty then dot else path2

/-- The loop `while (filenameIndex < dotIndex)` of `splitext_generic`, by the number `k` of
indices left, `filenameIndex = dotIndex - k`: `true` when it reaches the `return` inside the
loop, `false` when it runs to its end. -/
def splitext_scan (p extsep : Str) (dotIndex : Int) : Nat → Bool
  | 0 => false
  | k + 1 =>
    if slice p (dotIndex - (k + 1 : Nat)) ≠ extsep then true
    else splitext_scan p extsep dotIndex k

/-- The function `splitext_generic(root, ext, p, sep, altsep, extsep)`;
returns `(root, ext)`. -/
def splitext_generic (p sep altsep extsep : Str) : Str × Str :=
  let sepIndex0 := rfind p sep
  let sepIndex := if !altsep.isEmpty then max sepIndex0 (rfind p altsep) else sepIndex0
  let dotIndex := rfind p extsep
  if dotIndex > sepIndex ∧ splitext_scan p extsep dotIndex (dotIndex - (sepIndex + 1)).toNat then
    (slice p 0 dotIndex, slice p dotIndex)
  else (p, empty_string)

def splitext_nt (path : Str) : Str × Str :=
  splitext_generic path double_back_slash forward_slash dot

def splitext_posix (path : Str) : Str × Str :=
  splitext_generic path forward_slash empty_string dot

/-- The function `abspath_posix(path, cwd)`. -/
def abspath_posix (path cwd : Str) : Str :=
  let p := if !isabs_posix path then join_posix2 cwd path else path
  normpath_posix p

/-- The ways in which a run of the segment loop of `normpath_nt` could fail to produce
`comps`: the fuel runs out, or `comps` is read or erased outside its bounds. -/
inductive loop_fault where
  | out_of_fuel
  | out_of_bounds
  deriving DecidableEq

/-- The access `comps[i]` of a `std::vector` with an `int` index; `none` outside the bounds. -/
def vector_at (comps : List Str) (i : Int) : Option Str :=
  if 0 ≤ i ∧ i < (comps.length : Int) then comps[i.toNat]? else none

/-- The call `comps.erase(comps.begin() + first, comps.begin() + last)`; `none` unless
`0 ≤ first ≤ last ≤ size()`. -/
def vector_erase_range (comps : List Str) (first last : Int) : Option (List Str) :=
  if 0 ≤ first ∧ first ≤ last ∧ last ≤ (comps.length : Int) then
    some (comps.take first.toNat ++ comps.drop last.toNat)
  else none

/-- The call `comps.erase(comps.begin() + i)`; `none` unless `0 ≤ i < size()`. -/
def vector_erase (comps : List Str) (i : Int) : Option (List Str) :=
  if 0 ≤ i ∧ i < (comps.length : Int) then some (comps.eraseIdx i.toNat) else none

/-- The `while (i < comps.size())` loop of `normpath_nt` with `i` an `int` and every access
to `comps` checked against its bounds. -/
def normpath_nt_comps_checked (pre : Str) :
    Nat → List Str → Int → Except loop_fault (List Str)
  | 0, _, _ => .error .out_of_fuel
  | fuel + 1, comps, i =>
    if i < (comps.length : Int) then
      match vector_at comps i with
      | none => .error .out_of_bounds
      | some ci =>
        if ci.isEmpty ∨ ci = dot then
          match vector_erase comps i with
          | none => .error .out_of_bounds
          | some comps1 => normpath_nt_comps_checked pre fuel comps1 i
        else if ci = double_dot then
          let rest : Except loop_fault (List Str) :=
            if i = 0 ∧ endswith pre double_back_slash then
              match vector_erase comps i with
              | none => .error .out_of_bounds
              | some comps1 => normpath_nt_comps_checked pre fuel comps1 i
            else normpath_nt_comps_checked pre fuel comps (i + 1)
          if i > 0 then
            match vector_at comps (i - 1) with
            | none => .error .out_of_bounds
            | some cp =>
              if cp ≠ double_dot then
                match vector_erase_range comps (i - 1) (i + 1) with
                | none => .error .out_of_bounds
                | some comps1 => normpath_nt_comps_checked pre fuel comps1 (i - 1)
              else rest
          else rest
        else normpath_nt_comps_checked pre fuel comps (i + 1)
    else .ok comps

end path
end os

/-! ### Specification-level functions

Structural counterparts of the index loops above; the theorems below relate the two. -/

/-- Prepend `cur` to the first segment of a list of segments. -/
def prependHead (cur : Str) : List Str → List Str
  | [] => [cur]
  | h :: t => (cur ++ h) :: t

/-- Splitting of a string at every occurrence of the character `c`. -/
def splitC (c : Char) : Str → List Str
  | [] => [[]]
  | x :: xs => if x = c then [] :: splitC c xs else prependHead [x] (splitC c xs)

/-- The final component of the path `p` for the separator characters `seps`: the part of
`p` after its last separator, or all of `p` if it has none. -/
def final_component (seps : List Char) (p : Str) : Str :=
  (p.reverse.takeWhile (fun c => decide (c ∉ seps))).reverse

/-- Reference definition of `split_posix`, in the words of the specification: `i` is the
index just past the last `'/'` of `p` (0 if there is none), the tail is `p[i:]`, and the head
is `p[:i]` with its trailing `'/'` removed unless `p[:i]` is empty or made only of `'/'`. -/
def split_posix_ref (p : Str) : Str × Str :=
  let i := p.length - (final_component ['/'] p).length
  let tail := p.drop i
  let head0 := p.take i
  if head0 = [] ∨ (∀ c ∈ head0, c = '/') then (head0, tail)
  else ((head0.reverse.dropWhile (fun c => decide (c = '/'))).reverse, tail)

/-- The number of characters at the start of `s` that satisfy `P`. -/
def leading_count (P : Char → Bool) (s : Str) : Nat := (s.takeWhile P).length

/-- Concatenation of segments with `sep` between neighbours. -/
def joinC (sep : Str) : List Str → Str
  | [] => []
  | [x] => x
  | x :: y :: l => x ++ (sep ++ joinC sep (y :: l))

/-- Splitting of a string at the occurrences of the separator `sep` found from left to
right, at most `maxsplit` times: `k` is the number of characters of a separator just found
that are still to be passed over. -/
def splitS (sep : Str) : Nat → Int → Str → List Str
  | _, _, [] => [[]]
  | k + 1, m, _ :: l => splitS sep k m l
  | 0, m, c :: l =>
    if sep.isPrefixOf (c :: l) ∧ 0 < m then [] :: splitS sep (sep.length - 1) (m - 1) l
    else prependHead [c] (splitS sep 0 m l)

end pystring

/-! ## Theorems

First the string layer (index adjustment, slicing, prefix and suffix tests, searching,
splitting, stripping, replacing), then the path functions built on it. -/

namespace pystring

theorem MAX_32BIT_INT_pos : (0 : Int) < MAX_32BIT_INT := by decide

theorem ADJUST_INDICES_fst_nat (n : Nat) (e len : Int) : (ADJUST_INDICES n e len).1 = n := by
  unfold ADJUST_INDICES
  have : ¬ ((n : Int) < 0) := by omega
  simp only [this, if_false]

theorem ADJUST_INDICES_snd_nat (s : Int) (e len : Nat) :
    (ADJUST_INDICES s e len).2 = ((min e len : Nat) : Int) := by
  unfold ADJUST_INDICES
  simp only []
  split_ifs <;> omega

theorem ADJUST_INDICES_snd_max (s : Int) (len : Nat) (h : (len : Int) ≤ MAX_32BIT_INT) :
    (ADJUST_INDICES s MAX_32BIT_INT len).2 = len := by
  unfold ADJUST_INDICES
  have := MAX_32BIT_INT_pos
  generalize MAX_32BIT_INT = M at *
  simp only []
  split_ifs <;> omega

theorem slice_eq (s : Str) (a b : Int) :
    slice s a b = (s.drop (ADJUST_INDICES a b s.length).1.toNat).take
      ((ADJUST_INDICES a b s.length).2 - (ADJUST_INDICES a b s.length).1).toNat := by
  unfold slice substr empty_string
  simp only []
  split_ifs with h
  · have : ((ADJUST_INDICES a b s.length).2 - (ADJUST_INDICES a b s.length).1).toNat = 0 := by
      omega
    rw [this, List.take_zero]
  · rfl

theorem slice_to_nat (s : Str) (n : Nat) : slice s 0 n = s.take n := by
  rw [slice_eq, ADJUST_INDICES_snd_nat]
  have := ADJUST_INDICES_fst_nat 0 (n : Int) (s.length : Int)
  simp only [Nat.cast_zero] at this
  rw [this]
  simp only [Int.toNat_zero, List.drop_zero, sub_zero, Int.toNat_ofNat]
  rw [List.take_eq_take]
  omega

theorem slice_from_nat (s : Str) (n : Nat) (h : (s.length : Int) ≤ MAX_32BIT_INT) :
    slice s n = s.drop n := by
  rw [slice_eq, ADJUST_INDICES_snd_max _ _ h, ADJUST_INDICES_fst_nat]
  simp only [Int.toNat_ofNat]
  apply List.take_of_length_le
  simp only [List.length_drop]
  omega

namespace os
namespace path

theorem splitdrive_nt_fst (p : Str) :
    (splitdrive_nt p).1 = if 2 ≤ p.length ∧ p[1]? = some ':' then p.take 2 else [] := by
  unfold splitdrive_nt
  split_ifs with h
  · have := slice_to_nat p 2
    simpa using this
  · rfl

theorem splitdrive_nt_snd (p : Str) (h : (p.length : Int) ≤ MAX_32BIT_INT) :
    (splitdrive_nt p).2 = if 2 ≤ p.length ∧ p[1]? = some ':' then p.drop 2 else p := by
  unfold splitdrive_nt
  split_ifs with h1
  · have := slice_from_nat p 2 h
    simpa using this
  · rfl

/-- C1: for every string `p` (of a size that fits `int`), `splitdrive_nt(p)` returns
`(drive, rest)` with `drive ++ rest = p`; `drive` is the first two characters of `p` when `p`
has at least two characters and its second character is `':'`, and otherwise `drive` is
empty and `rest = p` (the empty and the one-character strings included). -/
theorem splitdrive_nt_spec (p : Str) (h : (p.length : Int) ≤ MAX_32BIT_INT) :
    (splitdrive_nt p).1 ++ (splitdrive_nt p).2 = p ∧
    ((2 ≤ p.length ∧ p[1]? = some ':') → (splitdrive_nt p).1 = p.take 2) ∧
    (¬ (2 ≤ p.length ∧ p[1]? = some ':') →
      (splitdrive_nt p).1 = [] ∧ (splitdrive_nt p).2 = p) := by
  rw [splitdrive_nt_fst, splitdrive_nt_snd p h]
  refine ⟨?_, ?_, ?_⟩
  · split_ifs
    · exact List.take_append_drop 2 p
    · rfl
  · intro h1
    rw [if_pos h1]
  · intro h1
    rw [if_neg h1, if_neg h1]
    exact ⟨rfl, rfl⟩

/-- The statement of `splitdrive_nt_spec` at the path `"c:/a"`. -/
theorem splitdrive_nt_spec_witness :
    (("c:/a".toList.length : Int) ≤ MAX_32BIT_INT) ∧
    ((splitdrive_nt "c:/a".toList).1 ++ (splitdrive_nt "c:/a".toList).2 = "c:/a".toList ∧
    ((2 ≤ "c:/a".toList.length ∧ "c:/a".toList[1]? = some ':') →
      (splitdrive_nt "c:/a".toList).1 = "c:/a".toList.take 2) ∧
    (¬ (2 ≤ "c:/a".toList.length ∧ "c:/a".toList[1]? = some ':') →
      (splitdrive_nt "c:/a".toList).1 = [] ∧
      (splitdrive_nt "c:/a".toList).2 = "c:/a".toList)) :=
  ⟨by decide, splitdrive_nt_spec "c:/a".toList (by decide)⟩

end path
end os

theorem slice_append_slice (s : Str) (i : Int) (h : (s.length : Int) ≤ MAX_32BIT_INT) :
    slice s 0 i ++ slice s i = s := by
  rw [slice_eq, slice_eq, ADJUST_INDICES_snd_max _ _ h]
  have h0 := ADJUST_INDICES_fst_nat 0 i (s.length : Int)
  simp only [Nat.cast_zero] at h0
  rw [h0]
  simp only [Int.toNat_zero, List.drop_zero, sub_zero]
  have e1 : (ADJUST_INDICES 0 i s.length).2 =
      if i > s.length then (s.length : Int) else if i < 0 then (if i + s.length < 0 then 0 else i + s.length) else i := rfl
  have e2 : (ADJUST_INDICES i MAX_32BIT_INT s.length).1 =
      if i < 0 then (if i + s.length < 0 then 0 else i + s.length) else i := rfl
  rw [e1, e2]
  by_cases h1 : i > s.length
  · have h2 : ¬ i < 0 := by omega
    rw [if_pos h1, if_neg h2]
    have : ((s.length : Int) - i).toNat = 0 := by omega
    rw [this]
    simp
  · rw [if_neg h1]
    generalize (if i < 0 then (if i + (s.length : Int) < 0 then 0 else i + s.length) else i) = k
    rw [List.take_of_length_le (l := List.drop k.toNat s)]
    · exact List.take_append_drop _ _
    · simp only [List.length_drop]
      omega

namespace os
namespace path

theorem splitext_generic_append (p sep altsep extsep : Str)
    (h : (p.length : Int) ≤ MAX_32BIT_INT) :
    (splitext_generic p sep altsep extsep).1 ++ (splitext_generic p sep altsep extsep).2 = p := by
  unfold splitext_generic
  simp only []
  split_ifs
  all_goals first
    | exact slice_append_slice p _ h
    | simp [empty_string]

/-- C2: for every string `p` (of a size that fits `int`), `splitext_posix(p)` and
`splitext_nt(p)` each return `(root, ext)` with `root ++ ext = p` exactly. -/
theorem splitext_root_append_ext (p : Str) (h : (p.length : Int) ≤ MAX_32BIT_INT) :
    (splitext_posix p).1 ++ (splitext_posix p).2 = p ∧
    (splitext_nt p).1 ++ (splitext_nt p).2 = p :=
  ⟨splitext_generic_append p _ _ _ h, splitext_generic_append p _ _ _ h⟩

/-- The statement of `splitext_root_append_ext` at the path `"a/b.tar.gz"`. -/
theorem splitext_root_append_ext_witness :
    (("a/b.tar.gz".toList.length : Int) ≤ MAX_32BIT_INT) ∧
    ((splitext_posix "a/b.tar.gz".toList).1 ++ (splitext_posix "a/b.tar.gz".toList).2 =
        "a/b.tar.gz".toList ∧
      (splitext_nt "a/b.tar.gz".toList).1 ++ (splitext_nt "a/b.tar.gz".toList).2 =
        "a/b.tar.gz".toList) :=
  ⟨by decide, splitext_root_append_ext "a/b.tar.gz".toList (by decide)⟩

end path
end os

theorem ADJUST_INDICES_snd_max_ge (s : Int) (len : Nat) :
    (ADJUST_INDICES s MAX_32BIT_INT len).2 = min MAX_32BIT_INT len := by
  unfold ADJUST_INDICES
  have := MAX_32BIT_INT_pos
  generalize MAX_32BIT_INT = M at *
  simp only []
  split_ifs <;> omega

theorem startswith_single (s : Str) (c : Char) :
    startswith s [c] = true ↔ s.head? = some c := by
  unfold startswith _string_tailmatch
  have h0 := ADJUST_INDICES_fst_nat 0 MAX_32BIT_INT (s.length : Int)
  simp only [Nat.cast_zero] at h0
  simp only [h0, ADJUST_INDICES_snd_max_ge, substr]
  have := MAX_32BIT_INT_pos
  generalize MAX_32BIT_INT = M at *
  cases s with
  | nil => simp
  | cons x l =>
    have h1 : ¬ ((0 : Int) + (([c] : Str).length : Int) > ((x :: l).length : Int)) := by
      simp only [List.length_cons, List.length_nil]; omega
    have h2 : min M (((x :: l).length : Nat) : Int) - 0 ≥ (([c] : Str).length : Int) := by
      simp only [List.length_cons, List.length_nil]; omega
    simp only [h1, h2, if_false, if_true]
    simp

theorem endswith_single (s : Str) (c : Char) (h : (s.length : Int) ≤ MAX_32BIT_INT) :
    endswith s [c] = true ↔ s.getLast? = some c := by
  unfold endswith _string_tailmatch
  have h0 := ADJUST_INDICES_fst_nat 0 MAX_32BIT_INT (s.length : Int)
  simp only [Nat.cast_zero] at h0
  simp only [h0, ADJUST_INDICES_snd_max _ _ h, substr]
  rcases List.eq_nil_or_concat s with rfl | ⟨l, x, rfl⟩
  · simp
  · rw [List.concat_eq_append] at h ⊢
    have h1 : ¬ (((l ++ [x]).length : Int) - 0 < (([c] : Str).length : Int) ∨
        (0 : Int) > ((l ++ [x]).length : Int)) := by
      simp only [List.length_append, List.length_cons, List.length_nil]; omega
    simp only [h1, if_false]
    by_cases h2 : ((l ++ [x]).length : Int) - (([c] : Str).length : Int) > 0
    · simp only [h2, if_true]
      have h3 : ((l ++ [x]).length : Int) - (((l ++ [x]).length : Int) - (([c] : Str).length : Int))
          ≥ (([c] : Str).length : Int) := by omega
      simp only [h3, if_true]
      have h4 : (((l ++ [x]).length : Int) - (([c] : Str).length : Int)).toNat = l.length := by
        simp only [List.length_append, List.length_cons, List.length_nil]; omega
      rw [h4]
      simp
    · simp only [h2, if_false]
      have hl : l = [] := by
        simp only [List.length_append, List.length_cons, List.length_nil] at h2
        apply List.eq_nil_of_length_eq_zero
        omega
      subst hl
      simp

namespace os
namespace path

theorem join_posix_cons (x : Str) (rest : List Str) :
    join_posix (x :: rest) = rest.foldl join_posix_step x := by
  cases rest <;> rfl

theorem join_posix2_eq_step (a b : Str) : join_posix2 a b = join_posix_step a b := rfl

theorem join_posix_step_abs (path b : Str) (hb : b.head? = some '/') :
    join_posix_step path b = b := by
  unfold join_posix_step forward_slash
  rw [if_pos ((startswith_single b '/').2 hb)]

theorem join_posix_step_eq (path b : Str) (h : (path.length : Int) ≤ MAX_32BIT_INT) :
    join_posix_step path b =
      if b.head? = some '/' then b
      else if path = [] ∨ path.getLast? = some '/' then path ++ b
      else path ++ ['/'] ++ b := by
  unfold join_posix_step forward_slash
  by_cases hb : b.head? = some '/'
  · rw [if_pos ((startswith_single b '/').2 hb), if_pos hb]
  · have hb1 : ¬ (startswith b ['/'] = true) := fun h1 => hb ((startswith_single b '/').1 h1)
    rw [if_neg hb1, if_neg hb]
    by_cases hp : path = [] ∨ path.getLast? = some '/'
    · rw [if_pos hp]
      have : (path.isEmpty || endswith path ['/']) = true := by
        rcases hp with hp | hp
        · simp [hp]
        · simp [(endswith_single path '/' h).2 hp]
      rw [if_pos this]
    · rw [if_neg hp]
      have : ¬ ((path.isEmpty || endswith path ['/']) = true) := by
        intro h1
        apply hp
        rcases Bool.or_eq_true _ _ ▸ h1 with h2 | h2
        · left; simpa using h2
        · right; exact (endswith_single path '/' h).1 h2
      rw [if_neg this]
      simp

/-- C9: for all strings `a` and `b` of sizes that fit `int`, `join_posix(a, b)` is `b` if
`b` starts with `'/'`; otherwise `a ++ b` if `a` is empty or ends with `'/'`; otherwise
`a ++ "/" ++ b`. The two bounds are those under which the conversions of `size()` to `int`
in `endswith(a, "/")` and `startswith(b, "/")` are exact. -/
theorem join_posix2_spec (a b : Str) (h : (a.length : Int) ≤ MAX_32BIT_INT)
    (_hb : (b.length : Int) ≤ MAX_32BIT_INT) :
    join_posix2 a b =
      if b.head? = some '/' then b
      else if a = [] ∨ a.getLast? = some '/' then a ++ b
      else a ++ ['/'] ++ b := by
  unfold join_posix2
  rw [join_posix_cons]
  exact join_posix_step_eq a b h

/-- The scenario `join_posix("a/", "/b") = "/b"`, from `join_posix2_spec`. -/
theorem join_posix2_spec_witness :
    (("a/".toList.length : Int) ≤ MAX_32BIT_INT) ∧
    (("/b".toList.length : Int) ≤ MAX_32BIT_INT) ∧
    join_posix2 "a/".toList "/b".toList = "/b".toList :=
  ⟨by decide, by decide,
    (join_posix2_spec "a/".toList "/b".toList (by decide) (by decide)).trans (by decide)⟩

/-- C7: for every string `a` with `isabs_posix(a)` and every string `b`, the sizes of `a`, of
`b` and of `join_posix(a, b)` fitting `int`, `isabs_posix(join_posix(a, b))` is true. The
bounds are those under which the conversions of `size()` to `int` in the tests on `a`, on `b`
and on the joined path are exact. -/
theorem isabs_posix_join_posix2 (a b : Str) (ha : isabs_posix a = true)
    (_ha : (a.length : Int) ≤ MAX_32BIT_INT) (_hb : (b.length : Int) ≤ MAX_32BIT_INT)
    (_hj : ((join_posix2 a b).length : Int) ≤ MAX_32BIT_INT) :
    isabs_posix (join_posix2 a b) = true := by
  unfold isabs_posix forward_slash at *
  rw [startswith_single] at ha ⊢
  unfold join_posix2
  rw [join_posix_cons]
  simp only [List.foldl_cons, List.foldl_nil]
  unfold join_posix_step forward_slash
  split_ifs with h1 h2
  · exact (startswith_single b '/').1 h1
  · cases a with
    | nil => simp at ha
    | cons x l => simpa using ha
  · cases a with
    | nil => simp at ha
    | cons x l => simpa using ha

/-- The statement of `isabs_posix_join_posix2` at `"/usr"` and `"lib"`. -/
theorem isabs_posix_join_posix2_witness :
    isabs_posix "/usr".toList = true ∧
    (("/usr".toList.length : Int) ≤ MAX_32BIT_INT) ∧
    (("lib".toList.length : Int) ≤ MAX_32BIT_INT) ∧
    (((join_posix2 "/usr".toList "lib".toList).length : Int) ≤ MAX_32BIT_INT) ∧
    join_posix2 "/usr".toList "lib".toList = "/usr/lib".toList ∧
    isabs_posix (join_posix2 "/usr".toList "lib".toList) = true :=
  ⟨by decide, by decide, by decide, by decide, by decide,
    isabs_posix_join_posix2 "/usr".toList "lib".toList (by decide) (by decide) (by decide)
      (by decide)⟩

/-- C10: in the sequence form of Posix join an absolute component discards everything before
it: for every list `xs`, every string `b` starting with `'/'` whose size fits `int` and every
list `ys`, `join_posix(xs ++ [b] ++ ys) = join_posix([b] ++ ys)`. The bound on `b` is the one
under which the conversion of `size()` to `int` in `startswith(b, "/")` is exact; from `b` on
the two calls are in the same state. -/
theorem join_posix_absolute_resets (xs : List Str) (b : Str) (ys : List Str)
    (hb : b.head? = some '/') (_hbl : (b.length : Int) ≤ MAX_32BIT_INT) :
    join_posix (xs ++ [b] ++ ys) = join_posix ([b] ++ ys) := by
  cases xs with
  | nil => rfl
  | cons x xs =>
    have e : x :: xs ++ [b] ++ ys = x :: (xs ++ b :: ys) := by simp
    rw [e, join_posix_cons, List.foldl_append, List.foldl_cons, join_posix_step_abs _ b hb]
    have e2 : [b] ++ ys = b :: ys := rfl
    rw [e2, join_posix_cons]

/-- The statement of `join_posix_absolute_resets` at `["x", "y/"]`, `"/b"`, `["c"]`. -/
theorem join_posix_absolute_resets_witness :
    "/b".toList.head? = some '/' ∧
    (("/b".toList.length : Int) ≤ MAX_32BIT_INT) ∧
    join_posix (["x".toList, "y/".toList] ++ ["/b".toList] ++ ["c".toList]) = "/b/c".toList ∧
    join_posix (["x".toList, "y/".toList] ++ ["/b".toList] ++ ["c".toList]) =
      join_posix (["/b".toList] ++ ["c".toList]) :=
  ⟨by decide, by decide, by decide,
    join_posix_absolute_resets ["x".toList, "y/".toList] "/b".toList ["c".toList] (by decide)
      (by decide)⟩

end path
end os

theorem MAX_32BIT_INT_gt_two : (2 : Int) < MAX_32BIT_INT := by decide

theorem ADJUST_INDICES_fst_nonneg (a e len : Int) (h : 0 ≤ a) :
    (ADJUST_INDICES a e len).1 = a := by
  unfold ADJUST_INDICES
  have : ¬ (a < 0) := by omega
  simp only [this, if_false]

namespace os
namespace path

theorem slice_two_head (q : Str) : (slice q 2)[0]? = q[2]? := by
  rw [slice_eq, ADJUST_INDICES_snd_max_ge, ADJUST_INDICES_fst_nonneg 2 _ _ (by omega)]
  have := MAX_32BIT_INT_gt_two
  generalize MAX_32BIT_INT = M at *
  by_cases h : q.length ≤ 2
  · have h1 : (min M (q.length : Int) - 2).toNat = 0 := by omega
    have h2 : q[2]? = none := List.getElem?_eq_none h
    rw [h1, h2]
    rfl
  · have h1 : 0 < (min M (q.length : Int) - 2).toNat := by omega
    rw [List.getElem?_take_of_lt h1]
    simp

theorem getElem?_one_some_length {q : Str} {c : Char} (h : q[1]? = some c) : 2 ≤ q.length := by
  by_contra hc
  have : q[1]? = none := List.getElem?_eq_none (by omega)
  rw [this] at h
  exact Option.noConfusion h

theorem splitdrive_nt_of_drive {q : Str} (h : q[1]? = some ':') :
    splitdrive_nt q = (slice q 0 2, slice q 2) := by
  unfold splitdrive_nt
  exact if_pos ⟨getElem?_one_some_length h, h⟩

theorem splitdrive_nt_of_not_drive {q : Str} (h : q[1]? ≠ some ':') :
    splitdrive_nt q = ([], q) := by
  unfold splitdrive_nt
  exact if_neg (fun hc => h hc.2)

theorem isabs_nt_of_pathspec (q pathspec : Str) (h : (splitdrive_nt q).2 = pathspec) :
    isabs_nt q = true ↔ (pathspec[0]? = some '/' ∨ pathspec[0]? = some '\\') := by
  unfold isabs_nt
  rw [h]
  cases pathspec with
  | nil => simp
  | cons x l => simp

theorem isabs_nt_iff (q : Str) :
    isabs_nt q = true ↔
      if q[1]? = some ':' then (q[2]? = some '/' ∨ q[2]? = some '\\')
      else (q[0]? = some '/' ∨ q[0]? = some '\\') := by
  by_cases h : q[1]? = some ':'
  · rw [isabs_nt_of_pathspec q (slice q 2) (by rw [splitdrive_nt_of_drive h]), if_pos h,
      slice_two_head]
  · rw [isabs_nt_of_pathspec q q (by rw [splitdrive_nt_of_not_drive h]), if_neg h]

theorem join_nt_b_nts_true (path b : Str) (hp : path ≠ []) (h : join_nt_b_nts path b = true) :
    isabs_nt b = true := by
  unfold join_nt_b_nts at h
  have hne : path.isEmpty = false := by
    cases path with
    | nil => exact absurd rfl hp
    | cons x l => rfl
  rw [hne] at h
  simp only [Bool.false_eq_true, if_false] at h
  by_contra hb
  rw [if_neg hb] at h
  exact Bool.false_ne_true h

theorem join_nt_step_cases (path b : Str) (hp : path ≠ []) :
    (join_nt_step path b = b ∧ isabs_nt b = true) ∨ ∃ x, join_nt_step path b = path ++ x := by
  unfold join_nt_step
  by_cases hb : join_nt_b_nts path b = true
  · rw [if_pos hb]
    exact Or.inl ⟨rfl, join_nt_b_nts_true path b hp hb⟩
  · rw [if_neg hb]
    right
    split_ifs
    all_goals exact ⟨_, rfl⟩

theorem join_nt2_eq (a b : Str) : join_nt2 a b = join_nt_step a b := rfl

/-- C8, the claim as stated fails: the single separator `"/"` is Windows-absolute, yet
`join_nt("/", ":")` is `"/:"`, which `splitdrive_nt` reads as the drive `"/:"` with an empty
remainder, so it is not Windows-absolute. -/
theorem isabs_nt_join_nt2_counterexample :
    isabs_nt "/".toList = true ∧
    join_nt2 "/".toList ":".toList = "/:".toList ∧
    isabs_nt (join_nt2 "/".toList ":".toList) = false := by decide

/-- C8 as amended: for every string `a` with `isabs_nt(a)` and every string `b`, the sizes of
`a`, of `b` and of `join_nt(a, b)` fitting `int`, `isabs_nt(join_nt(a, b))` is true provided
`a` has at least two characters or the second character of `join_nt(a, b)` is not `':'`. The
bounds are those under which the conversions of `size()` to `int` in the slices and tests on
`a`, on `b` and on the joined path are exact. -/
theorem isabs_nt_join_nt2 (a b : Str) (ha : isabs_nt a = true)
    (h : 2 ≤ a.length ∨ (join_nt2 a b)[1]? ≠ some ':')
    (_ha : (a.length : Int) ≤ MAX_32BIT_INT) (_hb : (b.length : Int) ≤ MAX_32BIT_INT)
    (_hj : ((join_nt2 a b).length : Int) ≤ MAX_32BIT_INT) :
    isabs_nt (join_nt2 a b) = true := by
  have hne : a ≠ [] := by
    intro h0
    subst h0
    simp [isabs_nt, splitdrive_nt, empty_string] at ha
  rw [join_nt2_eq] at h ⊢
  rcases join_nt_step_cases a b hne with ⟨e, hb⟩ | ⟨x, e⟩
  · rw [e]; exact hb
  · rw [e] at h ⊢
    rw [isabs_nt_iff] at ha ⊢
    rcases h with h | h
    · have e1 : (a ++ x)[1]? = a[1]? := List.getElem?_append_left (by omega)
      have e0 : (a ++ x)[0]? = a[0]? := List.getElem?_append_left (by omega)
      rw [e1, e0]
      by_cases hd : a[1]? = some ':'
      · rw [if_pos hd] at ha ⊢
        have h3 : 2 < a.length := by
          by_contra hc
          have hn : a[2]? = none := List.getElem?_eq_none (by omega)
          rw [hn] at ha
          simp at ha
        have e2 : (a ++ x)[2]? = a[2]? := List.getElem?_append_left h3
        rw [e2]
        exact ha
      · rw [if_neg hd] at ha ⊢
        exact ha
    · rw [if_neg h]
      have h1 : 0 < a.length := List.length_pos.2 hne
      have e0 : (a ++ x)[0]? = a[0]? := List.getElem?_append_left h1
      rw [e0]
      by_cases hd : a[1]? = some ':'
      · exfalso
        apply h
        have h2 : 1 < a.length := getElem?_one_some_length hd
        rw [List.getElem?_append_left h2]
        exact hd
      · rw [if_neg hd] at ha
        exact ha

/-- The statement of `isabs_nt_join_nt2` at `"c:/"` and `"/a"`. -/
theorem isabs_nt_join_nt2_witness :
    isabs_nt "c:/".toList = true ∧
    (2 ≤ "c:/".toList.length ∨ (join_nt2 "c:/".toList "/a".toList)[1]? ≠ some ':') ∧
    (("c:/".toList.length : Int) ≤ MAX_32BIT_INT) ∧
    (("/a".toList.length : Int) ≤ MAX_32BIT_INT) ∧
    (((join_nt2 "c:/".toList "/a".toList).length : Int) ≤ MAX_32BIT_INT) ∧
    isabs_nt (join_nt2 "c:/".toList "/a".toList) = true :=
  ⟨by decide, by decide, by decide, by decide, by decide,
    isabs_nt_join_nt2 "c:/".toList "/a".toList (by decide) (by decide) (by decide) (by decide)
      (by decide)⟩

/-- C6, the code at the failing input `"ab:/c"`: `split_nt` strips the separator after
`"ab:"`, `join_nt` appends `"c"` to a head ending in `':'` without a separator, and the two
normal forms differ. -/
theorem split_nt_join_nt_failing_input :
    split_nt "ab:/c".toList = ("ab:".toList, "c".toList) ∧
    join_nt2 "ab:".toList "c".toList = "ab:c".toList ∧
    normpath_nt (join_nt2 (split_nt "ab:/c".toList).1 (split_nt "ab:/c".toList).2) =
      "ab:c".toList ∧
    normpath_nt "ab:/c".toList = "ab:\\c".toList := by decide

end path
end os

theorem splitC_ne_nil (c : Char) (s : Str) : splitC c s ≠ [] := by
  induction s with
  | nil => simp [splitC]
  | cons x xs ih =>
    unfold splitC
    split_ifs
    · simp
    · cases h : splitC c xs with
      | nil => exact absurd h ih
      | cons a t => simp [prependHead]

theorem prependHead_nil_left (l : List Str) (h : l ≠ []) : prependHead [] l = l := by
  cases l with
  | nil => exact absurd rfl h
  | cons a t => rfl

theorem prependHead_prependHead (a b : Str) (l : List Str) :
    prependHead a (prependHead b l) = prependHead (a ++ b) l := by
  cases l with
  | nil => rfl
  | cons x t => simp [prependHead]

theorem prependHead_append (a : Str) (l m : List Str) (h : l ≠ []) :
    prependHead a (l ++ m) = prependHead a l ++ m := by
  cases l with
  | nil => exact absurd rfl h
  | cons x t => rfl

theorem splitC_cons_sep (c : Char) (xs : Str) : splitC c (c :: xs) = [] :: splitC c xs := by
  simp [splitC]

theorem splitC_cons_ne (c x : Char) (xs : Str) (h : x ≠ c) :
    splitC c (x :: xs) = prependHead [x] (splitC c xs) := by
  simp [splitC, h]

theorem splitC_append_sep (c : Char) (a b : Str) :
    splitC c (a ++ c :: b) = splitC c a ++ splitC c b := by
  induction a with
  | nil => simp [splitC]
  | cons x a ih =>
    by_cases h : x = c
    · subst h
      simp only [List.cons_append, splitC_cons_sep, ih]
    · simp only [List.cons_append, splitC_cons_ne c x _ h, ih]
      exact prependHead_append _ _ _ (splitC_ne_nil c a)

theorem splitC_of_not_mem (c : Char) (a : Str) (h : c ∉ a) : splitC c a = [a] := by
  induction a with
  | nil => rfl
  | cons x a ih =>
    have hx : x ≠ c := fun e => h (by simp [e])
    have ha : c ∉ a := fun e => h (by simp [e])
    rw [splitC_cons_ne c x a hx, ih ha]
    rfl

theorem not_mem_of_mem_splitC (c : Char) (s x : Str) (h : x ∈ splitC c s) : c ∉ x := by
  induction s generalizing x with
  | nil =>
    simp only [splitC, List.mem_singleton] at h
    subst h
    simp
  | cons y ys ih =>
    by_cases hy : y = c
    · subst hy
      rw [splitC_cons_sep] at h
      rcases List.mem_cons.1 h with h | h
      · subst h; simp
      · exact ih x h
    · rw [splitC_cons_ne c y ys hy] at h
      cases hs : splitC c ys with
      | nil => exact absurd hs (splitC_ne_nil c ys)
      | cons a t =>
        rw [hs] at h ih
        simp only [prependHead, List.mem_cons] at h
        rcases h with h | h
        · subst h
          have := ih a (by simp)
          simp only [List.singleton_append, List.mem_cons, not_or]
          exact ⟨fun e => hy e.symm, this⟩
        · exact ih x (by simp [h])

theorem splitC_joinC (c : Char) (l : List Str) (hl : l ≠ []) (h : ∀ x ∈ l, c ∉ x) :
    splitC c (joinC [c] l) = l := by
  induction l with
  | nil => exact absurd rfl hl
  | cons x l ih =>
    cases l with
    | nil =>
      simp only [joinC]
      exact splitC_of_not_mem c x (h x (by simp))
    | cons y l =>
      simp only [joinC, List.singleton_append]
      rw [splitC_append_sep, splitC_of_not_mem c x (h x (by simp)),
        ih (by simp) (fun z hz => h z (by simp [hz]))]
      rfl

theorem join_eq_joinC (sep : Str) (l : List Str) : join sep l = joinC sep l := by
  have key : ∀ (rest : List Str) (x : Str),
      rest.foldl (fun result s => result ++ (sep ++ s)) x = joinC sep (x :: rest) := by
    intro rest
    induction rest with
    | nil => intro x; rfl
    | cons y rest ih =>
      intro x
      simp only [List.foldl_cons, joinC]
      rw [ih]
      cases rest with
      | nil => simp [joinC]
      | cons z rest => simp [joinC]
  cases l with
  | nil => rfl
  | cons x rest =>
    cases rest with
    | nil => rfl
    | cons y rest => exact key (y :: rest) x

theorem substr_snoc (str : Str) (j i : Nat) (x : Char) (hj : j ≤ i) (hx : str[i]? = some x) :
    substr str j (i + 1 - j) = substr str j (i - j) ++ [x] := by
  unfold substr
  have e : i + 1 - j = (i - j) + 1 := by omega
  rw [e, List.take_succ]
  congr 1
  rw [List.getElem?_drop]
  have : j + (i - j) = i := by omega
  rw [this, hx]
  rfl

theorem split_loop_single (str : Str) (c : Char) :
    ∀ (fuel i j : Nat) (maxsplit : Int) (result : List Str),
      j ≤ i → i ≤ str.length → str.length - i + 1 ≤ fuel →
      ((str.length : Int) - i ≤ maxsplit) →
      ∃ j1 result1, split_loop str [c] fuel i j maxsplit result = some (j1, result1) ∧
        result1 ++ [substr str j1 (str.length - j1)] =
          result ++ prependHead (substr str j (i - j)) (splitC c (str.drop i)) := by
  intro fuel
  induction fuel with
  | zero => intro i j maxsplit result _ _ hf; omega
  | succ fuel ih =>
    intro i j maxsplit result hj hi hf hm
    unfold split_loop
    by_cases h1 : i + ([c] : Str).length ≤ str.length
    · rw [if_pos h1]
      simp only [List.length_singleton] at h1
      have hlt : i < str.length := by omega
      have hd : str.drop i = str[i] :: str.drop (i + 1) := List.drop_eq_getElem_cons hlt
      have hx : str[i]? = some str[i] := List.getElem?_eq_getElem hlt
      by_cases h2 : str[i] = c
      · have hc : str[i]? = ([c] : Str)[0]? ∧ substr str i ([c] : Str).length = [c] := by
          refine ⟨by rw [hx, h2]; rfl, ?_⟩
          unfold substr
          rw [hd, h2]
          rfl
        rw [if_pos hc]
        have hm2 : ¬ maxsplit ≤ 0 := by omega
        rw [if_neg hm2]
        simp only [List.length_singleton]
        obtain ⟨j1, result1, e1, e2⟩ := ih (i + 1) (i + 1) (maxsplit - 1)
          (result ++ [substr str j (i - j)]) (le_refl _) (by omega) (by omega) (by omega)
        refine ⟨j1, result1, e1, ?_⟩
        rw [e2, hd, h2, splitC_cons_sep]
        have e3 : substr str (i + 1) (i + 1 - (i + 1)) = [] := by simp [substr]
        rw [e3, prependHead_nil_left _ (splitC_ne_nil _ _)]
        simp [prependHead]
      · have hc : ¬ (str[i]? = ([c] : Str)[0]? ∧ substr str i ([c] : Str).length = [c]) := by
          intro hc
          apply h2
          have := hc.1
          rw [hx] at this
          simpa using this
        rw [if_neg hc]
        obtain ⟨j1, result1, e1, e2⟩ := ih (i + 1) j maxsplit result
          (by omega) (by omega) (by omega) (by omega)
        refine ⟨j1, result1, e1, ?_⟩
        rw [e2, hd, splitC_cons_ne c _ _ h2, prependHead_prependHead,
          substr_snoc str j i _ hj hx]
    · rw [if_neg h1]
      simp only [List.length_singleton] at h1
      have hi2 : i = str.length := by omega
      refine ⟨j, result, rfl, ?_⟩
      subst hi2
      simp [splitC, prependHead]

theorem split_single (s : Str) (c : Char) (h : (s.length : Int) ≤ MAX_32BIT_INT) :
    split s [c] = splitC c s := by
  unfold split
  have h1 : ((-1 : Int) < 0) := by decide
  simp only [h1, if_true, List.length_singleton]
  have h2 : ¬ (1 = 0) := by decide
  rw [if_neg h2]
  obtain ⟨j1, result1, e1, e2⟩ := split_loop_single s c (s.length + 1) 0 0 MAX_32BIT_INT []
    (le_refl _) (Nat.zero_le _) (by omega) (by simpa using h)
  rw [e1]
  simp only []
  rw [e2]
  simp only [List.nil_append, Nat.sub_zero, List.drop_zero, substr, List.take_zero]
  exact prependHead_nil_left _ (splitC_ne_nil _ _)

theorem startswith_iff_take (s pre : Str) (h : (pre.length : Int) ≤ MAX_32BIT_INT) :
    startswith s pre = true ↔ s.take pre.length = pre := by
  unfold startswith _string_tailmatch
  have h0 := ADJUST_INDICES_fst_nat 0 MAX_32BIT_INT (s.length : Int)
  simp only [Nat.cast_zero] at h0
  simp only [h0, ADJUST_INDICES_snd_max_ge, substr]
  generalize MAX_32BIT_INT = M at *
  by_cases h1 : (0 : Int) + (pre.length : Int) > (s.length : Int)
  · rw [if_pos h1]
    constructor
    · intro hc; exact absurd hc (by simp)
    · intro hc
      have := congrArg List.length hc
      simp only [List.length_take] at this
      omega
  · rw [if_neg h1]
    have h2 : min M (s.length : Int) - 0 ≥ (pre.length : Int) := by omega
    rw [if_pos h2]
    simp

namespace os
namespace path

theorem normpath_posix_initial_slashes_nil : normpath_posix_initial_slashes [] = 0 := by
  decide

theorem normpath_posix_initial_slashes_cons_ne (x : Char) (l : Str) (h : x ≠ '/') :
    normpath_posix_initial_slashes (x :: l) = 0 := by
  unfold normpath_posix_initial_slashes forward_slash
  have h1 : ¬ (startswith (x :: l) ['/'] = true) := by
    rw [startswith_single]
    simpa using h
  simp [h1]

theorem normpath_posix_initial_slashes_one (l : Str) (h : l.head? ≠ some '/') :
    normpath_posix_initial_slashes ('/' :: l) = 1 := by
  unfold normpath_posix_initial_slashes forward_slash double_forward_slash
  have h1 : startswith ('/' :: l) ['/'] = true := by
    rw [startswith_single]; rfl
  have h2 : ¬ (startswith ('/' :: l) ['/', '/'] = true) := by
    rw [startswith_iff_take _ _ (by decide)]
    cases l with
    | nil => simp
    | cons y l => simpa using h
  simp [h1, h2]

theorem normpath_posix_initial_slashes_two (l : Str) (h : l.head? ≠ some '/') :
    normpath_posix_initial_slashes ('/' :: '/' :: l) = 2 := by
  unfold normpath_posix_initial_slashes forward_slash double_forward_slash triple_forward_slash
  have h1 : startswith ('/' :: '/' :: l) ['/'] = true := by
    rw [startswith_single]; rfl
  have h2 : startswith ('/' :: '/' :: l) ['/', '/'] = true := by
    rw [startswith_iff_take _ _ (by decide)]; rfl
  have h3 : ¬ (startswith ('/' :: '/' :: l) ['/', '/', '/'] = true) := by
    rw [startswith_iff_take _ _ (by decide)]
    cases l with
    | nil => simp
    | cons y l => simpa using h
  simp [h1, h2, h3]

theorem normpath_posix_initial_slashes_three (l : Str) :
    normpath_posix_initial_slashes ('/' :: '/' :: '/' :: l) = 1 := by
  unfold normpath_posix_initial_slashes forward_slash double_forward_slash triple_forward_slash
  have h1 : startswith ('/' :: '/' :: '/' :: l) ['/'] = true := by
    rw [startswith_single]; rfl
  have h2 : startswith ('/' :: '/' :: '/' :: l) ['/', '/'] = true := by
    rw [startswith_iff_take _ _ (by decide)]; rfl
  have h3 : startswith ('/' :: '/' :: '/' :: l) ['/', '/', '/'] = true := by
    rw [startswith_iff_take _ _ (by decide)]; rfl
  simp [h1, h2, h3]

/-- The value of `initial_slashes` is 0, 1 or 2 and that many slashes start the path. -/
theorem normpath_posix_initial_slashes_spec (p : Str) :
    ∃ (k : Nat) (pk : Str), normpath_posix_initial_slashes p = (k : Int) ∧ k ≤ 2 ∧
      p = List.replicate k '/' ++ pk ∧ (k = 0 → pk.head? ≠ some '/') := by
  cases p with
  | nil => exact ⟨0, [], normpath_posix_initial_slashes_nil, by omega, rfl, by simp⟩
  | cons x l =>
    by_cases hx : x = '/'
    · subst hx
      cases l with
      | nil => exact ⟨1, [], normpath_posix_initial_slashes_one [] (by simp), by omega, rfl,
          by omega⟩
      | cons y l =>
        by_cases hy : y = '/'
        · subst hy
          cases l with
          | nil => exact ⟨2, [], normpath_posix_initial_slashes_two [] (by simp), by omega, rfl,
              by omega⟩
          | cons z l =>
            by_cases hz : z = '/'
            · subst hz
              exact ⟨1, '/' :: '/' :: l, normpath_posix_initial_slashes_three l, by omega, rfl,
                by omega⟩
            · exact ⟨2, z :: l, normpath_posix_initial_slashes_two (z :: l) (by simpa using hz),
                by omega, rfl, by omega⟩
        · exact ⟨1, y :: l, normpath_posix_initial_slashes_one (y :: l) (by simpa using hy),
            by omega, rfl, by omega⟩
    · exact ⟨0, x :: l, normpath_posix_initial_slashes_cons_ne x l hx, by omega, rfl,
        fun _ => by simpa using hx⟩

theorem normpath_posix_step_cases (k : Int) (acc : List Str) (x : Str) :
    normpath_posix_step k acc x = acc ∨
    (normpath_posix_step k acc x = acc ++ [x] ∧ x ≠ [] ∧ x ≠ dot) ∨
    normpath_posix_step k acc x = acc.dropLast := by
  unfold normpath_posix_step
  by_cases h1 : x.isEmpty = true ∨ x = dot
  · rw [if_pos h1]; exact Or.inl rfl
  · rw [if_neg h1]
    have hx : x ≠ [] ∧ x ≠ dot := by
      constructor
      · intro e; apply h1; left; rw [e]; rfl
      · intro e; apply h1; right; exact e
    split_ifs
    · exact Or.inr (Or.inl ⟨rfl, hx⟩)
    · exact Or.inr (Or.inr rfl)
    · exact Or.inl rfl

theorem normpath_posix_step_nil (k : Int) (acc : List Str) :
    normpath_posix_step k acc [] = acc := by
  unfold normpath_posix_step
  exact if_pos (Or.inl rfl)

/-- Every member of the stack built by the loop was pushed when it was read. -/
theorem normpath_posix_step_good (k : Int) (acc : List Str) (x : Str)
    (h : ∀ l1 y l2, acc = l1 ++ y :: l2 → normpath_posix_step k l1 y = l1 ++ [y]) :
    ∀ l1 y l2, normpath_posix_step k acc x = l1 ++ y :: l2 →
      normpath_posix_step k l1 y = l1 ++ [y] := by
  intro l1 y l2 e
  rcases normpath_posix_step_cases k acc x with h1 | ⟨h1, _, _⟩ | h1
  · rw [h1] at e; exact h l1 y l2 e
  · rw [h1] at e
    rcases List.eq_nil_or_concat l2 with rfl | ⟨l3, z, rfl⟩
    · have e2 : acc ++ [x] = (l1 ++ [y]) := by simpa using e
      have e3 := List.append_inj' e2 rfl
      have e4 : x = y := by simpa using e3.2
      rw [← e3.1, ← e4]
      exact h1
    · rw [List.concat_eq_append] at e
      have e2 : acc ++ [x] = (l1 ++ y :: l3) ++ [z] := by simpa using e
      have e3 := List.append_inj' e2 rfl
      exact h l1 y l3 e3.1
  · rw [h1] at e
    rcases List.eq_nil_or_concat acc with rfl | ⟨a, z, rfl⟩
    · simp at e
    · rw [List.concat_eq_append, List.dropLast_concat] at e
      apply h l1 y (l2 ++ [z])
      rw [List.concat_eq_append, e]
      simp

theorem normpath_posix_fold_good (k : Int) (comps acc : List Str)
    (h : ∀ l1 y l2, acc = l1 ++ y :: l2 → normpath_posix_step k l1 y = l1 ++ [y]) :
    ∀ l1 y l2, comps.foldl (normpath_posix_step k) acc = l1 ++ y :: l2 →
      normpath_posix_step k l1 y = l1 ++ [y] := by
  induction comps generalizing acc with
  | nil => simpa using h
  | cons x comps ih =>
    simp only [List.foldl_cons]
    exact ih _ (normpath_posix_step_good k acc x h)

theorem normpath_posix_fold_of_good (k : Int) (l2 l1 : List Str)
    (h : ∀ a y b, l1 ++ l2 = a ++ y :: b → normpath_posix_step k a y = a ++ [y]) :
    l2.foldl (normpath_posix_step k) l1 = l1 ++ l2 := by
  induction l2 generalizing l1 with
  | nil => simp
  | cons x l2 ih =>
    simp only [List.foldl_cons]
    rw [h l1 x l2 rfl, ih]
    · simp
    · intro a y b e
      apply h a y b
      rw [← e]
      simp

theorem normpath_posix_fold_mem (k : Int) (comps acc : List Str) :
    ∀ y ∈ comps.foldl (normpath_posix_step k) acc, y ∈ acc ∨ (y ∈ comps ∧ y ≠ []) := by
  induction comps generalizing acc with
  | nil => intro y hy; exact Or.inl (by simpa using hy)
  | cons x comps ih =>
    intro y hy
    simp only [List.foldl_cons] at hy
    rcases ih _ y hy with h1 | h1
    · rcases normpath_posix_step_cases k acc x with h2 | ⟨h2, hx, _⟩ | h2
      · rw [h2] at h1; exact Or.inl h1
      · rw [h2] at h1
        rcases List.mem_append.1 h1 with h3 | h3
        · exact Or.inl h3
        · have : y = x := by simpa using h3
          subst this
          exact Or.inr ⟨by simp, hx⟩
      · rw [h2] at h1
        exact Or.inl (List.mem_of_mem_dropLast h1)
    · exact Or.inr ⟨by simp [h1.1], h1.2⟩

theorem normpath_posix_fold_replicate_nil (k : Int) (n : Nat) (comps acc : List Str) :
    (List.replicate n [] ++ comps).foldl (normpath_posix_step k) acc =
      comps.foldl (normpath_posix_step k) acc := by
  induction n with
  | zero => rfl
  | succ n ih =>
    simp only [List.replicate_succ, List.cons_append, List.foldl_cons, normpath_posix_step_nil]
    exact ih

end path
end os

theorem splitC_replicate_sep (c : Char) (n : Nat) (s : Str) :
    splitC c (List.replicate n c ++ s) = List.replicate n [] ++ splitC c s := by
  induction n with
  | zero => rfl
  | succ n ih =>
    simp only [List.replicate_succ, List.cons_append, splitC_cons_sep, ih]

theorem joinC_head_ne (c : Char) (l : List Str) (h : ∀ x ∈ l, x ≠ [] ∧ c ∉ x) :
    (joinC [c] l).head? ≠ some c := by
  cases l with
  | nil => simp [joinC]
  | cons x l =>
    obtain ⟨hx, hc⟩ := h x (by simp)
    cases x with
    | nil => exact absurd rfl hx
    | cons a x =>
      have ha : a ≠ c := fun e => hc (by simp [e])
      cases l with
      | nil => simpa [joinC] using ha
      | cons y l => simpa [joinC] using ha

theorem weight_splitC (c : Char) (s : Str) :
    ((splitC c s).map (fun x => x.length + 1)).sum = s.length + 1 := by
  induction s with
  | nil => rfl
  | cons x xs ih =>
    by_cases h : x = c
    · subst h
      rw [splitC_cons_sep]
      simp only [List.map_cons, List.sum_cons, ih, List.length_nil, List.length_cons]
      omega
    · rw [splitC_cons_ne c x xs h]
      cases hs : splitC c xs with
      | nil => exact absurd hs (splitC_ne_nil c xs)
      | cons a t =>
        rw [hs] at ih
        simp only [prependHead, List.map_cons, List.sum_cons, List.length_append,
          List.length_cons, List.length_nil] at ih ⊢
        omega

theorem length_joinC (c : Char) (l : List Str) (hl : l ≠ []) :
    (joinC [c] l).length + 1 = (l.map (fun x => x.length + 1)).sum := by
  induction l with
  | nil => exact absurd rfl hl
  | cons x l ih =>
    cases l with
    | nil => simp [joinC]
    | cons y l =>
      have := ih (by simp)
      simp only [joinC, List.length_append, List.length_cons, List.length_nil, List.map_cons,
        List.sum_cons] at this ⊢
      omega

theorem weight_dropLast_le (l : List Str) :
    (l.dropLast.map (fun x => x.length + 1)).sum ≤ (l.map (fun x => x.length + 1)).sum := by
  rcases List.eq_nil_or_concat l with rfl | ⟨a, z, rfl⟩
  · simp
  · rw [List.concat_eq_append, List.dropLast_concat]
    simp

namespace os
namespace path

theorem weight_normpath_posix_fold (k : Int) (comps acc : List Str) :
    ((comps.foldl (normpath_posix_step k) acc).map (fun x => x.length + 1)).sum ≤
      (acc.map (fun x => x.length + 1)).sum + (comps.map (fun x => x.length + 1)).sum := by
  induction comps generalizing acc with
  | nil => simp
  | cons x comps ih =>
    simp only [List.foldl_cons, List.map_cons, List.sum_cons]
    have h1 := ih (normpath_posix_step k acc x)
    have h2 : ((normpath_posix_step k acc x).map (fun x => x.length + 1)).sum ≤
        (acc.map (fun x => x.length + 1)).sum + (x.length + 1) := by
      rcases normpath_posix_step_cases k acc x with h | ⟨h, _, _⟩ | h
      · rw [h]; omega
      · rw [h]; simp
      · rw [h]
        have := weight_dropLast_le acc
        omega
    omega

theorem mul_forward_slash (k : Nat) (hk : k ≤ 2) :
    mul forward_slash (k : Int) = List.replicate k '/' := by
  have : k = 0 ∨ k = 1 ∨ k = 2 := by omega
  rcases this with rfl | rfl | rfl <;> decide

/-- The shape of `normpath_posix(p)` for a non-empty `p`: `k` slashes, then the surviving
segments of the rest of `p` joined by single slashes, or `"."` if that is empty. -/
theorem normpath_posix_eq (p : Str) (h : (p.length : Int) ≤ MAX_32BIT_INT) (hp : p ≠ [])
    (k : Nat) (pk : Str) (hk : normpath_posix_initial_slashes p = (k : Int)) (hk2 : k ≤ 2)
    (hpk : p = List.replicate k '/' ++ pk) :
    normpath_posix p =
      if List.replicate k '/' ++
          joinC ['/'] ((splitC '/' pk).foldl (normpath_posix_step k) []) = [] then ['.']
      else List.replicate k '/' ++
          joinC ['/'] ((splitC '/' pk).foldl (normpath_posix_step k) []) := by
  unfold normpath_posix
  have hne : p.isEmpty = false := by
    cases p with
    | nil => exact absurd rfl hp
    | cons x l => rfl
  rw [hne]
  simp only [Bool.false_eq_true, if_false, hk]
  have e1 : split p forward_slash = List.replicate k [] ++ splitC '/' pk := by
    unfold forward_slash
    rw [split_single p '/' h]
    conv_lhs => rw [hpk]
    exact splitC_replicate_sep '/' k pk
  rw [e1, normpath_posix_fold_replicate_nil, join_eq_joinC, mul_forward_slash k hk2]
  have e2 : (if (k : Int) > 0 then List.replicate k '/' ++
      joinC forward_slash ((splitC '/' pk).foldl (normpath_posix_step k) [])
      else joinC forward_slash ((splitC '/' pk).foldl (normpath_posix_step k) [])) =
      List.replicate k '/' ++
        joinC ['/'] ((splitC '/' pk).foldl (normpath_posix_step k) []) := by
    unfold forward_slash
    split_ifs with h3
    · rfl
    · have : k = 0 := by omega
      subst this
      rfl
  rw [e2]
  unfold dot
  split_ifs with h4 h5 h5
  · rfl
  · exact absurd (by simpa using h4) h5
  · exact absurd (by simpa using h5) h4
  · rfl

theorem normpath_posix_initial_slashes_output (k : Nat) (hk2 : k ≤ 2) (s : Str)
    (hs : s.head? ≠ some '/') (hr : List.replicate k '/' ++ s ≠ []) :
    normpath_posix_initial_slashes (List.replicate k '/' ++ s) = (k : Int) := by
  have : k = 0 ∨ k = 1 ∨ k = 2 := by omega
  rcases this with rfl | rfl | rfl
  · cases s with
    | nil => exact absurd rfl hr
    | cons x l =>
      exact normpath_posix_initial_slashes_cons_ne x l (by simpa using hs)
  · exact normpath_posix_initial_slashes_one s hs
  · exact normpath_posix_initial_slashes_two s hs

/-- The segments that survive the loop of `normpath_posix` are reproduced unchanged when the
joined result is split and run through the loop again. -/
theorem normpath_posix_fold_fixed (k : Int) (pk : Str) :
    (splitC '/' (joinC ['/'] ((splitC '/' pk).foldl (normpath_posix_step k) []))).foldl
        (normpath_posix_step k) [] =
      (splitC '/' pk).foldl (normpath_posix_step k) [] := by
  have hmem := normpath_posix_fold_mem k (splitC '/' pk) []
  have hgood := normpath_posix_fold_good k (splitC '/' pk) [] (by
    intro l1 y l2 e
    simp at e)
  generalize (splitC '/' pk).foldl (normpath_posix_step k) [] = new at hmem hgood
  by_cases hn : new = []
  · subst hn
    simp [joinC, splitC, normpath_posix_step_nil]
  · rw [splitC_joinC '/' new hn]
    · have := normpath_posix_fold_of_good k new [] (by simpa using hgood)
      simpa using this
    · intro x hx
      rcases hmem x hx with h1 | h1
      · simp at h1
      · exact not_mem_of_mem_splitC '/' pk x h1.1

theorem normpath_posix_output_length (k : Nat) (pk : Str) :
    (List.replicate k '/' ++
      joinC ['/'] ((splitC '/' pk).foldl (normpath_posix_step k) [])).length ≤
      (List.replicate k '/' ++ pk).length := by
  have hw := weight_normpath_posix_fold k (splitC '/' pk) []
  rw [weight_splitC] at hw
  generalize (splitC '/' pk).foldl (normpath_posix_step k) [] = new at hw
  by_cases hn : new = []
  · subst hn
    simp [joinC]
  · have := length_joinC '/' new hn
    simp only [List.map_nil, List.sum_nil, zero_add] at hw
    simp only [List.length_append, List.length_replicate]
    omega

/-- C3: `normpath_posix` is idempotent: for every string `p` (of a size that fits `int`),
`normpath_posix(normpath_posix(p)) = normpath_posix(p)`. -/
theorem normpath_posix_idempotent (p : Str) (h : (p.length : Int) ≤ MAX_32BIT_INT) :
    normpath_posix (normpath_posix p) = normpath_posix p := by
  by_cases hp : p = []
  · subst hp
    decide
  · obtain ⟨k, pk, hk, hk2, hpk, _⟩ := normpath_posix_initial_slashes_spec p
    rw [normpath_posix_eq p h hp k pk hk hk2 hpk]
    by_cases hr : List.replicate k '/' ++
        joinC ['/'] ((splitC '/' pk).foldl (normpath_posix_step k) []) = []
    · rw [if_pos hr]
      decide
    · rw [if_neg hr]
      have hhead : (joinC ['/'] ((splitC '/' pk).foldl (normpath_posix_step k) [])).head? ≠
          some '/' := by
        apply joinC_head_ne
        intro x hx
        rcases normpath_posix_fold_mem k (splitC '/' pk) [] x hx with h1 | h1
        · simp at h1
        · exact ⟨h1.2, not_mem_of_mem_splitC '/' pk x h1.1⟩
      have hlen : ((List.replicate k '/' ++
          joinC ['/'] ((splitC '/' pk).foldl (normpath_posix_step k) [])).length : Int) ≤
          MAX_32BIT_INT := by
        have h1 := normpath_posix_output_length k pk
        rw [← hpk] at h1
        omega
      rw [normpath_posix_eq _ hlen hr k _
        (normpath_posix_initial_slashes_output k hk2 _ hhead hr) hk2 rfl,
        normpath_posix_fold_fixed, if_neg hr]

/-- The statement of `normpath_posix_idempotent` at `"//a/./b/../../../c/"`. -/
theorem normpath_posix_idempotent_witness :
    (("//a/./b/../../../c/".toList.length : Int) ≤ MAX_32BIT_INT) ∧
    normpath_posix (normpath_posix "//a/./b/../../../c/".toList) =
      normpath_posix "//a/./b/../../../c/".toList :=
  ⟨by decide, normpath_posix_idempotent "//a/./b/../../../c/".toList (by decide)⟩

end path
end os

theorem isPrefixOf_single_cons (c x : Char) (l : Str) :
    ([c] : Str).isPrefixOf (x :: l) = decide (c = x) := by
  simp only [List.isPrefixOf, Bool.and_true]
  by_cases h : c = x
  · simp [h]
  · simp [h]

theorem std_rfind_aux_found (c : Char) (a t : Str) (ht : c ∉ t) :
    ∀ d, d ≤ t.length → std_rfind_aux (a ++ c :: t) [c] (a.length + d) = some a.length := by
  intro d
  induction d with
  | zero =>
    intro _
    have e : (a ++ c :: t).drop a.length = c :: t := by simp
    cases hn : a.length with
    | zero =>
      have ha : a = [] := List.eq_nil_of_length_eq_zero hn
      subst ha
      simp [std_rfind_aux, isPrefixOf_single_cons]
    | succ n =>
      rw [hn] at e
      simp only [Nat.add_zero, std_rfind_aux]
      rw [e, isPrefixOf_single_cons]
      simp
  | succ d ih =>
    intro hd
    have e : (a ++ c :: t).drop (a.length + d + 1) = t.drop d := by
      have : a.length + d + 1 = a.length + (d + 1) := by omega
      rw [this, List.drop_append]
      rfl
    have hlt : d < t.length := by omega
    have e2 : t.drop d = t[d] :: t.drop (d + 1) := List.drop_eq_getElem_cons hlt
    have hne : c ≠ t[d] := fun hc => ht (hc ▸ List.getElem_mem hlt)
    have e3 : a.length + (d + 1) = (a.length + d) + 1 := by omega
    rw [e3]
    simp only [std_rfind_aux]
    rw [e, e2, isPrefixOf_single_cons]
    simp only [hne, decide_False, Bool.false_eq_true, if_false]
    exact ih (by omega)

theorem std_rfind_aux_not_found (c : Char) (p : Str) (hp : c ∉ p) :
    ∀ i, std_rfind_aux p [c] i = none := by
  intro i
  have key : ∀ j, ([c] : Str).isPrefixOf (p.drop j) = false := by
    intro j
    cases hd : p.drop j with
    | nil => rfl
    | cons x l =>
      rw [isPrefixOf_single_cons]
      have hx : x ∈ p := List.mem_of_mem_drop (by rw [hd]; simp)
      have : c ≠ x := fun e => hp (e ▸ hx)
      simp [this]
  induction i with
  | zero =>
    have := key 0
    simp only [List.drop_zero] at this
    simp [std_rfind_aux, this]
  | succ i ih =>
    simp [std_rfind_aux, key (i + 1), ih]

theorem rfind_single_not_found (c : Char) (p : Str) (hp : c ∉ p) : rfind p [c] = -1 := by
  unfold rfind std_rfind
  simp only []
  split_ifs
  · rfl
  · rw [std_rfind_aux_not_found c p hp]

theorem rfind_single_found (c : Char) (a t : Str) (ht : c ∉ t)
    (h : ((a ++ c :: t).length : Int) ≤ MAX_32BIT_INT) :
    rfind (a ++ c :: t) [c] = (a.length : Int) := by
  unfold rfind std_rfind
  simp only []
  have h0 := ADJUST_INDICES_fst_nat 0 MAX_32BIT_INT ((a ++ c :: t).length : Int)
  simp only [Nat.cast_zero] at h0
  rw [ADJUST_INDICES_snd_max _ _ h, h0]
  have h1 : ¬ (([c] : Str).length > (a ++ c :: t).length) := by simp
  rw [if_neg h1]
  have h2 : min ((a ++ c :: t).length : Int).toNat ((a ++ c :: t).length - ([c] : Str).length) =
      a.length + t.length := by
    simp only [List.length_append, List.length_cons, List.length_nil]
    omega
  rw [h2, std_rfind_aux_found c a t ht t.length (le_refl _)]
  simp only []
  have h3 : ¬ ((a.length : Int) < 0 ∨
      (a.length : Int) + (([c] : Str).length : Int) > ((a ++ c :: t).length : Int)) := by
    simp only [List.length_append, List.length_cons, List.length_nil]
    omega
  rw [if_neg h3]

theorem exists_last_occurrence (c : Char) (p : Str) :
    c ∉ p ∨ ∃ a t, p = a ++ c :: t ∧ c ∉ t := by
  induction p with
  | nil => left; simp
  | cons x p ih =>
    rcases ih with h | ⟨a, t, e, ht⟩
    · by_cases hx : x = c
      · right; exact ⟨[], p, by rw [hx]; rfl, h⟩
      · left
        simp only [List.mem_cons, not_or]
        exact ⟨fun e => hx e.symm, h⟩
    · right; exact ⟨x :: a, t, by rw [e]; rfl, ht⟩

theorem exists_strip_trailing (c : Char) (l : Str) :
    ∃ a m, l = a ++ List.replicate m c ∧ a.getLast? ≠ some c := by
  induction l using List.reverseRecOn with
  | nil => exact ⟨[], 0, rfl, by simp⟩
  | append_singleton l x ih =>
    by_cases hx : x = c
    · obtain ⟨a, m, e, ha⟩ := ih
      refine ⟨a, m + 1, ?_, ha⟩
      rw [e, hx, List.replicate_succ', List.append_assoc]
    · refine ⟨l ++ [x], 0, by simp, ?_⟩
      simpa using hx

theorem mul_single (c : Char) (n : Nat) : mul [c] (n : Int) = List.replicate n c := by
  have key : ∀ m : Nat, (List.range m).foldl (fun (os : Str) _ => os ++ [c]) [] =
      List.replicate m c := by
    intro m
    induction m with
    | zero => rfl
    | succ m ih =>
      rw [List.range_succ, List.foldl_append, ih, List.replicate_succ']
      rfl
  unfold mul empty_string
  by_cases h0 : (n : Int) ≤ 0
  · have : n = 0 := by omega
    subst this
    rfl
  · rw [if_neg h0]
    by_cases h1 : (n : Int) = 1
    · have : n = 1 := by omega
      subst this
      rfl
    · rw [if_neg h1, Int.toNat_ofNat]
      exact key n

theorem strip_right_append_singleton (P : Char → Bool) (s : Str) (x : Char) :
    ∀ j, j ≤ s.length → strip_right P (s ++ [x]) 0 j = strip_right P s 0 j := by
  intro j
  induction j with
  | zero => intro _; rfl
  | succ j ihj =>
    intro hj
    simp only [strip_right]
    rw [List.getElem?_append_left (by omega), ihj (by omega)]

theorem strip_right_replicate (P : Char → Bool) (c : Char) (hc : P c = true) (a : Str)
    (ha : ∀ z, a.getLast? = some z → P z = false) :
    ∀ m, strip_right P (a ++ List.replicate m c) 0 (a.length + m) = a.length := by
  intro m
  induction m with
  | zero =>
    rcases List.eq_nil_or_concat a with rfl | ⟨b, z, rfl⟩
    · rfl
    · rw [List.concat_eq_append] at ha ⊢
      have hz : P z = false := ha z (by simp)
      simp only [List.replicate_zero, List.append_nil, List.length_append, List.length_singleton,
        Nat.add_zero, strip_right]
      have e : (b ++ [z])[b.length]? = some z := by simp
      rw [e]
      simp [hz]
  | succ m ih =>
    have e1 : a.length + (m + 1) = (a.length + m) + 1 := by omega
    rw [e1]
    simp only [strip_right]
    have e2 : (a ++ List.replicate (m + 1) c)[a.length + m]? = some c := by
      rw [List.getElem?_append_right (by omega)]
      simp
    rw [e2]
    simp only [ge_iff_le, Nat.zero_le, Option.map_some', hc, and_self, if_true]
    have e3 : a ++ List.replicate (m + 1) c = (a ++ List.replicate m c) ++ [c] := by
      rw [List.replicate_succ', List.append_assoc]
    rw [e3, strip_right_append_singleton P _ _ _ (by simp), ih]

theorem rstrip_replicate (c : Char) (a : Str) (ha : a.getLast? ≠ some c) (m : Nat) :
    rstrip (a ++ List.replicate m c) [c] = a := by
  unfold rstrip do_strip
  have h1 : ¬ (([c] : Str).length = 0) := by simp
  simp only [h1, if_false, ne_eq, not_true_eq_false, reduceCtorEq, not_false_eq_true, if_true,
    true_and]
  have e : (a ++ List.replicate m c).length = a.length + m := by simp
  rw [e, strip_right_replicate _ c (by simp) a (by
    intro z hz
    have : z ≠ c := fun e => ha (e ▸ hz)
    simpa using this) m]
  split_ifs with h2
  · have : m = 0 := by omega
    subst this
    simp
  · simp [substr]

namespace os
namespace path

theorem split_posix_of_index (p : Str) (i : Nat) (h : (p.length : Int) ≤ MAX_32BIT_INT)
    (hi : rfind p forward_slash + 1 = (i : Int)) :
    split_posix p =
      if (!(p.take i).isEmpty) = true ∧ p.take i ≠ List.replicate (p.take i).length '/' then
        (rstrip (p.take i) ['/'], p.drop i)
      else (p.take i, p.drop i) := by
  unfold split_posix
  rw [hi]
  dsimp only
  rw [slice_to_nat, slice_from_nat p i h]
  unfold forward_slash
  rw [mul_single]

theorem split_posix_of_no_sep (p : Str) (h : (p.length : Int) ≤ MAX_32BIT_INT)
    (hp : '/' ∉ p) : split_posix p = ([], p) := by
  rw [split_posix_of_index p 0 h (by
    unfold forward_slash
    rw [rfind_single_not_found '/' p hp]
    decide)]
  simp

theorem split_posix_of_sep (a : Str) (m : Nat) (t : Str)
    (h : ((a ++ List.replicate (m + 1) '/' ++ t).length : Int) ≤ MAX_32BIT_INT)
    (ha : a.getLast? ≠ some '/') (ht : '/' ∉ t) :
    split_posix (a ++ List.replicate (m + 1) '/' ++ t) =
      (if a = [] then List.replicate (m + 1) '/' else a, t) := by
  have ep : a ++ List.replicate (m + 1) '/' ++ t = (a ++ List.replicate m '/') ++ '/' :: t := by
    rw [List.replicate_succ']
    simp
  have hlen : (a ++ List.replicate m '/').length + 1 = (a ++ List.replicate (m + 1) '/').length := by
    simp only [List.length_append, List.length_replicate]
    omega
  rw [ep] at h ⊢
  rw [split_posix_of_index _ ((a ++ List.replicate m '/').length + 1) h (by
    unfold forward_slash
    rw [rfind_single_found '/' _ t ht h]
    push_cast
    rfl)]
  have e1 : List.take ((a ++ List.replicate m '/').length + 1)
      ((a ++ List.replicate m '/') ++ '/' :: t) = a ++ List.replicate (m + 1) '/' := by
    rw [← ep, hlen, List.take_left']
    rfl
  have e2 : List.drop ((a ++ List.replicate m '/').length + 1)
      ((a ++ List.replicate m '/') ++ '/' :: t) = t := by
    rw [← ep, hlen, List.drop_left']
    rfl
  rw [e1, e2]
  by_cases hnil : a = []
  · subst hnil
    simp
  · have hne : ¬ (a ++ List.replicate (m + 1) '/' =
        List.replicate (a ++ List.replicate (m + 1) '/').length '/') := by
      intro e
      rcases List.eq_nil_or_concat a with rfl | ⟨b, z, rfl⟩
      · exact hnil rfl
      · rw [List.concat_eq_append] at e ha
        have hz : z ≠ '/' := by simpa using ha
        have hmem : z ∈ List.replicate ((b ++ [z]) ++ List.replicate (m + 1) '/').length '/' := by
          rw [← e]
          simp
        exact hz (List.eq_of_mem_replicate hmem)
    have hne2 : (!(a ++ List.replicate (m + 1) '/').isEmpty) = true := by
      cases a with
      | nil => exact absurd rfl hnil
      | cons x l => rfl
    rw [if_pos ⟨hne2, hne⟩, rstrip_replicate '/' a ha, if_neg hnil]

/-- Every path has one of the three shapes `split_posix` distinguishes. -/
theorem posix_path_shape (p : Str) :
    '/' ∉ p ∨ ∃ a m t, p = a ++ List.replicate (m + 1) '/' ++ t ∧
      a.getLast? ≠ some '/' ∧ '/' ∉ t := by
  rcases exists_last_occurrence '/' p with h | ⟨b, t, e, ht⟩
  · exact Or.inl h
  · obtain ⟨a, m, e2, ha⟩ := exists_strip_trailing '/' b
    right
    refine ⟨a, m, t, ?_, ha, ht⟩
    rw [e, e2, List.replicate_succ']
    simp

theorem normpath_posix_initial_slashes_append (a s : Str) (ha : a.getLast? ≠ some '/')
    (hne : a ≠ []) :
    normpath_posix_initial_slashes (a ++ s) = normpath_posix_initial_slashes a := by
  cases a with
  | nil => exact absurd rfl hne
  | cons x l =>
    by_cases hx : x = '/'
    · subst hx
      cases l with
      | nil => simp at ha
      | cons y l =>
        by_cases hy : y = '/'
        · subst hy
          cases l with
          | nil => simp at ha
          | cons z l =>
            by_cases hz : z = '/'
            · subst hz
              exact (normpath_posix_initial_slashes_three _).trans
                (normpath_posix_initial_slashes_three _).symm
            · exact (normpath_posix_initial_slashes_two (z :: l ++ s) (by simpa using hz)).trans
                (normpath_posix_initial_slashes_two (z :: l) (by simpa using hz)).symm
        · exact (normpath_posix_initial_slashes_one (y :: l ++ s) (by simpa using hy)).trans
            (normpath_posix_initial_slashes_one (y :: l) (by simpa using hy)).symm
    · exact (normpath_posix_initial_slashes_cons_ne x (l ++ s) hx).trans
        (normpath_posix_initial_slashes_cons_ne x l hx).symm

/-- A run of slashes after a segment normalizes like a single slash. -/
theorem normpath_posix_collapse (a : Str) (n : Nat) (s : Str) (ha : a.getLast? ≠ some '/')
    (hne : a ≠ [])
    (h : ((a ++ List.replicate (n + 1) '/' ++ s).length : Int) ≤ MAX_32BIT_INT) :
    normpath_posix (a ++ ['/'] ++ s) = normpath_posix (a ++ List.replicate (n + 1) '/' ++ s) := by
  obtain ⟨k, ak, hk, hk2, hak, _⟩ := normpath_posix_initial_slashes_spec a
  have h1 : ((a ++ ['/'] ++ s).length : Int) ≤ MAX_32BIT_INT := by
    simp only [List.length_append, List.length_replicate, List.length_singleton] at h ⊢
    omega
  have hn1 : a ++ ['/'] ++ s ≠ [] := by
    cases a with
    | nil => exact absurd rfl hne
    | cons x l => simp
  have hn2 : a ++ List.replicate (n + 1) '/' ++ s ≠ [] := by
    cases a with
    | nil => exact absurd rfl hne
    | cons x l => simp
  have hk1 : normpath_posix_initial_slashes (a ++ ['/'] ++ s) = (k : Int) := by
    rw [List.append_assoc, normpath_posix_initial_slashes_append a _ ha hne, hk]
  have hk3 : normpath_posix_initial_slashes (a ++ List.replicate (n + 1) '/' ++ s) = (k : Int) := by
    rw [List.append_assoc, normpath_posix_initial_slashes_append a _ ha hne, hk]
  have e1 : a ++ ['/'] ++ s = List.replicate k '/' ++ (ak ++ '/' :: s) := by
    conv_lhs => rw [hak]
    simp
  have e2 : a ++ List.replicate (n + 1) '/' ++ s =
      List.replicate k '/' ++ (ak ++ '/' :: (List.replicate n '/' ++ s)) := by
    conv_lhs => rw [hak]
    simp [List.replicate_succ]
  rw [normpath_posix_eq _ h1 hn1 k _ hk1 hk2 e1, normpath_posix_eq _ h hn2 k _ hk3 hk2 e2]
  have e3 : (splitC '/' (ak ++ '/' :: (List.replicate n '/' ++ s))).foldl
      (normpath_posix_step k) [] =
      (splitC '/' (ak ++ '/' :: s)).foldl (normpath_posix_step k) [] := by
    rw [splitC_append_sep, splitC_append_sep, splitC_replicate_sep, List.foldl_append,
      normpath_posix_fold_replicate_nil, List.foldl_append]
  rw [e3]

/-- C5: Posix reconstruction: for every string `p` (of a size that fits `int`), with
`(head, tail) = split_posix(p)`, `normpath_posix(join_posix(head, tail)) = normpath_posix(p)`. -/
theorem normpath_posix_join_split (p : Str) (h : (p.length : Int) ≤ MAX_32BIT_INT) :
    normpath_posix (join_posix2 (split_posix p).1 (split_posix p).2) = normpath_posix p := by
  rcases posix_path_shape p with hp | ⟨a, m, t, e, ha, ht⟩
  · rw [split_posix_of_no_sep p h hp]
    have : join_posix2 [] p = p := by
      rw [join_posix2_eq_step, join_posix_step_eq [] p (by decide)]
      split_ifs with h1 h2
      · rfl
      · rfl
      · exact absurd (Or.inl rfl) h2
    rw [this]
  · subst e
    rw [split_posix_of_sep a m t h ha ht]
    have ht2 : t.head? ≠ some '/' := by
      cases t with
      | nil => simp
      | cons x l =>
        have : x ≠ '/' := fun e => ht (by simp [e])
        simpa using this
    by_cases hnil : a = []
    · subst hnil
      simp only [if_true]
      have : join_posix2 (List.replicate (m + 1) '/') t = List.replicate (m + 1) '/' ++ t := by
        rw [join_posix2_eq_step, join_posix_step_eq _ _ (by
          simp only [List.nil_append, List.length_append, List.length_replicate] at h ⊢
          omega)]
        rw [if_neg ht2, if_pos (Or.inr (by rw [List.replicate_succ']; simp))]
      rw [this]
      rfl
    · rw [if_neg hnil]
      have : join_posix2 a t = a ++ ['/'] ++ t := by
        rw [join_posix2_eq_step, join_posix_step_eq _ _ (by
          simp only [List.length_append, List.length_replicate] at h ⊢
          omega)]
        rw [if_neg ht2, if_neg (by
          intro hc
          rcases hc with hc | hc
          · exact hnil hc
          · exact ha hc)]
      rw [this]
      exact normpath_posix_collapse a m t ha hnil h

/-- The statement of `normpath_posix_join_split` at `"/usr//lib/"`. -/
theorem normpath_posix_join_split_witness :
    (("/usr//lib/".toList.length : Int) ≤ MAX_32BIT_INT) ∧
    normpath_posix (join_posix2 (split_posix "/usr//lib/".toList).1
      (split_posix "/usr//lib/".toList).2) = normpath_posix "/usr//lib/".toList :=
  ⟨by decide, normpath_posix_join_split "/usr//lib/".toList (by decide)⟩

end path
end os

theorem exists_first_occurrence (c : Char) (p : Str) :
    c ∉ p ∨ ∃ a t, p = a ++ c :: t ∧ c ∉ a := by
  induction p with
  | nil => left; simp
  | cons x p ih =>
    by_cases hx : x = c
    · right; exact ⟨[], p, by rw [hx]; rfl, by simp⟩
    · rcases ih with h | ⟨a, t, e, ha⟩
      · left
        simp only [List.mem_cons, not_or]
        exact ⟨fun e => hx e.symm, h⟩
      · right
        refine ⟨x :: a, t, by rw [e]; rfl, ?_⟩
        simp only [List.mem_cons, not_or]
        exact ⟨fun e => hx e.symm, ha⟩

theorem std_find_aux_not_found (c : Char) (l : Str) (h : c ∉ l) :
    ∀ i, std_find_aux [c] l i = none := by
  induction l with
  | nil => intro i; rfl
  | cons x l ih =>
    intro i
    have hx : c ≠ x := fun e => h (by simp [e])
    have hl : c ∉ l := fun e => h (by simp [e])
    simp only [std_find_aux, isPrefixOf_single_cons, hx, decide_False, Bool.false_eq_true,
      if_false]
    exact ih hl (i + 1)

theorem std_find_aux_found (c : Char) (a t : Str) (ha : c ∉ a) :
    ∀ i, std_find_aux [c] (a ++ c :: t) i = some (i + a.length) := by
  induction a with
  | nil =>
    intro i
    simp [std_find_aux, isPrefixOf_single_cons]
  | cons x a ih =>
    intro i
    have hx : c ≠ x := fun e => ha (by simp [e])
    have hl : c ∉ a := fun e => ha (by simp [e])
    have e : std_find_aux [c] (x :: a ++ c :: t) i = std_find_aux [c] (a ++ c :: t) (i + 1) := by
      show (if ([c] : Str).isPrefixOf (x :: (a ++ c :: t)) then some i
        else std_find_aux [c] (a ++ c :: t) (i + 1)) = _
      rw [isPrefixOf_single_cons]
      simp [hx]
    rw [e, ih hl (i + 1)]
    simp only [List.length_cons]
    congr 1
    omega

theorem find_single_not_found (c : Char) (done todo : Str) (h : c ∉ todo) :
    find (done ++ todo) [c] (done.length : Int) = -1 := by
  unfold find std_find
  simp only []
  rw [ADJUST_INDICES_fst_nat, Int.toNat_ofNat]
  have h1 : ¬ (done.length > (done ++ todo).length) := by simp
  rw [if_neg h1, List.drop_left, std_find_aux_not_found c todo h]

theorem find_single_found (c : Char) (done a t : Str) (ha : c ∉ a)
    (h : ((done ++ (a ++ c :: t)).length : Int) ≤ MAX_32BIT_INT) :
    find (done ++ (a ++ c :: t)) [c] (done.length : Int) = ((done.length + a.length : Nat) : Int) := by
  unfold find std_find
  simp only []
  rw [ADJUST_INDICES_fst_nat, ADJUST_INDICES_snd_max _ _ h, Int.toNat_ofNat]
  have h1 : ¬ (done.length > (done ++ (a ++ c :: t)).length) := by simp
  rw [if_neg h1, List.drop_left, std_find_aux_found c a t ha]
  simp only []
  have h2 : ¬ (((done.length + a.length : Nat) : Int) + (([c] : Str).length : Int) >
      ((done ++ (a ++ c :: t)).length : Int)) := by
    simp only [List.length_append, List.length_cons, List.length_nil]
    push_cast
    omega
  rw [if_neg h2]

theorem map_of_not_mem (a b : Char) (l : Str) (h : a ∉ l) :
    l.map (fun c => if c = a then b else c) = l := by
  induction l with
  | nil => rfl
  | cons x l ih =>
    have hx : x ≠ a := fun e => h (by simp [e])
    have hl : a ∉ l := fun e => h (by simp [e])
    simp [hx, ih hl]

theorem replace_loop_single (a b : Char) :
    ∀ (fuel : Nat) (done todo : Str) (sofar : Int), todo.length + 1 ≤ fuel →
      ((done ++ todo).length : Int) ≤ MAX_32BIT_INT →
      replace_loop [a] [b] (-1) fuel (done ++ todo) (find (done ++ todo) [a] done.length) sofar =
        some (done ++ todo.map (fun c => if c = a then b else c)) := by
  intro fuel
  induction fuel with
  | zero => intro done todo sofar hf; omega
  | succ fuel ih =>
    intro done todo sofar hf hb
    rcases exists_first_occurrence a todo with hn | ⟨t1, t2, e, ht1⟩
    · rw [find_single_not_found a done todo hn, map_of_not_mem a b todo hn]
      unfold replace_loop
      simp
    · subst e
      rw [find_single_found a done t1 t2 ht1 hb]
      unfold replace_loop
      have h1 : ((done.length + t1.length : Nat) : Int) ≠ -1 ∧
          ((done.length + t1.length : Nat) : Int) ≤ ((done ++ (t1 ++ a :: t2)).length : Int) := by
        simp only [List.length_append, List.length_cons]
        push_cast
        omega
      rw [if_pos h1]
      have h2 : ¬ ((-1 : Int) > -1 ∧ sofar ≥ -1) := by omega
      rw [if_neg h2]
      have e1 : std_replace (done ++ (t1 ++ a :: t2)) ((done.length + t1.length : Nat) : Int).toNat
          ([a] : Str).length [b] = (done ++ t1 ++ [b]) ++ t2 := by
        unfold std_replace
        rw [Int.toNat_ofNat]
        have e2 : done ++ (t1 ++ a :: t2) = (done ++ t1) ++ a :: t2 := by
          rw [List.append_assoc]
        have e3 : done.length + t1.length = (done ++ t1).length := by
          rw [List.length_append]
        rw [e2, e3, List.take_left]
        have e4 : (done ++ t1).length + ([a] : Str).length = ((done ++ t1) ++ [a]).length := by
          simp only [List.length_append, List.length_cons, List.length_nil]
        have e5 : (done ++ t1) ++ a :: t2 = ((done ++ t1) ++ [a]) ++ t2 := by simp
        rw [e4, e5, List.drop_left]
      simp only []
      rw [e1]
      have h3 : ([a] : Str).length ≠ 0 := by simp
      rw [if_pos h3]
      have e6 : ((done.length + t1.length : Nat) : Int) + (([b] : Str).length : Int) =
          ((done ++ t1 ++ [b]).length : Int) := by
        simp only [List.length_append, List.length_cons, List.length_nil]
        push_cast
        omega
      rw [e6, ih (done ++ t1 ++ [b]) t2 (sofar + 1) (by
          simp only [List.length_append, List.length_cons] at hf
          omega) (by
          simp only [List.length_append, List.length_cons, List.length_nil] at hb ⊢
          omega)]
      simp [map_of_not_mem a b t1 ht1]

theorem replace_single (a b : Char) (s : Str) (h : (s.length : Int) ≤ MAX_32BIT_INT) :
    replace s [a] [b] = s.map (fun c => if c = a then b else c) := by
  unfold replace
  have := replace_loop_single a b (s.length + 2) [] s 0 (by omega) (by simpa using h)
  simp only [List.nil_append, List.length_nil, Nat.cast_zero] at this
  rw [this]
  rfl

namespace os
namespace path

theorem normpath_posix_step_push (k : Int) (acc : List Str) (x : Str)
    (h1 : x ≠ []) (h2 : x ≠ dot)
    (h3 : x ≠ double_dot ∨ (k = 0 ∧ acc = []) ∨ acc.getLast? = some double_dot) :
    normpath_posix_step k acc x = acc ++ [x] := by
  unfold normpath_posix_step
  have c1 : ¬ (x.isEmpty = true ∨ x = dot) := by
    intro h
    rcases h with h | h
    · exact h1 (List.isEmpty_iff.1 h)
    · exact h2 h
  rw [if_neg c1]
  have c2 : x ≠ double_dot ∨ (k = 0 ∧ acc.isEmpty = true) ∨
      ((!acc.isEmpty) = true ∧ acc.getLast? = some double_dot) := by
    rcases h3 with h | ⟨h, h'⟩ | h
    · exact Or.inl h
    · exact Or.inr (Or.inl ⟨h, by rw [h']; rfl⟩)
    · refine Or.inr (Or.inr ⟨?_, h⟩)
      cases acc with
      | nil => simp at h
      | cons a l => rfl
  rw [if_pos c2]

theorem normpath_posix_step_pop (k : Int) (acc : List Str) (z : Str) (hz : z ≠ double_dot) :
    normpath_posix_step k (acc ++ [z]) double_dot = acc := by
  unfold normpath_posix_step
  have c1 : ¬ (double_dot.isEmpty = true ∨ double_dot = dot) := by decide
  rw [if_neg c1]
  have c2 : ¬ (double_dot ≠ double_dot ∨ (k = 0 ∧ (acc ++ [z]).isEmpty = true) ∨
      ((!(acc ++ [z]).isEmpty) = true ∧ (acc ++ [z]).getLast? = some double_dot)) := by
    intro h
    rcases h with h | ⟨_, h⟩ | ⟨_, h⟩
    · exact h rfl
    · simp at h
    · apply hz
      simpa using h
  rw [if_neg c2]
  have c3 : (!(acc ++ [z]).isEmpty) = true := by simp
  rw [if_pos c3]
  simp

theorem normpath_posix_step_root (k : Int) (hk : k ≠ 0) :
    normpath_posix_step k [] double_dot = [] := by
  unfold normpath_posix_step
  have c1 : ¬ (double_dot.isEmpty = true ∨ double_dot = dot) := by decide
  rw [if_neg c1]
  have c2 : ¬ (double_dot ≠ double_dot ∨ (k = 0 ∧ ([] : List Str).isEmpty = true) ∨
      ((!([] : List Str).isEmpty) = true ∧ ([] : List Str).getLast? = some double_dot)) := by
    intro h
    rcases h with h | ⟨h, _⟩ | ⟨h, _⟩
    · exact h rfl
    · exact hk h
    · simp at h
  rw [if_neg c2]
  rfl

theorem normpath_posix_step_skip (k : Int) (acc : List Str) (x : Str)
    (h : x = [] ∨ x = dot) : normpath_posix_step k acc x = acc := by
  unfold normpath_posix_step
  have c1 : x.isEmpty = true ∨ x = dot := by
    rcases h with h | h
    · left; rw [h]; rfl
    · right; exact h
  rw [if_pos c1]

/-- The index loop of `normpath_nt` over `comps`, with the entries before `i` as a stack, is
the same stack machine as the loop of `normpath_posix`, rooted exactly when the prefix ends
with a backslash. -/
theorem normpath_nt_comps_eq (pre : Str) (k : Int)
    (hk1 : endswith pre double_back_slash = true → k ≠ 0)
    (hk0 : ¬ endswith pre double_back_slash = true → k = 0) :
    ∀ (fuel : Nat) (done todo : List Str), todo.length + 1 ≤ fuel →
      normpath_nt_comps pre fuel (done ++ todo) done.length =
        some (todo.foldl (normpath_posix_step k) done) := by
  intro fuel
  induction fuel with
  | zero => intro done todo hf; omega
  | succ fuel ih =>
    intro done todo hf
    cases todo with
    | nil =>
      unfold normpath_nt_comps
      simp
    | cons x rest =>
      have hf2 : rest.length + 1 ≤ fuel := by simpa using hf
      have hlt : done.length < (done ++ x :: rest).length := by simp
      have hx : (done ++ x :: rest)[done.length]? = some x := by
        rw [List.getElem?_append_right (le_refl _)]
        simp
      have herase : (done ++ x :: rest).eraseIdx done.length = done ++ rest := by
        rw [List.eraseIdx_append_of_length_le (le_refl _)]
        simp
      have hpush : done ++ x :: rest = (done ++ [x]) ++ rest := by simp
      have hlen1 : done.length + 1 = (done ++ [x]).length := by simp
      unfold normpath_nt_comps
      rw [if_pos hlt, hx]
      simp only [List.foldl_cons, Option.some.injEq]
      by_cases h1 : x = [] ∨ x = dot
      · rw [if_pos h1, herase, ih done rest hf2, normpath_posix_step_skip _ _ _ h1]
      · rw [if_neg h1]
        have hx1 : x ≠ [] := fun e => h1 (Or.inl e)
        have hx2 : x ≠ dot := fun e => h1 (Or.inr e)
        by_cases h2 : x = double_dot
        · rw [if_pos h2]
          subst h2
          rcases List.eq_nil_or_concat done with hd | ⟨d, z, hd⟩
          · subst hd
            have c1 : ¬ (([] : List Str).length > 0 ∧
                (([] : List Str) ++ double_dot :: rest)[([] : List Str).length - 1]? ≠
                  some double_dot) := by simp
            rw [if_neg c1]
            by_cases h3 : endswith pre double_back_slash = true
            · have c2 : ([] : List Str).length = 0 ∧ endswith pre double_back_slash = true :=
                ⟨rfl, h3⟩
              rw [if_pos c2, herase, ih [] rest hf2]
              rw [normpath_posix_step_root k (hk1 h3)]
            · have c2 : ¬ (([] : List Str).length = 0 ∧ endswith pre double_back_slash = true) :=
                fun h => h3 h.2
              rw [if_neg c2, hpush, hlen1, ih _ rest hf2]
              rw [normpath_posix_step_push k [] double_dot hx1 hx2
                (Or.inr (Or.inl ⟨hk0 h3, rfl⟩))]
          · rw [List.concat_eq_append] at hd
            subst hd
            have hz : (d ++ [z] ++ double_dot :: rest)[(d ++ [z]).length - 1]? = some z := by
              have a1 : (d ++ [z]).length - 1 = d.length := by simp
              have a2 : d ++ [z] ++ double_dot :: rest = d ++ (z :: double_dot :: rest) := by
                simp
              rw [a1, a2, List.getElem?_append_right (le_refl _)]
              simp
            rw [hz]
            by_cases h3 : z = double_dot
            · have c1 : ¬ ((d ++ [z]).length > 0 ∧ some z ≠ some double_dot) := by
                intro h; exact h.2 (by rw [h3])
              rw [if_neg c1]
              have c2 : ¬ ((d ++ [z]).length = 0 ∧ endswith pre double_back_slash = true) := by
                simp
              rw [if_neg c2, hpush, hlen1, ih _ rest hf2]
              rw [normpath_posix_step_push _ (d ++ [z]) double_dot hx1 hx2
                (Or.inr (Or.inr (by simp [h3])))]
            · have c1 : (d ++ [z]).length > 0 ∧ some z ≠ some double_dot := by
                refine ⟨by simp, ?_⟩
                intro h; exact h3 (Option.some.inj h)
              rw [if_pos c1]
              have e1 : (d ++ [z] ++ double_dot :: rest).take ((d ++ [z]).length - 1) ++
                  (d ++ [z] ++ double_dot :: rest).drop ((d ++ [z]).length + 1) = d ++ rest := by
                have a1 : (d ++ [z]).length - 1 = d.length := by simp
                have a2 : d ++ [z] ++ double_dot :: rest = d ++ (z :: double_dot :: rest) := by
                  simp
                have a3 : d ++ [z] ++ double_dot :: rest = (d ++ [z, double_dot]) ++ rest := by
                  simp
                have a4 : (d ++ [z]).length + 1 = (d ++ [z, double_dot]).length := by simp
                rw [a1]
                conv_lhs =>
                  arg 1
                  rw [a2, List.take_left]
                rw [a4, a3, List.drop_left]
              have e2 : (d ++ [z]).length - 1 = d.length := by simp
              rw [e1, e2, ih d rest hf2, normpath_posix_step_pop _ d z h3]
        · rw [if_neg h2, hpush, hlen1, ih _ rest hf2]
          rw [normpath_posix_step_push _ done x hx1 hx2 (Or.inl h2)]

end path
end os

theorem skip_while_replicate (P : Char → Bool) (c : Char) (hc : P c = true) (r : Str)
    (hr : ∀ z, r.head? = some z → P z = false) :
    ∀ n i, skip_while P (List.replicate n c ++ r) i = i + n := by
  intro n
  induction n with
  | zero =>
    intro i
    cases r with
    | nil => rfl
    | cons z l =>
      have := hr z rfl
      simp [skip_while, this]
  | succ n ih =>
    intro i
    have e : skip_while P (List.replicate (n + 1) c ++ r) i =
        skip_while P (List.replicate n c ++ r) (i + 1) := by
      show (if P c = true then skip_while P (List.replicate n c ++ r) (i + 1) else i) = _
      rw [if_pos hc]
    rw [e, ih]
    omega

theorem lstrip_replicate (c : Char) (n : Nat) (r : Str) (hr : r.head? ≠ some c) :
    lstrip (List.replicate n c ++ r) [c] = r := by
  unfold lstrip do_strip
  have h1 : ¬ (([c] : Str).length = 0) := by simp
  simp only [h1, if_false, ne_eq, reduceCtorEq, not_false_eq_true, if_true, not_true_eq_false]
  rw [skip_while_replicate _ c (by simp) r (by
    intro z hz
    have : z ≠ c := fun e => hr (e ▸ hz)
    simpa using this) n 0]
  split_ifs with h2
  · have : n = 0 := by omega
    subst this
    rfl
  · simp [substr]

namespace os
namespace path

theorem normpath_nt_initial_eq :
    ∀ (n fuel : Nat) (pre r : Str), n + 1 ≤ fuel → r.head? ≠ some '\\' →
      ((List.replicate n '\\' ++ r).length : Int) ≤ MAX_32BIT_INT →
      normpath_nt_initial fuel pre (List.replicate n '\\' ++ r) =
        some (pre ++ List.replicate n '\\', r) := by
  intro n
  induction n with
  | zero =>
    intro fuel pre r hf hr _
    cases fuel with
    | zero => omega
    | succ fuel =>
      unfold normpath_nt_initial double_back_slash
      have e := slice_to_nat (List.replicate 0 '\\' ++ r) 1
      simp only [Nat.cast_one] at e
      rw [e]
      have c1 : ¬ ((List.replicate 0 '\\' ++ r).take 1 = ['\\']) := by
        cases r with
        | nil => simp
        | cons z l => simpa using hr
      rw [if_neg c1]
      simp
  | succ n ih =>
    intro fuel pre r hf hr hb
    cases fuel with
    | zero => omega
    | succ fuel =>
      unfold normpath_nt_initial double_back_slash
      have e := slice_to_nat (List.replicate (n + 1) '\\' ++ r) 1
      simp only [Nat.cast_one] at e
      have e2 := slice_from_nat (List.replicate (n + 1) '\\' ++ r) 1 hb
      simp only [Nat.cast_one] at e2
      rw [e, e2]
      have c1 : (List.replicate (n + 1) '\\' ++ r).take 1 = ['\\'] := by
        simp [List.replicate_succ]
      rw [if_pos c1]
      have e3 : (List.replicate (n + 1) '\\' ++ r).drop 1 = List.replicate n '\\' ++ r := by
        simp [List.replicate_succ]
      rw [e3, ih fuel _ r (by omega) hr (by
        simp only [List.length_append, List.length_replicate] at hb ⊢
        omega)]
      simp [List.replicate_succ]

theorem normpath_nt_unfold (p P pre path : Str) (comps1 : List Str)
    (h1 : replace p forward_slash double_back_slash = P)
    (h2 : (if (splitdrive_nt P).1.isEmpty then
        (normpath_nt_initial ((splitdrive_nt P).2.length + 1) (splitdrive_nt P).1
          (splitdrive_nt P).2).getD ([], [])
      else if startswith (splitdrive_nt P).2 double_back_slash then
        ((splitdrive_nt P).1 ++ double_back_slash, lstrip (splitdrive_nt P).2 double_back_slash)
      else ((splitdrive_nt P).1, (splitdrive_nt P).2)) = (pre, path))
    (h3 : (normpath_nt_comps pre (2 * (split path double_back_slash).length + 1)
        (split path double_back_slash) 0).getD [] = comps1) :
    normpath_nt p = pre ++ pystring.join double_back_slash
      (if pre.isEmpty ∧ comps1.isEmpty then comps1 ++ [dot] else comps1) := by
  subst h1 h3
  unfold normpath_nt
  dsimp only
  rw [h2]

theorem splitdrive_nt_cons_colon (x : Char) (rest : Str)
    (h : ((x :: ':' :: rest).length : Int) ≤ MAX_32BIT_INT) :
    splitdrive_nt (x :: ':' :: rest) = ([x, ':'], rest) := by
  apply Prod.ext
  · rw [splitdrive_nt_fst]
    simp
  · rw [splitdrive_nt_snd _ h]
    simp

theorem normpath_nt_comps_main (pre r : Str) (n : Nat)
    (hpre : endswith pre double_back_slash = true ↔ 1 ≤ n)
    (h : (r.length : Int) ≤ MAX_32BIT_INT) :
    (normpath_nt_comps pre (2 * (split r double_back_slash).length + 1)
        (split r double_back_slash) 0).getD [] =
      (splitC '\\' r).foldl (normpath_posix_step ((min n 1 : Nat) : Int)) [] := by
  unfold double_back_slash at hpre ⊢
  rw [split_single r '\\' h]
  have := normpath_nt_comps_eq pre ((min n 1 : Nat) : Int)
    (by
      intro he
      have : 1 ≤ n := hpre.1 he
      omega)
    (by
      intro he
      have : ¬ 1 ≤ n := fun hc => he (hpre.2 hc)
      omega)
    (2 * (splitC '\\' r).length + 1) [] (splitC '\\' r) (by omega)
  simp only [List.nil_append, List.length_nil] at this
  rw [this]
  rfl

/-- The shape of `normpath_nt(p)` when the path, after slash conversion, has a drive. -/
theorem normpath_nt_eq_drive (p : Str) (h : (p.length : Int) ≤ MAX_32BIT_INT)
    (x : Char) (n : Nat) (r : Str)
    (hP : p.map (fun c => if c = '/' then '\\' else c) =
      x :: ':' :: (List.replicate n '\\' ++ r))
    (hr : r.head? ≠ some '\\') :
    normpath_nt p = [x, ':'] ++ List.replicate (min n 1) '\\' ++ joinC ['\\']
      ((splitC '\\' r).foldl (normpath_posix_step ((min n 1 : Nat) : Int)) []) := by
  have hlen : (x :: ':' :: (List.replicate n '\\' ++ r)).length = p.length := by
    rw [← hP, List.length_map]
  have hb : ((x :: ':' :: (List.replicate n '\\' ++ r)).length : Int) ≤ MAX_32BIT_INT := by
    rw [hlen]; exact h
  have hbr : (r.length : Int) ≤ MAX_32BIT_INT := by
    simp only [List.length_cons, List.length_append, List.length_replicate] at hlen
    omega
  have h1 : replace p forward_slash double_back_slash =
      x :: ':' :: (List.replicate n '\\' ++ r) := by
    unfold forward_slash double_back_slash
    rw [replace_single '/' '\\' p h, hP]
  have hpre : endswith ([x, ':'] ++ List.replicate (min n 1) '\\') double_back_slash = true ↔
      1 ≤ n := by
    unfold double_back_slash
    rw [endswith_single _ _ (by
      simp only [List.length_append, List.length_cons, List.length_nil, List.length_replicate]
      have := MAX_32BIT_INT_gt_two
      have : min n 1 ≤ 1 := Nat.min_le_right _ _
      have h4 : (4 : Int) ≤ MAX_32BIT_INT := by decide
      omega)]
    cases n with
    | zero => simp
    | succ m =>
      have : min (m + 1) 1 = 1 := by omega
      rw [this]
      simp
  rw [normpath_nt_unfold p _ ([x, ':'] ++ List.replicate (min n 1) '\\') r _ h1 ?_
    (normpath_nt_comps_main _ r n hpre hbr)]
  · rw [join_eq_joinC]
    have : ¬ (([x, ':'] ++ List.replicate (min n 1) '\\').isEmpty = true ∧
        ((splitC '\\' r).foldl (normpath_posix_step ((min n 1 : Nat) : Int)) []).isEmpty =
          true) := by
      intro hc
      simp at hc
    rw [if_neg this]
    rfl
  · rw [splitdrive_nt_cons_colon x _ hb]
    have c1 : ¬ (([x, ':'] : Str).isEmpty = true) := by simp
    rw [if_neg c1]
    unfold double_back_slash
    cases n with
    | zero =>
      have c2 : ¬ (startswith (List.replicate 0 '\\' ++ r) ['\\'] = true) := by
        rw [startswith_single]
        simpa using hr
      rw [if_neg c2]
      simp
    | succ m =>
      have c2 : startswith (List.replicate (m + 1) '\\' ++ r) ['\\'] = true := by
        rw [startswith_single]
        simp [List.replicate_succ]
      rw [if_pos c2, lstrip_replicate '\\' (m + 1) r hr]
      have : min (m + 1) 1 = 1 := by omega
      rw [this]
      rfl

/-- The shape of `normpath_nt(p)` when the path has no drive. -/
theorem normpath_nt_eq_nodrive (p : Str) (h : (p.length : Int) ≤ MAX_32BIT_INT)
    (n : Nat) (r : Str)
    (hP : p.map (fun c => if c = '/' then '\\' else c) = List.replicate n '\\' ++ r)
    (hr : r.head? ≠ some '\\')
    (hnd : (List.replicate n '\\' ++ r)[1]? ≠ some ':') :
    normpath_nt p =
      if n = 0 ∧ (splitC '\\' r).foldl (normpath_posix_step ((min n 1 : Nat) : Int)) [] = []
      then ['.']
      else List.replicate n '\\' ++ joinC ['\\']
        ((splitC '\\' r).foldl (normpath_posix_step ((min n 1 : Nat) : Int)) []) := by
  have hlen : (List.replicate n '\\' ++ r).length = p.length := by
    rw [← hP, List.length_map]
  have hb : ((List.replicate n '\\' ++ r).length : Int) ≤ MAX_32BIT_INT := by
    rw [hlen]; exact h
  have hbr : (r.length : Int) ≤ MAX_32BIT_INT := by
    simp only [List.length_append, List.length_replicate] at hlen
    omega
  have h1 : replace p forward_slash double_back_slash = List.replicate n '\\' ++ r := by
    unfold forward_slash double_back_slash
    rw [replace_single '/' '\\' p h, hP]
  have hpre : endswith (List.replicate n '\\') double_back_slash = true ↔ 1 ≤ n := by
    unfold double_back_slash
    rw [endswith_single _ _ (by
      simp only [List.length_append, List.length_replicate] at hb ⊢
      omega)]
    cases n with
    | zero => simp
    | succ m =>
      rw [List.replicate_succ']
      simp
  rw [normpath_nt_unfold p _ (List.replicate n '\\') r _ h1 ?_
    (normpath_nt_comps_main _ r n hpre hbr)]
  · rw [join_eq_joinC]
    by_cases hc : n = 0 ∧
        (splitC '\\' r).foldl (normpath_posix_step ((min n 1 : Nat) : Int)) [] = []
    · rw [if_pos hc]
      obtain ⟨hn, hnew⟩ := hc
      subst hn
      rw [hnew]
      decide
    · rw [if_neg hc]
      have : ¬ ((List.replicate n '\\').isEmpty = true ∧
          ((splitC '\\' r).foldl (normpath_posix_step ((min n 1 : Nat) : Int)) []).isEmpty =
            true) := by
        intro hc2
        apply hc
        constructor
        · have := hc2.1
          cases n with
          | zero => rfl
          | succ m => simp [List.replicate_succ] at this
        · exact List.isEmpty_iff.1 hc2.2
      rw [if_neg this]
      rfl
  · rw [splitdrive_nt_of_not_drive hnd]
    have c1 : ([] : Str).isEmpty = true := rfl
    rw [if_pos c1, normpath_nt_initial_eq n _ [] r (by
      simp only [List.length_append, List.length_replicate]
      omega) hr hb]
    rfl

end path
end os

theorem exists_strip_leading (c : Char) (l : Str) :
    ∃ n r, l = List.replicate n c ++ r ∧ r.head? ≠ some c := by
  induction l with
  | nil => exact ⟨0, [], rfl, by simp⟩
  | cons x l ih =>
    by_cases hx : x = c
    · obtain ⟨n, r, e, hr⟩ := ih
      exact ⟨n + 1, r, by rw [e, hx]; rfl, hr⟩
    · exact ⟨0, x :: l, rfl, by simpa using hx⟩

theorem mem_of_mem_splitC (c : Char) (s x : Str) (h : x ∈ splitC c s) : ∀ y ∈ x, y ∈ s := by
  induction s generalizing x with
  | nil =>
    simp only [splitC, List.mem_singleton] at h
    subst h
    simp
  | cons z zs ih =>
    by_cases hz : z = c
    · subst hz
      rw [splitC_cons_sep] at h
      rcases List.mem_cons.1 h with h | h
      · subst h; simp
      · intro y hy
        exact List.mem_cons_of_mem _ (ih x h y hy)
    · rw [splitC_cons_ne c z zs hz] at h
      cases hs : splitC c zs with
      | nil => exact absurd hs (splitC_ne_nil c zs)
      | cons a t =>
        rw [hs] at h ih
        simp only [prependHead, List.mem_cons] at h
        rcases h with h | h
        · subst h
          intro y hy
          simp only [List.singleton_append, List.mem_cons] at hy
          rcases hy with hy | hy
          · rw [hy]; simp
          · exact List.mem_cons_of_mem _ (ih a (by simp) y hy)
        · intro y hy
          exact List.mem_cons_of_mem _ (ih x (by simp [h]) y hy)

theorem mem_joinC (sep : Str) (l : List Str) (y : Char) (h : y ∈ joinC sep l) :
    y ∈ sep ∨ ∃ x ∈ l, y ∈ x := by
  induction l with
  | nil => simp [joinC] at h
  | cons x l ih =>
    cases l with
    | nil =>
      simp only [joinC] at h
      exact Or.inr ⟨x, by simp, h⟩
    | cons z l =>
      simp only [joinC, List.mem_append] at h
      rcases h with h | h | h
      · exact Or.inr ⟨x, by simp, h⟩
      · exact Or.inl h
      · rcases ih h with h1 | ⟨w, hw, hy⟩
        · exact Or.inl h1
        · exact Or.inr ⟨w, List.mem_cons_of_mem _ hw, hy⟩

namespace os
namespace path

/-- The segments that survive the loop are reproduced unchanged when the joined result is
split and run through the loop again, for any separator character. -/
theorem normpath_fold_fixed (c : Char) (k : Int) (r : Str) :
    (splitC c (joinC [c] ((splitC c r).foldl (normpath_posix_step k) []))).foldl
        (normpath_posix_step k) [] =
      (splitC c r).foldl (normpath_posix_step k) [] := by
  have hmem := normpath_posix_fold_mem k (splitC c r) []
  have hgood := normpath_posix_fold_good k (splitC c r) [] (by
    intro l1 y l2 e
    simp at e)
  generalize (splitC c r).foldl (normpath_posix_step k) [] = new at hmem hgood
  by_cases hn : new = []
  · subst hn
    simp [joinC, splitC, normpath_posix_step_nil]
  · rw [splitC_joinC c new hn]
    · have := normpath_posix_fold_of_good k new [] (by simpa using hgood)
      simpa using this
    · intro x hx
      rcases hmem x hx with h1 | h1
      · simp at h1
      · exact not_mem_of_mem_splitC c r x h1.1

theorem normpath_fold_joinC_length (c : Char) (k : Int) (r : Str) :
    (joinC [c] ((splitC c r).foldl (normpath_posix_step k) [])).length ≤ r.length := by
  have hw := weight_normpath_posix_fold k (splitC c r) []
  rw [weight_splitC] at hw
  generalize (splitC c r).foldl (normpath_posix_step k) [] = new at hw
  by_cases hn : new = []
  · subst hn
    simp [joinC]
  · have := length_joinC c new hn
    simp only [List.map_nil, List.sum_nil, zero_add] at hw
    omega

theorem normpath_fold_joinC_head (c : Char) (k : Int) (r : Str) :
    (joinC [c] ((splitC c r).foldl (normpath_posix_step k) [])).head? ≠ some c := by
  apply joinC_head_ne
  intro x hx
  rcases normpath_posix_fold_mem k (splitC c r) [] x hx with h1 | h1
  · simp at h1
  · exact ⟨h1.2, not_mem_of_mem_splitC c r x h1.1⟩

theorem normpath_fold_joinC_mem (c : Char) (k : Int) (r : Str) (y : Char)
    (h : y ∈ joinC [c] ((splitC c r).foldl (normpath_posix_step k) [])) :
    y = c ∨ y ∈ r := by
  rcases mem_joinC _ _ y h with h1 | ⟨x, hx, hy⟩
  · left; simpa using h1
  · right
    rcases normpath_posix_fold_mem k (splitC c r) [] x hx with h1 | h1
    · simp at h1
    · exact mem_of_mem_splitC c r x h1.1 y hy

theorem slash_not_mem_map (p : Str) :
    '/' ∉ p.map (fun c => if c = '/' then '\\' else c) := by
  intro h
  obtain ⟨c, _, hc⟩ := List.mem_map.1 h
  by_cases h1 : c = '/'
  · rw [if_pos h1] at hc
    exact absurd hc (by decide)
  · rw [if_neg h1] at hc
    exact h1 hc

theorem getElem?_one_map_colon (p : Str) :
    (p.map (fun c => if c = '/' then '\\' else c))[1]? = some ':' ↔ p[1]? = some ':' := by
  rw [List.getElem?_map]
  cases p[1]? with
  | none => simp
  | some c =>
    simp only [Option.map_some', Option.some.injEq]
    by_cases h1 : c = '/'
    · rw [if_pos h1, h1]
      decide
    · rw [if_neg h1]

/-- C4, the claim as stated fails: `normpath_nt("./c:.")` is `"c:."` (the `"."` segment is
dropped, leaving a segment that now reads as a drive), and `normpath_nt("c:.")` is `"c:"`. -/
theorem normpath_nt_idempotent_counterexample :
    normpath_nt "./c:.".toList = "c:.".toList ∧
    normpath_nt (normpath_nt "./c:.".toList) = "c:".toList ∧
    normpath_nt (normpath_nt "./c:.".toList) ≠ normpath_nt "./c:.".toList := by decide

/-- C4 as amended: for every string `p` (of a size that fits `int`) that has a drive letter
(second character `':'`), or whose normal form `normpath_nt(p)` has none,
`normpath_nt(normpath_nt(p)) = normpath_nt(p)`. -/
theorem normpath_nt_idempotent (p : Str) (h : (p.length : Int) ≤ MAX_32BIT_INT)
    (hd : p[1]? = some ':' ∨ (normpath_nt p)[1]? ≠ some ':') :
    normpath_nt (normpath_nt p) = normpath_nt p := by
  have hslash := slash_not_mem_map p
  have hlenP := List.length_map p (fun c => if c = '/' then '\\' else c)
  by_cases hP1 : (p.map (fun c => if c = '/' then '\\' else c))[1]? = some ':'
  · -- the path has a drive
    cases hPe : p.map (fun c => if c = '/' then '\\' else c) with
    | nil => rw [hPe] at hP1; simp at hP1
    | cons x l =>
      cases l with
      | nil => rw [hPe] at hP1; simp at hP1
      | cons y rest =>
        rw [hPe] at hP1 hslash hlenP
        have hy : y = ':' := by simpa using hP1
        subst hy
        obtain ⟨n, r, hrest, hr⟩ := exists_strip_leading '\\' rest
        subst hrest
        have hq := normpath_nt_eq_drive p h x n r hPe hr
        rw [hq]
        have hjl := normpath_fold_joinC_length '\\' ((min n 1 : Nat) : Int) r
        have hjh := normpath_fold_joinC_head '\\' ((min n 1 : Nat) : Int) r
        have hjm := normpath_fold_joinC_mem '\\' ((min n 1 : Nat) : Int) r
        have hff := normpath_fold_fixed '\\' ((min n 1 : Nat) : Int) r
        generalize hj : joinC ['\\'] ((splitC '\\' r).foldl
          (normpath_posix_step ((min n 1 : Nat) : Int)) []) = j at hjl hjh hjm hff ⊢
        have hbq : ((([x, ':'] : Str) ++ List.replicate (min n 1) '\\' ++ j).length : Int) ≤
            MAX_32BIT_INT := by
          simp only [List.length_cons, List.length_append, List.length_replicate,
            List.length_nil] at hlenP ⊢
          have : min n 1 ≤ n := Nat.min_le_left _ _
          omega
        have hnq : '/' ∉ (([x, ':'] : Str) ++ List.replicate (min n 1) '\\' ++ j) := by
          intro hc
          simp only [List.mem_append, List.mem_cons, List.mem_replicate] at hc
          rcases hc with ((hc | hc | hc) | hc) | hc
          · apply hslash; rw [← hc]; simp
          · exact absurd hc (by decide)
          · simp at hc
          · exact absurd hc.2 (by decide)
          · rcases hjm '/' hc with h1 | h1
            · exact absurd h1 (by decide)
            · apply hslash; simp [h1]
        have hPq : (([x, ':'] : Str) ++ List.replicate (min n 1) '\\' ++ j).map
            (fun c => if c = '/' then '\\' else c) =
            x :: ':' :: (List.replicate (min n 1) '\\' ++ j) := by
          rw [map_of_not_mem '/' '\\' _ hnq]
          simp
        rw [normpath_nt_eq_drive _ hbq x (min n 1) j hPq hjh]
        have hmin : min (min n 1) 1 = min n 1 := by omega
        rw [hmin, hff, hj]
  · -- the path has no drive
    obtain ⟨n, r, hPe, hr⟩ := exists_strip_leading '\\'
      (p.map (fun c => if c = '/' then '\\' else c))
    rw [hPe] at hP1 hslash hlenP
    have hq := normpath_nt_eq_nodrive p h n r hPe hr hP1
    have hp1 : p[1]? ≠ some ':' := by
      intro hc
      apply hP1
      rw [← hPe]
      exact (getElem?_one_map_colon p).2 hc
    have hd2 : (normpath_nt p)[1]? ≠ some ':' := by
      rcases hd with hd | hd
      · exact absurd hd hp1
      · exact hd
    rw [hq] at hd2 ⊢
    have hjl := normpath_fold_joinC_length '\\' ((min n 1 : Nat) : Int) r
    have hjh := normpath_fold_joinC_head '\\' ((min n 1 : Nat) : Int) r
    have hjm := normpath_fold_joinC_mem '\\' ((min n 1 : Nat) : Int) r
    have hff := normpath_fold_fixed '\\' ((min n 1 : Nat) : Int) r
    by_cases hc : n = 0 ∧
        (splitC '\\' r).foldl (normpath_posix_step ((min n 1 : Nat) : Int)) [] = []
    · rw [if_pos hc]
      decide
    · rw [if_neg hc] at hd2 ⊢
      generalize hj : joinC ['\\'] ((splitC '\\' r).foldl
        (normpath_posix_step ((min n 1 : Nat) : Int)) []) = j at hjl hjh hjm hff hd2 ⊢
      have hbq : ((List.replicate n '\\' ++ j).length : Int) ≤ MAX_32BIT_INT := by
        simp only [List.length_append, List.length_replicate] at hlenP ⊢
        omega
      have hnq : '/' ∉ (List.replicate n '\\' ++ j) := by
        intro hc
        simp only [List.mem_append, List.mem_replicate] at hc
        rcases hc with hc | hc
        · exact absurd hc.2 (by decide)
        · rcases hjm '/' hc with h1 | h1
          · exact absurd h1 (by decide)
          · apply hslash; simp [h1]
      have hPq : (List.replicate n '\\' ++ j).map (fun c => if c = '/' then '\\' else c) =
          List.replicate n '\\' ++ j := map_of_not_mem '/' '\\' _ hnq
      rw [normpath_nt_eq_nodrive _ hbq n j hPq hjh hd2, hff, if_neg hc, hj]

/-- The statement of `normpath_nt_idempotent` at `"c:/a/../../b//c/."`. -/
theorem normpath_nt_idempotent_witness :
    (("c:/a/../../b//c/.".toList.length : Int) ≤ MAX_32BIT_INT) ∧
    ("c:/a/../../b//c/.".toList[1]? = some ':' ∨
      (normpath_nt "c:/a/../../b//c/.".toList)[1]? ≠ some ':') ∧
    normpath_nt (normpath_nt "c:/a/../../b//c/.".toList) =
      normpath_nt "c:/a/../../b//c/.".toList :=
  ⟨by decide, by decide,
    normpath_nt_idempotent "c:/a/../../b//c/.".toList (by decide) (by decide)⟩

/-- The value of `b_nts` spelled out: `b` replaces a non-empty accumulator exactly when `b`
is Windows-absolute and one of the three tests of the source holds. -/
theorem join_nt_b_nts_iff (path b : Str) :
    join_nt_b_nts path b = true ↔
      path = [] ∨ (isabs_nt b = true ∧
        ((path.length ≥ 2 ∧ path[1]? ≠ some ':') ∨ (b.length ≥ 2 ∧ b[1]? = some ':') ∨
          path.length > 3 ∨
          (path.length = 3 ∧ endswith path forward_slash = false ∧
            endswith path double_back_slash = false))) := by
  unfold join_nt_b_nts
  cases path with
  | nil => simp
  | cons x l =>
    have hne : (x :: l).isEmpty = false := rfl
    rw [hne]
    simp only [Bool.false_eq_true, if_false]
    by_cases hb : isabs_nt b = true
    · rw [if_pos hb]
      by_cases h1 : ((x :: l).length ≥ 2 ∧ (x :: l)[1]? ≠ some ':') ∨
          (b.length ≥ 2 ∧ b[1]? = some ':')
      · rw [if_pos h1]
        constructor
        · intro _
          right
          refine ⟨hb, ?_⟩
          rcases h1 with h1 | h1
          · exact Or.inl h1
          · exact Or.inr (Or.inl h1)
        · intro _; rfl
      · rw [if_neg h1]
        by_cases h2 : (x :: l).length > 3 ∨ ((x :: l).length = 3 ∧
            (!endswith (x :: l) forward_slash) = true ∧
            (!endswith (x :: l) double_back_slash) = true)
        · rw [if_pos h2]
          constructor
          · intro _
            right
            refine ⟨hb, ?_⟩
            rcases h2 with h2 | ⟨h2, h3, h4⟩
            · exact Or.inr (Or.inr (Or.inl h2))
            · exact Or.inr (Or.inr (Or.inr ⟨h2, by simpa using h3, by simpa using h4⟩))
          · intro _; rfl
        · rw [if_neg h2]
          constructor
          · intro hc; exact absurd hc (by simp)
          · intro hc
            exfalso
            rcases hc with hc | ⟨_, hc | hc | hc | ⟨hc, h3, h4⟩⟩
            · exact absurd hc (by simp)
            · exact h1 (Or.inl hc)
            · exact h1 (Or.inr hc)
            · exact h2 (Or.inl hc)
            · exact h2 (Or.inr ⟨hc, by simpa using h3, by simpa using h4⟩)
    · rw [if_neg hb]
      constructor
      · intro hc; exact absurd hc (by simp)
      · intro hc
        rcases hc with hc | ⟨hc, _⟩
        · exact absurd hc (by simp)
        · exact absurd hc hb

/-- The branch of the loop body of `join_nt` taken when `b` does not replace the
accumulator, with the suffix and prefix tests read off the strings. -/
theorem join_nt_step_of_not_reset (path b : Str) (h : (path.length : Int) ≤ MAX_32BIT_INT)
    (hn : ¬ join_nt_b_nts path b = true) :
    join_nt_step path b =
      if path.getLast? = some '/' ∨ path.getLast? = some '\\' then
        (if b.head? = some '/' ∨ b.head? = some '\\' then path ++ slice b 1 else path ++ b)
      else if path.getLast? = some ':' then path ++ b
      else if b ≠ [] then
        (if b.head? = some '/' ∨ b.head? = some '\\' then path ++ b else path ++ '\\' :: b)
      else path ++ ['\\'] := by
  unfold join_nt_step forward_slash double_back_slash colon
  rw [if_neg hn]
  have e1 : (endswith path ['/'] || endswith path ['\\']) = true ↔
      (path.getLast? = some '/' ∨ path.getLast? = some '\\') := by
    rw [Bool.or_eq_true, endswith_single path '/' h, endswith_single path '\\' h]
  have e2 : (startswith b ['/'] || startswith b ['\\']) = true ↔
      (b.head? = some '/' ∨ b.head? = some '\\') := by
    rw [Bool.or_eq_true, startswith_single, startswith_single]
  have e3 : endswith path [':'] = true ↔ path.getLast? = some ':' := endswith_single path ':' h
  have e4 : (!b.isEmpty) = true ↔ b ≠ [] := by
    cases b with
    | nil => simp
    | cons y l => simp
  simp only [e1, e2, e3, e4]
  rfl

theorem length_le_MAX_of_le_three (l : Str) (h : l.length ≤ 3) :
    (l.length : Int) ≤ MAX_32BIT_INT := by
  have h4 : (3 : Int) ≤ MAX_32BIT_INT := by decide
  omega

theorem isabs_nt_of_head (b : Str) (h0 : b.head? = some '/' ∨ b.head? = some '\\')
    (h1 : b[1]? ≠ some ':') : isabs_nt b = true := by
  rw [isabs_nt_iff, if_neg h1]
  cases b with
  | nil => simp at h0
  | cons y l => simpa using h0

/-- C11: bare-drive exception of Windows join: for every character `X` and every string `b`
(of a size that fits `int`) whose first character is `'/'` or a backslash and whose second
character, if any, is not `':'`, `join_nt(X:, b) = X: ++ b` and
`join_nt(X:/, b) = X:/ ++ (b without its first character)`. -/
theorem join_nt2_bare_drive (X : Char) (b : Str) (hb : (b.length : Int) ≤ MAX_32BIT_INT)
    (h0 : b.head? = some '/' ∨ b.head? = some '\\') (h1 : b[1]? ≠ some ':') :
    join_nt2 [X, ':'] b = [X, ':'] ++ b ∧
    join_nt2 [X, ':', '/'] b = [X, ':', '/'] ++ b.tail := by
  have hb2 : ¬ (b.length ≥ 2 ∧ b[1]? = some ':') := fun hc => h1 hc.2
  constructor
  · have hn : ¬ join_nt_b_nts [X, ':'] b = true := by
      rw [join_nt_b_nts_iff]
      intro hc
      rcases hc with hc | ⟨_, hc | hc | hc | hc⟩
      · exact absurd hc (by simp)
      · exact hc.2 rfl
      · exact hb2 hc
      · simp at hc
      · simp at hc
    rw [join_nt2_eq, join_nt_step_of_not_reset _ _ (length_le_MAX_of_le_three _ (by simp)) hn]
    simp
  · have hn : ¬ join_nt_b_nts [X, ':', '/'] b = true := by
      rw [join_nt_b_nts_iff]
      intro hc
      rcases hc with hc | ⟨_, hc | hc | hc | hc⟩
      · exact absurd hc (by simp)
      · exact hc.2 rfl
      · exact hb2 hc
      · simp at hc
      · have he : endswith [X, ':', '/'] forward_slash = true := by
          unfold forward_slash
          rw [endswith_single _ _ (length_le_MAX_of_le_three _ (by simp))]
          rfl
        rw [he] at hc
        exact absurd hc.2.1 (by simp)
    rw [join_nt2_eq, join_nt_step_of_not_reset _ _ (length_le_MAX_of_le_three _ (by simp)) hn]
    have e : slice b 1 = b.tail := by
      have := slice_from_nat b 1 hb
      simp only [Nat.cast_one] at this
      rw [this]
      cases b with
      | nil => rfl
      | cons y l => rfl
    rw [e]
    simp [h0]

/-- The scenarios `join_nt("c:", "/a") = "c:/a"` and `join_nt("c:/", "/a") = "c:/a"`, from
`join_nt2_bare_drive`. -/
theorem join_nt2_bare_drive_witness :
    (("/a".toList.length : Int) ≤ MAX_32BIT_INT) ∧
    ("/a".toList.head? = some '/' ∨ "/a".toList.head? = some '\\') ∧
    "/a".toList[1]? ≠ some ':' ∧
    join_nt2 "c:".toList "/a".toList = "c:/a".toList ∧
    join_nt2 "c:/".toList "/a".toList = "c:/a".toList :=
  ⟨by decide, by decide, by decide,
    join_nt2_bare_drive 'c' "/a".toList (by decide) (by decide) (by decide)⟩

/-- C13, the code at the failing input `a = "x"`, `b = "/y"`: the accumulator has no drive
letter and `b` is Windows-absolute, yet the test `path.size() >= 2 && path[1] != ':'` is false
for a one-character accumulator, `b_nts` stays false and the result is `"x/y"`, not `"/y"`. -/
theorem join_nt2_one_char_failing_input :
    "x".toList ≠ [] ∧ "x".toList.length < 2 ∧ isabs_nt "/y".toList = true ∧
    join_nt_b_nts "x".toList "/y".toList = false ∧
    join_nt2 "x".toList "/y".toList = "x/y".toList ∧
    join_nt2 "x".toList "/y".toList ≠ "/y".toList := by decide

/-- C14: a non-absolute component never resets Windows join: for every non-empty string `a`
(of a size that fits `int`) and every string `b` that is not Windows-absolute and does not
begin with `'/'` or a backslash, `join_nt(a, b)` is `a ++ b` if `a` ends with `'/'`, a
backslash or `':'`, and `a ++ backslash ++ b` otherwise. -/
theorem join_nt2_relative (a b : Str) (ha : (a.length : Int) ≤ MAX_32BIT_INT) (hne : a ≠ [])
    (hb : isabs_nt b = false) (h0 : b.head? ≠ some '/') (h1 : b.head? ≠ some '\\') :
    join_nt2 a b =
      if a.getLast? = some '/' ∨ a.getLast? = some '\\' ∨ a.getLast? = some ':' then a ++ b
      else a ++ ['\\'] ++ b := by
  have hn : ¬ join_nt_b_nts a b = true := by
    rw [join_nt_b_nts_iff]
    intro hc
    rcases hc with hc | ⟨hc, _⟩
    · exact hne hc
    · rw [hb] at hc
      exact absurd hc (by simp)
  have hh : ¬ (b.head? = some '/' ∨ b.head? = some '\\') := by
    intro hc
    rcases hc with hc | hc
    · exact h0 hc
    · exact h1 hc
  rw [join_nt2_eq, join_nt_step_of_not_reset a b ha hn, if_neg hh, if_neg hh]
  by_cases c : a.getLast? = some '/' ∨ a.getLast? = some '\\' ∨ a.getLast? = some ':'
  · rw [if_pos c]
    by_cases c1 : a.getLast? = some '/' ∨ a.getLast? = some '\\'
    · rw [if_pos c1]
    · have c2 : a.getLast? = some ':' := by
        rcases c with c | c | c
        · exact absurd (Or.inl c) c1
        · exact absurd (Or.inr c) c1
        · exact c
      rw [if_neg c1, if_pos c2]
  · rw [if_neg c]
    have c1 : ¬ (a.getLast? = some '/' ∨ a.getLast? = some '\\') := by
      intro hc
      rcases hc with hc | hc
      · exact c (Or.inl hc)
      · exact c (Or.inr (Or.inl hc))
    have c2 : ¬ a.getLast? = some ':' := fun hc => c (Or.inr (Or.inr hc))
    rw [if_neg c1, if_neg c2]
    by_cases c3 : b = []
    · subst c3
      simp
    · rw [if_pos c3]
      simp

/-- The scenario `join_nt("c:", "foo") = "c:foo"`, from `join_nt2_relative`. -/
theorem join_nt2_relative_witness :
    (("c:".toList.length : Int) ≤ MAX_32BIT_INT) ∧ "c:".toList ≠ [] ∧
    isabs_nt "foo".toList = false ∧ "foo".toList.head? ≠ some '/' ∧
    "foo".toList.head? ≠ some '\\' ∧
    join_nt2 "c:".toList "foo".toList = "c:foo".toList :=
  ⟨by decide, by decide, by decide, by decide, by decide,
    (join_nt2_relative "c:".toList "foo".toList (by decide) (by decide) (by decide)
      (by decide) (by decide)).trans (by decide)⟩

/-- C15: for every string `p`, `isabs_nt(p)` is true iff the rest part of `splitdrive_nt(p)`
is non-empty and its first character is `'/'` or a backslash; and `isabs_nt` of a bare drive
reference `X:` is false for every character `X`. -/
theorem isabs_nt_spec (p : Str) :
    (isabs_nt p = true ↔
      ((splitdrive_nt p).2 ≠ [] ∧
        ((splitdrive_nt p).2.head? = some '/' ∨ (splitdrive_nt p).2.head? = some '\\'))) ∧
    ∀ X : Char, isabs_nt [X, ':'] = false := by
  constructor
  · rw [isabs_nt_of_pathspec p _ rfl]
    cases (splitdrive_nt p).2 with
    | nil => simp
    | cons y l => simp
  · intro X
    have := isabs_nt_iff [X, ':']
    cases h : isabs_nt [X, ':'] with
    | false => rfl
    | true =>
      rw [h] at this
      simp at this

/-- C16: for every string `p` whose size fits `int`, `isabs_posix(p)` is true iff `p` is
non-empty and its first character is `'/'`. The bound is the one under which the conversion
of `size()` to `int` in `startswith(p, "/")` is exact. -/
theorem isabs_posix_iff (p : Str) (_h : (p.length : Int) ≤ MAX_32BIT_INT) :
    isabs_posix p = true ↔ (p ≠ [] ∧ p.head? = some '/') := by
  unfold isabs_posix forward_slash
  rw [startswith_single]
  cases p with
  | nil => simp
  | cons y l => simp

/-- The statement of `isabs_posix_iff` at `"/a"`, which is absolute, with the values at the
relative `"a/"` and at the empty string. -/
theorem isabs_posix_iff_witness :
    (("/a".toList.length : Int) ≤ MAX_32BIT_INT) ∧
    isabs_posix "/a".toList = true ∧ isabs_posix "a/".toList = false ∧
    isabs_posix "".toList = false ∧
    (isabs_posix "/a".toList = true ↔ ("/a".toList ≠ [] ∧ "/a".toList.head? = some '/')) :=
  ⟨by decide, by decide, by decide, by decide, isabs_posix_iff "/a".toList (by decide)⟩

/-- C17: for every string `p`, `splitdrive_posix(p) = ("", p)`. -/
theorem splitdrive_posix_eq (p : Str) : splitdrive_posix p = ([], p) := rfl

end path
end os

theorem dropWhile_head_not (P : Char → Bool) (l : Str) :
    l.dropWhile P = [] ∨ ∃ x rest, l.dropWhile P = x :: rest ∧ P x = false := by
  induction l with
  | nil => left; rfl
  | cons y l ih =>
    by_cases hy : P y = true
    · rw [List.dropWhile_cons_of_pos hy]
      exact ih
    · right
      refine ⟨y, l, ?_, by simpa using hy⟩
      rw [List.dropWhile_cons_of_neg hy]

theorem mem_takeWhile_true (P : Char → Bool) (l : Str) :
    ∀ c ∈ l.takeWhile P, P c = true := by
  induction l with
  | nil => intro c hc; simp at hc
  | cons y l ih =>
    intro c hc
    by_cases hy : P y = true
    · rw [List.takeWhile_cons_of_pos hy] at hc
      rcases List.mem_cons.1 hc with h | h
      · rw [h]; exact hy
      · exact ih c h
    · rw [List.takeWhile_cons_of_neg hy] at hc
      simp at hc

/-- The final component is a suffix of the path, holds no separator, and what stands before
it is empty or ends with a separator. -/
theorem final_component_spec (seps : List Char) (p : Str) :
    ∃ pre, p = pre ++ final_component seps p ∧
      (pre = [] ∨ ∃ s ∈ seps, pre.getLast? = some s) ∧
      ∀ c ∈ final_component seps p, c ∉ seps := by
  unfold final_component
  refine ⟨(p.reverse.dropWhile (fun c => decide (c ∉ seps))).reverse, ?_, ?_, ?_⟩
  · rw [← List.reverse_append, List.takeWhile_append_dropWhile, List.reverse_reverse]
  · rcases dropWhile_head_not (fun c => decide (c ∉ seps)) p.reverse with h | ⟨x, rest, h, hx⟩
    · left; rw [h]; rfl
    · right
      refine ⟨x, by simpa using hx, ?_⟩
      rw [h]
      simp
  · intro c hc
    have := mem_takeWhile_true (fun c => decide (c ∉ seps)) p.reverse c
      (List.mem_reverse.1 hc)
    simpa using this

theorem rfind_single_ge (c : Char) (x y : Str)
    (h : ((x ++ c :: y).length : Int) ≤ MAX_32BIT_INT) :
    (x.length : Int) ≤ rfind (x ++ c :: y) [c] := by
  rcases exists_last_occurrence c y with hy | ⟨y1, y2, e, hy2⟩
  · rw [rfind_single_found c x y hy h]
  · subst e
    have e2 : x ++ c :: (y1 ++ c :: y2) = (x ++ c :: y1) ++ c :: y2 := by simp
    rw [e2] at h ⊢
    rw [rfind_single_found c _ y2 hy2 h]
    simp only [List.length_append, List.length_cons]
    omega

theorem rfind_single_ge_neg_one (c : Char) (p : Str) (h : (p.length : Int) ≤ MAX_32BIT_INT) :
    (-1 : Int) ≤ rfind p [c] := by
  rcases exists_last_occurrence c p with hp | ⟨a, t, e, ht⟩
  · rw [rfind_single_not_found c p hp]
  · subst e
    rw [rfind_single_found c a t ht h]
    omega

namespace os
namespace path

theorem splitext_scan_zero (p extsep : Str) (dotIndex : Int) :
    splitext_scan p extsep dotIndex 0 = false := rfl

/-- The two outcomes of `splitext_generic`, with the separator index spelled out. -/
theorem splitext_generic_cases (p sep altsep extsep : Str) :
    splitext_generic p sep altsep extsep = (p, []) ∨
    (rfind p extsep >
        (if (!altsep.isEmpty) = true then max (rfind p sep) (rfind p altsep) else rfind p sep) ∧
      splitext_generic p sep altsep extsep =
        (slice p 0 (rfind p extsep), slice p (rfind p extsep))) := by
  unfold splitext_generic
  dsimp only
  split_ifs with h1 h2 h2
  · exact Or.inr ⟨h2.1, rfl⟩
  · exact Or.inl rfl
  · exact Or.inr ⟨h2.1, rfl⟩
  · exact Or.inl rfl

/-- No extension is split off when the last dot stands right after the last separator (or
before it): the loop over the leading dots has nothing to look at. -/
theorem splitext_generic_of_le (p sep altsep extsep : Str)
    (h : rfind p extsep ≤
      (if (!altsep.isEmpty) = true then max (rfind p sep) (rfind p altsep) else rfind p sep)
        + 1) :
    splitext_generic p sep altsep extsep = (p, []) := by
  unfold splitext_generic
  dsimp only
  have hz : (rfind p extsep -
      ((if (!altsep.isEmpty) = true then max (rfind p sep) (rfind p altsep) else rfind p sep)
        + 1)).toNat = 0 := by omega
  rw [hz, splitext_scan_zero]
  simp [empty_string]

/-- When the final component is `'.' :: t` with no further dot, the last dot of the path
stands at the index right after the part before the final component, and every separator
that ends that part is found by `rfind` at the index just before. -/
theorem rfind_dot_of_final_component (seps : List Char) (p t : Str)
    (h : (p.length : Int) ≤ MAX_32BIT_INT)
    (hf : final_component seps p = '.' :: t) (ht : '.' ∉ t) :
    ∃ pre : Str, rfind p ['.'] = (pre.length : Int) ∧
      (pre = [] ∨ ∃ s ∈ seps, (pre.length : Int) ≤ rfind p [s] + 1) := by
  obtain ⟨pre, hp, hpre, _⟩ := final_component_spec seps p
  rw [hf] at hp
  refine ⟨pre, ?_, ?_⟩
  · rw [hp] at h ⊢
    exact rfind_single_found '.' pre t ht h
  · rcases hpre with hpre | ⟨s, hs, hl⟩
    · exact Or.inl hpre
    · right
      refine ⟨s, hs, ?_⟩
      rcases List.eq_nil_or_concat pre with hn | ⟨pre1, z, hz⟩
      · rw [hn] at hl; simp at hl
      · rw [List.concat_eq_append] at hz
        rw [hz] at hl
        have hzs : z = s := by simpa using hl
        have e : p = pre1 ++ s :: ('.' :: t) := by
          rw [hp, hz, hzs]
          simp
        have hb2 : ((pre1 ++ s :: ('.' :: t)).length : Int) ≤ MAX_32BIT_INT := by
          rw [← e]; exact h
        have := rfind_single_ge s pre1 ('.' :: t) hb2
        rw [← e] at this
        rw [hz]
        simp only [List.length_append, List.length_singleton]
        push_cast
        omega

/-- C19: leading-dot exception: for every string `p` (of a size that fits `int`) whose final
component begins with `'.'` and contains no other `'.'`, `splitext_posix(p)` and
`splitext_nt(p)` return `root = p` and `ext = ""`; the final component is taken after the
last `'/'` for Posix and after the last `'/'` or backslash for Windows. -/
theorem splitext_leading_dot (p : Str) (h : (p.length : Int) ≤ MAX_32BIT_INT) :
    (∀ t, final_component ['/'] p = '.' :: t → '.' ∉ t → splitext_posix p = (p, [])) ∧
    (∀ t, final_component ['\\', '/'] p = '.' :: t → '.' ∉ t → splitext_nt p = (p, [])) := by
  constructor
  · intro t hf ht
    obtain ⟨pre, hd, hs⟩ := rfind_dot_of_final_component ['/'] p t h hf ht
    unfold splitext_posix forward_slash empty_string dot
    apply splitext_generic_of_le
    have hc : ¬ ((!([] : Str).isEmpty) = true) := by simp
    rw [if_neg hc, hd]
    rcases hs with hs | ⟨s, hs, hle⟩
    · rw [hs]
      have := rfind_single_ge_neg_one '/' p h
      simp only [List.length_nil, Nat.cast_zero]
      omega
    · have : s = '/' := by simpa using hs
      subst this
      exact hle
  · intro t hf ht
    obtain ⟨pre, hd, hs⟩ := rfind_dot_of_final_component ['\\', '/'] p t h hf ht
    unfold splitext_nt forward_slash double_back_slash dot
    apply splitext_generic_of_le
    have hc : (!(['/'] : Str).isEmpty) = true := by simp
    rw [if_pos hc, hd]
    rcases hs with hs | ⟨s, hs, hle⟩
    · rw [hs]
      have := rfind_single_ge_neg_one '/' p h
      have := le_max_right (rfind p ['\\']) (rfind p ['/'])
      simp only [List.length_nil, Nat.cast_zero]
      omega
    · have hs2 : s = '\\' ∨ s = '/' := by simpa using hs
      have h1 := le_max_left (rfind p ['\\']) (rfind p ['/'])
      have h2 := le_max_right (rfind p ['\\']) (rfind p ['/'])
      rcases hs2 with hs2 | hs2
      · subst hs2; omega
      · subst hs2; omega

/-- The scenario `splitext(".cshrc") = (".cshrc", "")` in both regimes, from
`splitext_leading_dot`. -/
theorem splitext_leading_dot_witness :
    ((".cshrc".toList.length : Int) ≤ MAX_32BIT_INT) ∧
    final_component ['/'] ".cshrc".toList = '.' :: "cshrc".toList ∧
    final_component ['\\', '/'] ".cshrc".toList = '.' :: "cshrc".toList ∧
    '.' ∉ "cshrc".toList ∧
    splitext_posix ".cshrc".toList = (".cshrc".toList, []) ∧
    splitext_nt ".cshrc".toList = (".cshrc".toList, []) :=
  ⟨by decide, by decide, by decide, by decide,
    (splitext_leading_dot ".cshrc".toList (by decide)).1 "cshrc".toList (by decide) (by decide),
    (splitext_leading_dot ".cshrc".toList (by decide)).2 "cshrc".toList (by decide)
      (by decide)⟩

/-- The extension returned by `splitext_generic` is empty or starts at the last dot of the
path, after every separator character that `rfind` places at or below the separator index. -/
theorem splitext_generic_ext (p sep altsep : Str) (h : (p.length : Int) ≤ MAX_32BIT_INT) :
    (splitext_generic p sep altsep ['.']).2 = [] ∨
    ((splitext_generic p sep altsep ['.']).2.head? = some '.' ∧
      (splitext_generic p sep altsep ['.']).2.count '.' = 1 ∧
      ∀ c : Char, c ≠ '.' →
        rfind p [c] ≤ (if (!altsep.isEmpty) = true then max (rfind p sep) (rfind p altsep)
          else rfind p sep) →
        c ∉ (splitext_generic p sep altsep ['.']).2) := by
  rcases splitext_generic_cases p sep altsep ['.'] with hc | ⟨hgt, hc⟩
  · left; rw [hc]
  · right
    rw [hc]
    rcases exists_last_occurrence '.' p with hp | ⟨a, t, e, ht⟩
    · exfalso
      rw [rfind_single_not_found '.' p hp] at hgt
      have h1 : (-1 : Int) ≤ (if (!altsep.isEmpty) = true then
          max (rfind p sep) (rfind p altsep) else rfind p sep) := by
        have hs : (-1 : Int) ≤ rfind p sep := by
          unfold rfind
          dsimp only
          split
          · omega
          · split_ifs <;> omega
        split_ifs
        · exact le_trans hs (le_max_left _ _)
        · exact hs
      omega
    · subst e
      have hd := rfind_single_found '.' a t ht h
      rw [hd] at hgt ⊢
      have e2 : slice (a ++ '.' :: t) (a.length : Int) = '.' :: t := by
        rw [slice_from_nat _ _ h]
        simp
      simp only []
      rw [e2]
      refine ⟨rfl, ?_, ?_⟩
      · rw [List.count_cons_self, List.count_eq_zero_of_not_mem ht]
      · intro c hcd hle hmem
        rcases List.mem_cons.1 hmem with hm | hm
        · exact hcd hm
        · obtain ⟨t1, t2, et⟩ := List.append_of_mem hm
          have e3 : a ++ '.' :: t = (a ++ '.' :: t1) ++ c :: t2 := by
            rw [et]; simp
          have hb2 : (((a ++ '.' :: t1) ++ c :: t2).length : Int) ≤ MAX_32BIT_INT := by
            rw [← e3]; exact h
          have := rfind_single_ge c (a ++ '.' :: t1) t2 hb2
          rw [← e3] at this
          simp only [List.length_append, List.length_cons] at this
          push_cast at this
          omega

/-- C20: for every string `p` (of a size that fits `int`), the `ext` returned by
`splitext_posix(p)` is empty or begins with `'.'`, contains exactly one `'.'` and no `'/'`;
the `ext` returned by `splitext_nt(p)` is empty or begins with `'.'`, contains exactly one
`'.'` and neither `'/'` nor a backslash. -/
theorem splitext_ext_shape (p : Str) (h : (p.length : Int) ≤ MAX_32BIT_INT) :
    ((splitext_posix p).2 = [] ∨
      ((splitext_posix p).2.head? = some '.' ∧ (splitext_posix p).2.count '.' = 1 ∧
        '/' ∉ (splitext_posix p).2)) ∧
    ((splitext_nt p).2 = [] ∨
      ((splitext_nt p).2.head? = some '.' ∧ (splitext_nt p).2.count '.' = 1 ∧
        '/' ∉ (splitext_nt p).2 ∧ '\\' ∉ (splitext_nt p).2)) := by
  constructor
  · unfold splitext_posix forward_slash empty_string dot
    rcases splitext_generic_ext p ['/'] [] h with h1 | ⟨h1, h2, h3⟩
    · exact Or.inl h1
    · refine Or.inr ⟨h1, h2, h3 '/' (by decide) ?_⟩
      have hc : ¬ ((!([] : Str).isEmpty) = true) := by simp
      rw [if_neg hc]
  · unfold splitext_nt forward_slash double_back_slash dot
    rcases splitext_generic_ext p ['\\'] ['/'] h with h1 | ⟨h1, h2, h3⟩
    · exact Or.inl h1
    · have hc : (!(['/'] : Str).isEmpty) = true := by simp
      refine Or.inr ⟨h1, h2, h3 '/' (by decide) ?_, h3 '\\' (by decide) ?_⟩
      · rw [if_pos hc]; exact le_max_right _ _
      · rw [if_pos hc]; exact le_max_left _ _

/-- The statement of `splitext_ext_shape` at `"a.b/c.tar.gz"`. -/
theorem splitext_ext_shape_witness :
    (("a.b/c.tar.gz".toList.length : Int) ≤ MAX_32BIT_INT) ∧
    (((splitext_posix "a.b/c.tar.gz".toList).2 = [] ∨
      ((splitext_posix "a.b/c.tar.gz".toList).2.head? = some '.' ∧
        (splitext_posix "a.b/c.tar.gz".toList).2.count '.' = 1 ∧
        '/' ∉ (splitext_posix "a.b/c.tar.gz".toList).2)) ∧
    ((splitext_nt "a.b/c.tar.gz".toList).2 = [] ∨
      ((splitext_nt "a.b/c.tar.gz".toList).2.head? = some '.' ∧
        (splitext_nt "a.b/c.tar.gz".toList).2.count '.' = 1 ∧
        '/' ∉ (splitext_nt "a.b/c.tar.gz".toList).2 ∧
        '\\' ∉ (splitext_nt "a.b/c.tar.gz".toList).2))) :=
  ⟨by decide, splitext_ext_shape "a.b/c.tar.gz".toList (by decide)⟩

/-- C18, the code at the failing input `".."`: the final component is `".."`, non-empty and
made only of dots, yet `splitext_posix` and `splitext_nt` return `(".", ".")`: the loop over
the leading dots compares `slice(p, filenameIndex)`, the whole rest of the path, with `"."`
instead of the one character at `filenameIndex`. -/
theorem splitext_only_dots_failing_input :
    final_component ['/'] "..".toList = "..".toList ∧
    final_component ['\\', '/'] "..".toList = "..".toList ∧
    (∀ c ∈ "..".toList, c = '.') ∧
    splitext_posix "..".toList = (".".toList, ".".toList) ∧
    splitext_nt "..".toList = (".".toList, ".".toList) ∧
    splitext_posix "/a/...".toList = ("/a/..".toList, ".".toList) := by decide

end path
end os

theorem takeWhile_append_stop (P : Char → Bool) (l1 l2 : Str) (h1 : ∀ c ∈ l1, P c = true)
    (h2 : l2 = [] ∨ ∃ x rest, l2 = x :: rest ∧ P x = false) :
    (l1 ++ l2).takeWhile P = l1 := by
  induction l1 with
  | nil =>
    rcases h2 with h2 | ⟨x, rest, h2, hx⟩
    · rw [h2]; rfl
    · rw [h2]
      simp [List.takeWhile_cons, hx]
  | cons y l ih =>
    have hy : P y = true := h1 y (by simp)
    rw [List.cons_append, List.takeWhile_cons_of_pos hy,
      ih (fun c hc => h1 c (List.mem_cons_of_mem _ hc))]

theorem dropWhile_append_stop (P : Char → Bool) (l1 l2 : Str) (h1 : ∀ c ∈ l1, P c = true)
    (h2 : l2 = [] ∨ ∃ x rest, l2 = x :: rest ∧ P x = false) :
    (l1 ++ l2).dropWhile P = l2 := by
  induction l1 with
  | nil =>
    rcases h2 with h2 | ⟨x, rest, h2, hx⟩
    · rw [h2]; rfl
    · rw [h2]
      simp [List.dropWhile_cons, hx]
  | cons y l ih =>
    have hy : P y = true := h1 y (by simp)
    rw [List.cons_append, List.dropWhile_cons_of_pos hy,
      ih (fun c hc => h1 c (List.mem_cons_of_mem _ hc))]

theorem reverse_stop (P : Char → Bool) (pre : Str)
    (h : pre = [] ∨ ∃ z, pre.getLast? = some z ∧ P z = false) :
    pre.reverse = [] ∨ ∃ x rest, pre.reverse = x :: rest ∧ P x = false := by
  rcases h with h | ⟨z, hz, hP⟩
  · left; rw [h]; rfl
  · right
    rcases List.eq_nil_or_concat pre with hn | ⟨b, y, hb⟩
    · rw [hn] at hz; simp at hz
    · rw [List.concat_eq_append] at hb
      rw [hb] at hz ⊢
      have : y = z := by simpa using hz
      subst this
      exact ⟨y, b.reverse, by simp, hP⟩

/-- The final component of `pre ++ t` is `t` when `t` holds no separator and `pre` is empty
or ends with one. -/
theorem final_component_append (seps : List Char) (pre t : Str)
    (hpre : pre = [] ∨ ∃ z, pre.getLast? = some z ∧ z ∈ seps) (ht : ∀ c ∈ t, c ∉ seps) :
    final_component seps (pre ++ t) = t := by
  unfold final_component
  rw [List.reverse_append, takeWhile_append_stop _ t.reverse pre.reverse
    (by
      intro c hc
      simpa using ht c (List.mem_reverse.1 hc))
    (reverse_stop _ pre (by
      rcases hpre with h | ⟨z, hz, hs⟩
      · exact Or.inl h
      · exact Or.inr ⟨z, hz, by simpa using hs⟩)),
    List.reverse_reverse]

namespace os
namespace path

theorem split_nt_scan_le (p : Str) : ∀ n, split_nt_scan p n ≤ n := by
  intro n
  induction n with
  | zero => simp [split_nt_scan]
  | succ n ih =>
    unfold split_nt_scan
    split_ifs
    · omega
    · omega

/-- The characters that the backward scan of `split_nt` steps over are not separators. -/
theorem split_nt_scan_no_sep (p : Str) :
    ∀ n, n ≤ p.length → ∀ c ∈ (p.take n).drop (split_nt_scan p n), c ≠ '\\' ∧ c ≠ '/' := by
  intro n
  induction n with
  | zero => intro _ c hc; simp at hc
  | succ n ih =>
    intro hn c hc
    have hlt : n < p.length := by omega
    have hx : p[n]? = some p[n] := List.getElem?_eq_getElem hlt
    unfold split_nt_scan at hc
    by_cases h1 : p[n]? ≠ some '\\' ∧ p[n]? ≠ some '/'
    · rw [if_pos h1] at hc
      have hle := split_nt_scan_le p n
      have e : p.take (n + 1) = p.take n ++ [p[n]] := by
        rw [List.take_succ, hx]
        rfl
      rw [e, List.drop_append_of_le_length (by
        rw [List.length_take]
        omega)] at hc
      rcases List.mem_append.1 hc with hc | hc
      · exact ih (by omega) c hc
      · have : c = p[n] := by simpa using hc
        rw [this]
        rw [hx] at h1
        exact ⟨fun e => h1.1 (by rw [e]), fun e => h1.2 (by rw [e])⟩
    · rw [if_neg h1] at hc
      rw [List.drop_of_length_le (by
        rw [List.length_take]
        omega)] at hc
      simp at hc

theorem split_nt_scan_zero_of_no_sep (p : Str) (hp : ∀ c ∈ p, c ≠ '\\' ∧ c ≠ '/') :
    ∀ n, n ≤ p.length → split_nt_scan p n = 0 := by
  intro n
  induction n with
  | zero => intro _; rfl
  | succ n ih =>
    intro hn
    have hlt : n < p.length := by omega
    have hx : p[n]? = some p[n] := List.getElem?_eq_getElem hlt
    have hm := hp p[n] (List.getElem_mem hlt)
    unfold split_nt_scan
    have h1 : p[n]? ≠ some '\\' ∧ p[n]? ≠ some '/' := by
      rw [hx]
      exact ⟨fun e => hm.1 (Option.some.inj e), fun e => hm.2 (Option.some.inj e)⟩
    rw [if_pos h1]
    exact ih (by omega)

theorem splitdrive_nt_snd_length_le (p : Str) (h : (p.length : Int) ≤ MAX_32BIT_INT) :
    (splitdrive_nt p).2.length ≤ p.length := by
  rw [splitdrive_nt_snd p h]
  split_ifs
  · simp
  · exact le_refl _

theorem splitdrive_nt_snd_mem (p : Str) (h : (p.length : Int) ≤ MAX_32BIT_INT) :
    ∀ c ∈ (splitdrive_nt p).2, c ∈ p := by
  rw [splitdrive_nt_snd p h]
  intro c hc
  split_ifs at hc
  · exact List.mem_of_mem_drop hc
  · exact hc

theorem split_nt_snd (path : Str) :
    (split_nt path).2 =
      slice (splitdrive_nt path).2
        (split_nt_scan (splitdrive_nt path).2 (splitdrive_nt path).2.length) := by
  unfold split_nt
  dsimp only

/-- C21: the tail of a split never contains a separator: for every string `p` (of a size
that fits `int`), the tail returned by `split_posix(p)` contains no `'/'`, and the tail
returned by `split_nt(p)` contains neither `'/'` nor a backslash. -/
theorem split_tail_no_separator (p : Str) (h : (p.length : Int) ≤ MAX_32BIT_INT) :
    '/' ∉ (split_posix p).2 ∧ ('/' ∉ (split_nt p).2 ∧ '\\' ∉ (split_nt p).2) := by
  constructor
  · rcases posix_path_shape p with hp | ⟨a, m, t, e, ha, ht⟩
    · rw [split_posix_of_no_sep p h hp]
      exact hp
    · subst e
      rw [split_posix_of_sep a m t h ha ht]
      exact ht
  · have hl := splitdrive_nt_snd_length_le p h
    have hb : ((splitdrive_nt p).2.length : Int) ≤ MAX_32BIT_INT := by omega
    have key := split_nt_scan_no_sep (splitdrive_nt p).2 (splitdrive_nt p).2.length (le_refl _)
    rw [List.take_length] at key
    rw [split_nt_snd, slice_from_nat _ _ hb]
    exact ⟨fun hc => (key '/' hc).2 rfl, fun hc => (key '\\' hc).1 rfl⟩

/-- The statement of `split_tail_no_separator` at `"c:/a\\b/x.y"`. -/
theorem split_tail_no_separator_witness :
    (("c:/a\\b/x.y".toList.length : Int) ≤ MAX_32BIT_INT) ∧
    ('/' ∉ (split_posix "c:/a\\b/x.y".toList).2 ∧
      ('/' ∉ (split_nt "c:/a\\b/x.y".toList).2 ∧ '\\' ∉ (split_nt "c:/a\\b/x.y".toList).2)) :=
  ⟨by decide, split_tail_no_separator "c:/a\\b/x.y".toList (by decide)⟩

theorem mem_of_getLast?_eq_some {l : Str} {z : Char} (h : l.getLast? = some z) : z ∈ l := by
  rcases List.eq_nil_or_concat l with hn | ⟨b, y, hb⟩
  · rw [hn] at h; simp at h
  · rw [List.concat_eq_append] at hb
    rw [hb] at h ⊢
    have : y = z := by simpa using h
    rw [this]
    simp

theorem split_posix_ref_of_no_sep (p : Str) (hp : '/' ∉ p) : split_posix_ref p = ([], p) := by
  have hf : final_component ['/'] p = p := by
    have := final_component_append ['/'] [] p (Or.inl rfl) (by
      intro c hc hs
      have : c = '/' := by simpa using hs
      exact hp (this ▸ hc))
    simpa using this
  unfold split_posix_ref
  dsimp only
  rw [hf]
  simp

theorem split_posix_ref_of_sep (a : Str) (m : Nat) (t : Str)
    (ha : a.getLast? ≠ some '/') (ht : '/' ∉ t) :
    split_posix_ref (a ++ List.replicate (m + 1) '/' ++ t) =
      (if a = [] then List.replicate (m + 1) '/' else a, t) := by
  have hf : final_component ['/'] (a ++ List.replicate (m + 1) '/' ++ t) = t := by
    apply final_component_append
    · right
      refine ⟨'/', ?_, by simp⟩
      rw [List.replicate_succ', ← List.append_assoc]
      simp
    · intro c hc hs
      have : c = '/' := by simpa using hs
      exact ht (this ▸ hc)
  have hi : (a ++ List.replicate (m + 1) '/' ++ t).length - t.length =
      (a ++ List.replicate (m + 1) '/').length := by
    simp only [List.length_append, List.length_replicate]
    omega
  unfold split_posix_ref
  dsimp only
  rw [hf, hi, List.take_left, List.drop_left]
  by_cases hnil : a = []
  · subst hnil
    have c1 : ([] ++ List.replicate (m + 1) '/' = ([] : Str)) ∨
        ∀ c ∈ ([] : Str) ++ List.replicate (m + 1) '/', c = '/' := by
      right
      intro c hc
      simp only [List.nil_append] at hc
      exact List.eq_of_mem_replicate hc
    rw [if_pos c1]
    simp
  · have c1 : ¬ ((a ++ List.replicate (m + 1) '/' = ([] : Str)) ∨
        ∀ c ∈ a ++ List.replicate (m + 1) '/', c = '/') := by
      intro hc
      rcases hc with hc | hc
      · exact hnil (List.append_eq_nil.1 hc).1
      · rcases List.eq_nil_or_concat a with hn | ⟨b, z, hb⟩
        · exact hnil hn
        · rw [List.concat_eq_append] at hb
          rw [hb] at ha
          have hz : z ≠ '/' := by simpa using ha
          apply hz
          apply hc
          rw [hb]
          simp
    rw [if_neg c1, if_neg hnil]
    have e : (a ++ List.replicate (m + 1) '/').reverse =
        List.replicate (m + 1) '/' ++ a.reverse := by
      simp
    rw [e, dropWhile_append_stop _ _ _ (by
        intro c hc
        have := List.eq_of_mem_replicate hc
        simp [this])
      (reverse_stop _ a (by
        rcases List.eq_nil_or_concat a with hn | ⟨b, z, hb⟩
        · exact Or.inl hn
        · right
          rw [List.concat_eq_append] at hb
          rw [hb] at ha ⊢
          have hz : z ≠ '/' := by simpa using ha
          exact ⟨z, by simp, by simpa using hz⟩)),
      List.reverse_reverse]

/-- C22: reference definition of `split_posix`: for every string `p` (of a size that fits
`int`), `split_posix(p)` is the pair of the reference definition `split_posix_ref`: with `i`
the index just past the last `'/'` (0 if none), `tail = p[i:]` and `head = p[:i]` with its
trailing `'/'` removed unless `p[:i]` is empty or made only of `'/'`. Hence the tail is empty
when `p` ends with `'/'`, and the head is empty and the tail is `p` when `p` has no `'/'`. -/
theorem split_posix_eq_ref (p : Str) (h : (p.length : Int) ≤ MAX_32BIT_INT) :
    split_posix p = split_posix_ref p ∧
    (p.getLast? = some '/' → (split_posix p).2 = []) ∧
    ('/' ∉ p → split_posix p = ([], p)) := by
  rcases posix_path_shape p with hp | ⟨a, m, t, e, ha, ht⟩
  · refine ⟨?_, ?_, fun _ => split_posix_of_no_sep p h hp⟩
    · rw [split_posix_of_no_sep p h hp, split_posix_ref_of_no_sep p hp]
    · intro hl
      exact absurd (mem_of_getLast?_eq_some hl) hp
  · subst e
    refine ⟨?_, ?_, ?_⟩
    · rw [split_posix_of_sep a m t h ha ht, split_posix_ref_of_sep a m t ha ht]
    · intro hl
      rw [split_posix_of_sep a m t h ha ht]
      rcases List.eq_nil_or_concat t with hn | ⟨b, z, hb⟩
      · exact hn
      · exfalso
        rw [List.concat_eq_append] at hb
        rw [hb, ← List.append_assoc, List.getLast?_append] at hl
        have hz : z = '/' := by simpa using hl
        apply ht
        rw [hb, hz]
        simp
    · intro hn
      exfalso
      apply hn
      rw [List.replicate_succ]
      simp

/-- The scenarios `split_posix("/a/b/") = ("/a/b", "")` and `split_posix("a/b") = ("a", "b")`,
from `split_posix_eq_ref`. -/
theorem split_posix_eq_ref_witness :
    (("/a/b/".toList.length : Int) ≤ MAX_32BIT_INT) ∧
    (("a/b".toList.length : Int) ≤ MAX_32BIT_INT) ∧
    split_posix "/a/b/".toList = ("/a/b".toList, []) ∧
    split_posix "a/b".toList = ("a".toList, "b".toList) :=
  ⟨by decide, by decide,
    (split_posix_eq_ref "/a/b/".toList (by decide)).1.trans (by decide),
    (split_posix_eq_ref "a/b".toList (by decide)).1.trans (by decide)⟩

/-- C23, the claim as stated fails: `"c:foo"` contains neither `'/'` nor a backslash, and
`split_nt` returns the head `"c:"`: the drive is put back in front of the (empty) head. -/
theorem split_nt_no_separator_counterexample :
    '/' ∉ "c:foo".toList ∧ '\\' ∉ "c:foo".toList ∧
    split_nt "c:foo".toList = ("c:".toList, "foo".toList) ∧
    (split_nt "c:foo".toList).1 ≠ [] := by decide

/-- C23 as amended: for every string `p` (of a size that fits `int`) that contains neither
`'/'` nor a backslash, `split_nt(p)` returns the drive part of `p` as head and the rest as
tail, as `splitdrive_nt(p)` does; so the head is empty when `p` has no drive letter. -/
theorem split_nt_no_separator (p : Str) (h : (p.length : Int) ≤ MAX_32BIT_INT)
    (h1 : '/' ∉ p) (h2 : '\\' ∉ p) :
    split_nt p = splitdrive_nt p ∧ (p[1]? ≠ some ':' → (split_nt p).1 = []) := by
  have hl := splitdrive_nt_snd_length_le p h
  have hb : ((splitdrive_nt p).2.length : Int) ≤ MAX_32BIT_INT := by omega
  have hm := splitdrive_nt_snd_mem p h
  have hs := split_nt_scan_zero_of_no_sep (splitdrive_nt p).2 (by
    intro c hc
    have := hm c hc
    exact ⟨fun e => h2 (e ▸ this), fun e => h1 (e ▸ this)⟩) (splitdrive_nt p).2.length
    (le_refl _)
  have e : split_nt p = splitdrive_nt p := by
    unfold split_nt
    dsimp only
    rw [hs]
    rw [slice_to_nat, slice_from_nat _ _ hb]
    simp [split_nt_strip]
  refine ⟨e, ?_⟩
  intro hd
  rw [e, splitdrive_nt_of_not_drive hd]

/-- The statement of `split_nt_no_separator` at `"foo.txt"`. -/
theorem split_nt_no_separator_witness :
    (("foo.txt".toList.length : Int) ≤ MAX_32BIT_INT) ∧ '/' ∉ "foo.txt".toList ∧
    '\\' ∉ "foo.txt".toList ∧
    (split_nt "foo.txt".toList = splitdrive_nt "foo.txt".toList ∧
      ("foo.txt".toList[1]? ≠ some ':' → (split_nt "foo.txt".toList).1 = [])) :=
  ⟨by decide, by decide, by decide,
    split_nt_no_separator "foo.txt".toList (by decide) (by decide) (by decide)⟩

end path
end os

theorem joinC_ne_nil (sep : Str) (l : List Str) (hl : l ≠ []) (h : ∀ x ∈ l, x ≠ []) :
    joinC sep l ≠ [] := by
  cases l with
  | nil => exact absurd rfl hl
  | cons x l =>
    have hx : x ≠ [] := h x (by simp)
    cases l with
    | nil => simpa [joinC] using hx
    | cons y l =>
      simp only [joinC]
      intro hc
      exact hx (List.append_eq_nil.1 hc).1

namespace os
namespace path

theorem ite_isEmpty_dot_ne_nil (X : Str) : (if X.isEmpty = true then dot else X) ≠ [] := by
  cases X with
  | nil => decide
  | cons x l => simp

theorem normpath_posix_ne_nil (p : Str) : normpath_posix p ≠ [] := by
  unfold normpath_posix
  dsimp only
  by_cases h1 : p.isEmpty = true
  · rw [if_pos h1]
    decide
  · rw [if_neg h1]
    exact ite_isEmpty_dot_ne_nil _

theorem normpath_nt_ne_nil (p : Str) : normpath_nt p ≠ [] := by
  rcases hX : (if (splitdrive_nt (replace p forward_slash double_back_slash)).1.isEmpty then
        (normpath_nt_initial
          ((splitdrive_nt (replace p forward_slash double_back_slash)).2.length + 1)
          (splitdrive_nt (replace p forward_slash double_back_slash)).1
          (splitdrive_nt (replace p forward_slash double_back_slash)).2).getD ([], [])
      else if startswith (splitdrive_nt (replace p forward_slash double_back_slash)).2
          double_back_slash then
        ((splitdrive_nt (replace p forward_slash double_back_slash)).1 ++ double_back_slash,
          lstrip (splitdrive_nt (replace p forward_slash double_back_slash)).2
            double_back_slash)
      else ((splitdrive_nt (replace p forward_slash double_back_slash)).1,
        (splitdrive_nt (replace p forward_slash double_back_slash)).2)) with ⟨pre, path⟩
  rw [normpath_nt_unfold p _ pre path _ rfl hX rfl]
  have hc := normpath_nt_comps_eq pre (if endswith pre double_back_slash = true then 1 else 0)
    (by intro he; rw [if_pos he]; decide)
    (by intro he; rw [if_neg he])
    (2 * (split path double_back_slash).length + 1) [] (split path double_back_slash)
    (by omega)
  simp only [List.nil_append, List.length_nil] at hc
  rw [hc]
  simp only [Option.getD_some]
  have hmem := normpath_posix_fold_mem (if endswith pre double_back_slash = true then 1 else 0)
    (split path double_back_slash) []
  generalize (split path double_back_slash).foldl
    (normpath_posix_step (if endswith pre double_back_slash = true then 1 else 0)) [] = new
    at hmem
  cases pre with
  | cons x l => simp
  | nil =>
    rw [List.nil_append, join_eq_joinC]
    by_cases hn : new = []
    · subst hn
      decide
    · have c1 : ¬ (([] : Str).isEmpty = true ∧ new.isEmpty = true) := by
        intro hc2
        exact hn (List.isEmpty_iff.1 hc2.2)
      rw [if_neg c1]
      apply joinC_ne_nil _ _ hn
      intro y hy
      rcases hmem y hy with h1 | h1
      · simp at h1
      · exact h1.2

/-- C24: the empty path normalizes to a single dot under both regimes,
`normpath_posix("") = "."` and `normpath_nt("") = "."`, and for every `p` neither
`normpath_posix(p)` nor `normpath_nt(p)` is the empty string. -/
theorem normpath_never_empty :
    normpath_posix [] = ['.'] ∧ normpath_nt [] = ['.'] ∧
    ∀ p : Str, normpath_posix p ≠ [] ∧ normpath_nt p ≠ [] :=
  ⟨by decide, by decide, fun p => ⟨normpath_posix_ne_nil p, normpath_nt_ne_nil p⟩⟩

end path
end os

theorem joinC_getLast_ne (c : Char) (l : List Str) (h : ∀ x ∈ l, x ≠ [] ∧ c ∉ x) :
    (joinC [c] l).getLast? ≠ some c := by
  induction l with
  | nil => simp [joinC]
  | cons x l ih =>
    cases l with
    | nil =>
      simp only [joinC]
      intro hc
      exact (h x (by simp)).2 (os.path.mem_of_getLast?_eq_some hc)
    | cons y l =>
      simp only [joinC]
      have hne : joinC [c] (y :: l) ≠ [] :=
        joinC_ne_nil _ _ (by simp) (fun z hz => (h z (List.mem_cons_of_mem _ hz)).1)
      have e : x ++ ([c] ++ joinC [c] (y :: l)) = (x ++ [c]) ++ joinC [c] (y :: l) := by simp
      rw [e, List.getLast?_append_of_ne_nil _ hne]
      exact ih (fun z hz => h z (List.mem_cons_of_mem _ hz))

theorem chain_of_not_mem (c : Char) (x : Str) (h : c ∉ x) :
    List.Chain' (fun a b => ¬ (a = c ∧ b = c)) x := by
  induction x with
  | nil => exact List.chain'_nil
  | cons a x ih =>
    rw [List.chain'_cons']
    refine ⟨?_, ih (fun hc => h (List.mem_cons_of_mem _ hc))⟩
    intro y _ hc
    exact h (by rw [← hc.1]; simp)

/-- In a join of non-empty segments that do not hold the separator, no two adjacent
characters are both the separator. -/
theorem joinC_chain (c : Char) (l : List Str) (h : ∀ x ∈ l, x ≠ [] ∧ c ∉ x) :
    List.Chain' (fun a b => ¬ (a = c ∧ b = c)) (joinC [c] l) := by
  induction l with
  | nil => exact List.chain'_nil
  | cons x l ih =>
    cases l with
    | nil => exact chain_of_not_mem c x (h x (by simp)).2
    | cons y l =>
      simp only [joinC]
      have hrest : ∀ z ∈ y :: l, z ≠ [] ∧ c ∉ z := fun z hz => h z (List.mem_cons_of_mem _ hz)
      apply List.Chain'.append (chain_of_not_mem c x (h x (by simp)).2)
      · rw [List.singleton_append, List.chain'_cons']
        refine ⟨?_, ih hrest⟩
        intro z hz hc
        have hz2 : (joinC [c] (y :: l)).head? = some z := Option.mem_def.1 hz
        rw [hc.2] at hz2
        exact joinC_head_ne c (y :: l) hrest hz2
      · intro a ha b _ hc
        have ha2 : x.getLast? = some a := Option.mem_def.1 ha
        rw [hc.1] at ha2
        exact (h x (by simp)).2 (os.path.mem_of_getLast?_eq_some ha2)

namespace os
namespace path

theorem normpath_posix_fold_mem_ne (k : Int) (comps acc : List Str) :
    ∀ y ∈ comps.foldl (normpath_posix_step k) acc,
      y ∈ acc ∨ (y ∈ comps ∧ y ≠ [] ∧ y ≠ dot) := by
  induction comps generalizing acc with
  | nil => intro y hy; exact Or.inl (by simpa using hy)
  | cons x comps ih =>
    intro y hy
    simp only [List.foldl_cons] at hy
    rcases ih _ y hy with h1 | h1
    · rcases normpath_posix_step_cases k acc x with h2 | ⟨h2, hx, hx2⟩ | h2
      · rw [h2] at h1; exact Or.inl h1
      · rw [h2] at h1
        rcases List.mem_append.1 h1 with h3 | h3
        · exact Or.inl h3
        · have : y = x := by simpa using h3
          subst this
          exact Or.inr ⟨by simp, hx, hx2⟩
      · rw [h2] at h1
        exact Or.inl (List.mem_of_mem_dropLast h1)
    · exact Or.inr ⟨by simp [h1.1], h1.2⟩

/-- When `..` is pushed, the stack is empty in a relative path or ends with `..`. -/
theorem normpath_posix_step_push_dd (k : Int) (acc : List Str)
    (h : normpath_posix_step k acc double_dot = acc ++ [double_dot]) :
    (k = 0 ∧ acc = []) ∨ acc.getLast? = some double_dot := by
  by_contra hc
  have c1 : ¬ (k = 0 ∧ acc = []) := fun h1 => hc (Or.inl h1)
  have c2 : ¬ acc.getLast? = some double_dot := fun h1 => hc (Or.inr h1)
  rcases List.eq_nil_or_concat acc with hn | ⟨b, z, hb⟩
  · subst hn
    have hk : k ≠ 0 := fun e => c1 ⟨e, rfl⟩
    rw [normpath_posix_step_root k hk] at h
    simp at h
  · rw [List.concat_eq_append] at hb
    subst hb
    have hz : z ≠ double_dot := by
      intro e
      apply c2
      rw [e]
      simp
    rw [normpath_posix_step_pop k b z hz] at h
    have := congrArg List.length h
    simp at this

/-- In a stack built by the loop, everything before a `..` is `..`. -/
theorem normpath_good_dd_prefix (k : Int) (l : List Str)
    (hg : ∀ a y b, l = a ++ y :: b → normpath_posix_step k a y = a ++ [y]) :
    ∀ l1 l2, l = l1 ++ double_dot :: l2 → ∀ y ∈ l1, y = double_dot := by
  intro l1
  induction l1 using List.reverseRecOn with
  | nil => intro l2 _ y hy; simp at hy
  | append_singleton l1 z ih =>
    intro l2 e y hy
    have h1 := normpath_posix_step_push_dd k (l1 ++ [z]) (hg _ _ _ e)
    have hz : z = double_dot := by
      rcases h1 with ⟨_, h1⟩ | h1
      · simp at h1
      · simpa using h1
    rcases List.mem_append.1 hy with hy | hy
    · exact ih (double_dot :: l2) (by rw [e, hz]; simp) y hy
    · have : y = z := by simpa using hy
      rw [this, hz]

/-- In a rooted path no `..` stays on the stack. -/
theorem normpath_good_no_dd (k : Int) (hk : k ≠ 0) (l : List Str)
    (hg : ∀ a y b, l = a ++ y :: b → normpath_posix_step k a y = a ++ [y]) :
    double_dot ∉ l := by
  intro hm
  obtain ⟨l1, l2, e⟩ := List.append_of_mem hm
  have hp := normpath_good_dd_prefix k l hg l1 l2 e
  cases l1 with
  | nil =>
    have := normpath_posix_step_push_dd k [] (hg [] double_dot l2 e)
    rcases this with ⟨h1, _⟩ | h1
    · exact hk h1
    · simp at h1
  | cons y l1 =>
    have hy : y = double_dot := hp y (by simp)
    have := normpath_posix_step_push_dd k [] (hg [] y (l1 ++ double_dot :: l2) (by rw [e]; rfl)
      |> fun h => by rw [hy] at h; exact h)
    rcases this with ⟨h1, _⟩ | h1
    · exact hk h1
    · simp at h1

theorem normpath_fold_good (k : Int) (comps : List Str) :
    ∀ a y b, comps.foldl (normpath_posix_step k) [] = a ++ y :: b →
      normpath_posix_step k a y = a ++ [y] :=
  normpath_posix_fold_good k comps [] (by
    intro l1 y l2 e
    simp at e)

end path
end os

/-- A string made of at most two separator characters followed by a join of non-empty,
separator-free segments has no two adjacent separators after its first character, and ends
with the separator only when it is one or two separators and nothing else. -/
theorem normal_form_facts (c : Char) (k : Nat) (hk : k ≤ 2) (segs : List Str)
    (hs : ∀ x ∈ segs, x ≠ [] ∧ c ∉ x) :
    List.Chain' (fun a b => ¬ (a = c ∧ b = c))
      ((List.replicate k c ++ joinC [c] segs).drop 1) ∧
    ((List.replicate k c ++ joinC [c] segs).getLast? = some c →
      List.replicate k c ++ joinC [c] segs = [c] ∨
      List.replicate k c ++ joinC [c] segs = [c, c]) := by
  have hch := joinC_chain c segs hs
  have hhd := joinC_head_ne c segs hs
  have hlast := joinC_getLast_ne c segs hs
  constructor
  · have : k = 0 ∨ k = 1 ∨ k = 2 := by omega
    rcases this with rfl | rfl | rfl
    · simpa using hch.drop 1
    · simpa using hch
    · have e : (List.replicate 2 c ++ joinC [c] segs).drop 1 = c :: joinC [c] segs := rfl
      rw [e, List.chain'_cons']
      refine ⟨?_, hch⟩
      intro y hy hc
      have hy2 : (joinC [c] segs).head? = some y := Option.mem_def.1 hy
      rw [hc.2] at hy2
      exact hhd hy2
  · intro hl
    by_cases hj : joinC [c] segs = []
    · rw [hj, List.append_nil] at hl ⊢
      have : k = 0 ∨ k = 1 ∨ k = 2 := by omega
      rcases this with rfl | rfl | rfl
      · simp at hl
      · left; rfl
      · right; rfl
    · rw [List.getLast?_append_of_ne_nil _ hj] at hl
      exact absurd hl hlast

theorem leading_count_replicate_append (c : Char) (n : Nat) (rest : Str)
    (hr : rest.head? ≠ some c) :
    leading_count (fun x => decide (x = c)) (List.replicate n c ++ rest) = n := by
  unfold leading_count
  rw [takeWhile_append_stop _ _ _ (by
      intro x hx
      simp [List.eq_of_mem_replicate hx])
    (by
      cases rest with
      | nil => left; rfl
      | cons y l =>
        right
        have : y ≠ c := by simpa using hr
        exact ⟨y, l, rfl, by simpa using this⟩)]
  simp

namespace os
namespace path

/-- The value of `initial_slashes` as a function of the number of leading slashes. -/
theorem normpath_posix_initial_slashes_of_leading (p : Str) :
    normpath_posix_initial_slashes p =
      if leading_count (fun x => decide (x = '/')) p = 0 then 0
      else if leading_count (fun x => decide (x = '/')) p = 2 then 2 else 1 := by
  obtain ⟨n, r, e, hr⟩ := exists_strip_leading '/' p
  subst e
  rw [leading_count_replicate_append '/' n r hr]
  match n with
  | 0 =>
    cases r with
    | nil => exact normpath_posix_initial_slashes_nil
    | cons y l =>
      exact normpath_posix_initial_slashes_cons_ne y l (by simpa using hr)
  | 1 => exact normpath_posix_initial_slashes_one r hr
  | 2 => exact normpath_posix_initial_slashes_two r hr
  | m + 3 =>
    have e : List.replicate (m + 3) '/' ++ r = '/' :: '/' :: '/' :: (List.replicate m '/' ++ r) :=
      rfl
    rw [e, normpath_posix_initial_slashes_three]
    simp

/-- The shape of `normpath_posix(p)` for any `p` of a size that fits `int`: `"."`, or `k`
slashes (`k` the value of `initial_slashes`) followed by the joined stack of segments. -/
theorem normpath_posix_shape (p : Str) (h : (p.length : Int) ≤ MAX_32BIT_INT) :
    ∃ (k : Nat) (pk : Str), normpath_posix_initial_slashes p = (k : Int) ∧ k ≤ 2 ∧
      p = List.replicate k '/' ++ pk ∧
      ((k = 0 ∧ normpath_posix p = ['.']) ∨
        (normpath_posix p = List.replicate k '/' ++
            joinC ['/'] ((splitC '/' pk).foldl (normpath_posix_step k) []) ∧
          List.replicate k '/' ++
            joinC ['/'] ((splitC '/' pk).foldl (normpath_posix_step k) []) ≠ [])) := by
  obtain ⟨k, pk, hk, hk2, hpk, _⟩ := normpath_posix_initial_slashes_spec p
  refine ⟨k, pk, hk, hk2, hpk, ?_⟩
  by_cases hp : p = []
  · left
    subst hp
    rw [normpath_posix_initial_slashes_nil] at hk
    exact ⟨by omega, by decide⟩
  · rw [normpath_posix_eq p h hp k pk hk hk2 hpk]
    by_cases hr : List.replicate k '/' ++
        joinC ['/'] ((splitC '/' pk).foldl (normpath_posix_step k) []) = []
    · left
      rw [if_pos hr]
      refine ⟨?_, rfl⟩
      have := (List.append_eq_nil.1 hr).1
      cases k with
      | zero => rfl
      | succ m => simp [List.replicate_succ] at this
    · right
      rw [if_neg hr]
      exact ⟨rfl, hr⟩

theorem normpath_posix_segments (k : Int) (pk : Str) :
    ∀ s ∈ (splitC '/' pk).foldl (normpath_posix_step k) [],
      s ≠ [] ∧ s ≠ ['.'] ∧ '/' ∉ s := by
  intro s hs
  rcases normpath_posix_fold_mem_ne k (splitC '/' pk) [] s hs with h1 | ⟨h1, h2, h3⟩
  · simp at h1
  · exact ⟨h2, h3, not_mem_of_mem_splitC '/' pk s h1⟩

/-- C25: normal form of `normpath_posix`: for every string `p` (of a size that fits `int`),
`r = normpath_posix(p)` is `"."` or consists of zero, one or two leading `'/'` followed by
segments joined by single `'/'`, where no segment is empty, `"."`, or holds a `'/'`; no two
adjacent characters of `r` after its first character are both `'/'`, and `r` ends with `'/'`
only if it is `"/"` or `"//"`. -/
theorem normpath_posix_normal_form (p : Str) (h : (p.length : Int) ≤ MAX_32BIT_INT) :
    (normpath_posix p = ['.'] ∨
      ∃ (k : Nat) (segs : List Str), k ≤ 2 ∧
        normpath_posix p = List.replicate k '/' ++ joinC ['/'] segs ∧
        ∀ s ∈ segs, s ≠ [] ∧ s ≠ ['.'] ∧ '/' ∉ s) ∧
    List.Chain' (fun a b => ¬ (a = '/' ∧ b = '/')) ((normpath_posix p).drop 1) ∧
    ((normpath_posix p).getLast? = some '/' →
      normpath_posix p = ['/'] ∨ normpath_posix p = ['/', '/']) := by
  obtain ⟨k, pk, _, hk2, _, hc⟩ := normpath_posix_shape p h
  rcases hc with ⟨_, hr⟩ | ⟨hr, _⟩
  · rw [hr]
    refine ⟨Or.inl rfl, by simp, ?_⟩
    intro hl
    simp at hl
  · have hs := normpath_posix_segments k pk
    have hf := normal_form_facts '/' k hk2 _ (fun x hx => ⟨(hs x hx).1, (hs x hx).2.2⟩)
    rw [hr]
    exact ⟨Or.inr ⟨k, _, hk2, rfl, hs⟩, hf.1, hf.2⟩

/-- The scenario `normpath_posix("a//b/./c/../d") = "a/b/d"` and the statement of
`normpath_posix_normal_form` at that path. -/
theorem normpath_posix_normal_form_witness :
    (("a//b/./c/../d".toList.length : Int) ≤ MAX_32BIT_INT) ∧
    normpath_posix "a//b/./c/../d".toList = "a/b/d".toList ∧
    List.Chain' (fun a b => ¬ (a = '/' ∧ b = '/'))
      ((normpath_posix "a//b/./c/../d".toList).drop 1) :=
  ⟨by decide, by decide, (normpath_posix_normal_form "a//b/./c/../d".toList (by decide)).2.1⟩

/-- The result of `normpath_posix` starts with exactly `initial_slashes` slashes. -/
theorem normpath_posix_leading (p : Str) (h : (p.length : Int) ≤ MAX_32BIT_INT) :
    ((leading_count (fun x => decide (x = '/')) (normpath_posix p) : Nat) : Int) =
      normpath_posix_initial_slashes p := by
  obtain ⟨k, pk, hk, _, _, hc⟩ := normpath_posix_shape p h
  rw [hk]
  rcases hc with ⟨hk0, hr⟩ | ⟨hr, _⟩
  · rw [hr, hk0]
    decide
  · rw [hr, leading_count_replicate_append '/' k _
      (joinC_head_ne '/' _ (fun x hx =>
        ⟨(normpath_posix_segments k pk x hx).1, (normpath_posix_segments k pk x hx).2.2⟩))]

/-- C26: leading-separator rule of `normpath_posix`: for every string `p` (of a size that
fits `int`), `normpath_posix(p)` begins with exactly two `'/'` iff `p` does; with exactly one
`'/'` iff `p` begins with exactly one or with three or more; and with none iff `p` does. -/
theorem normpath_posix_leading_rule (p : Str) (h : (p.length : Int) ≤ MAX_32BIT_INT) :
    (leading_count (fun x => decide (x = '/')) (normpath_posix p) = 2 ↔
      leading_count (fun x => decide (x = '/')) p = 2) ∧
    (leading_count (fun x => decide (x = '/')) (normpath_posix p) = 1 ↔
      (leading_count (fun x => decide (x = '/')) p = 1 ∨
        3 ≤ leading_count (fun x => decide (x = '/')) p)) ∧
    (leading_count (fun x => decide (x = '/')) (normpath_posix p) = 0 ↔
      leading_count (fun x => decide (x = '/')) p = 0) := by
  have h1 := normpath_posix_leading p h
  rw [normpath_posix_initial_slashes_of_leading] at h1
  generalize leading_count (fun x => decide (x = '/')) (normpath_posix p) = a at h1
  generalize leading_count (fun x => decide (x = '/')) p = b at h1
  split_ifs at h1 with c1 c2
  · refine ⟨?_, ?_, ?_⟩ <;> constructor <;> intro hx <;> omega
  · refine ⟨?_, ?_, ?_⟩ <;> constructor <;> intro hx <;> omega
  · refine ⟨?_, ?_, ?_⟩ <;> constructor <;> intro hx <;> omega

/-- The statement of `normpath_posix_leading_rule` at `"///a//b"`, which begins with three
slashes and normalizes to a path with one. -/
theorem normpath_posix_leading_rule_witness :
    (("///a//b".toList.length : Int) ≤ MAX_32BIT_INT) ∧
    leading_count (fun x => decide (x = '/')) "///a//b".toList = 3 ∧
    (leading_count (fun x => decide (x = '/')) (normpath_posix "///a//b".toList) = 1 ↔
      (leading_count (fun x => decide (x = '/')) "///a//b".toList = 1 ∨
        3 ≤ leading_count (fun x => decide (x = '/')) "///a//b".toList)) :=
  ⟨by decide, by decide, (normpath_posix_leading_rule "///a//b".toList (by decide)).2.1⟩

/-- The segments of the result of `normpath_posix`, for a result other than `"."`. -/
theorem splitC_normpath_posix_output (k : Nat) (new : List Str)
    (hs : ∀ x ∈ new, x ≠ [] ∧ '/' ∉ x) :
    splitC '/' (List.replicate k '/' ++ joinC ['/'] new) =
      List.replicate k [] ++ (if new = [] then [[]] else new) := by
  rw [splitC_replicate_sep]
  by_cases hn : new = []
  · subst hn
    rfl
  · rw [if_neg hn, splitC_joinC '/' new hn (fun x hx => (hs x hx).2)]

/-- C27: `..` handling of `normpath_posix`: for every string `p` (of a size that fits
`int`), if `p` begins with `'/'`, no segment of `normpath_posix(p)` equals `".."`; if `p` does
not begin with `'/'`, no `".."` segment of `normpath_posix(p)` comes after a segment that is
not `".."`. Segments are the parts of the result between slashes. -/
theorem normpath_posix_dotdot (p : Str) (h : (p.length : Int) ≤ MAX_32BIT_INT) :
    (p.head? = some '/' → double_dot ∉ splitC '/' (normpath_posix p)) ∧
    (p.head? ≠ some '/' → ∀ l1 l2, splitC '/' (normpath_posix p) = l1 ++ double_dot :: l2 →
      ∀ y ∈ l1, y = double_dot) := by
  obtain ⟨k, pk, hk, hk2, hpk, hk0, hc⟩ :
      ∃ (k : Nat) (pk : Str), normpath_posix_initial_slashes p = (k : Int) ∧ k ≤ 2 ∧
        p = List.replicate k '/' ++ pk ∧ (k = 0 ↔ p.head? ≠ some '/') ∧
        ((k = 0 ∧ normpath_posix p = ['.']) ∨
          (normpath_posix p = List.replicate k '/' ++
              joinC ['/'] ((splitC '/' pk).foldl (normpath_posix_step k) []) ∧
            List.replicate k '/' ++
              joinC ['/'] ((splitC '/' pk).foldl (normpath_posix_step k) []) ≠ [])) := by
    obtain ⟨k, pk, hk, hk2, hpk, hc⟩ := normpath_posix_shape p h
    refine ⟨k, pk, hk, hk2, hpk, ?_, hc⟩
    have e := normpath_posix_initial_slashes_of_leading p
    rw [hk] at e
    obtain ⟨n, r, e2, hr⟩ := exists_strip_leading '/' p
    rw [e2, leading_count_replicate_append '/' n r hr] at e
    rw [e2]
    cases n with
    | zero =>
      simp only [List.replicate_zero, List.nil_append]
      simp only [if_true] at e
      constructor
      · intro _; exact hr
      · intro _; omega
    | succ m =>
      simp only [List.replicate_succ, List.cons_append, List.head?_cons]
      constructor
      · intro hk0
        exfalso
        rw [hk0] at e
        have hm : ¬ (m + 1 = 0) := by omega
        rw [if_neg hm] at e
        by_cases h2 : m + 1 = 2
        · rw [if_pos h2] at e
          exact absurd e (by decide)
        · rw [if_neg h2] at e
          exact absurd e (by decide)
      · intro hc2
        exact absurd rfl hc2
  have hseg := normpath_posix_segments k pk
  have hgood := normpath_fold_good k (splitC '/' pk)
  constructor
  · intro hp
    have hkne : k ≠ 0 := fun e => (hk0.1 e) hp
    rcases hc with ⟨hz, _⟩ | ⟨hr, _⟩
    · exact absurd hz hkne
    · rw [hr, splitC_normpath_posix_output k _ (fun x hx => ⟨(hseg x hx).1, (hseg x hx).2.2⟩)]
      intro hm
      rcases List.mem_append.1 hm with hm | hm
      · have := List.eq_of_mem_replicate hm
        exact absurd this (by decide)
      · split_ifs at hm with hn
        · simp at hm
          exact absurd hm (by decide)
        · exact normpath_good_no_dd k (by exact_mod_cast hkne) _ hgood hm
  · intro hp l1 l2 e
    have hkz : k = 0 := hk0.2 hp
    subst hkz
    rcases hc with ⟨_, hr⟩ | ⟨hr, hne⟩
    · rw [hr] at e
      exfalso
      have hm : double_dot ∈ splitC '/' ['.'] := by rw [e]; simp
      exact absurd hm (by decide)
    · rw [hr, splitC_normpath_posix_output 0 _
        (fun x hx => ⟨(hseg x hx).1, (hseg x hx).2.2⟩)] at e
      have hn : (splitC '/' pk).foldl (normpath_posix_step ((0 : Nat) : Int)) [] ≠ [] := by
        intro hc2
        apply hne
        rw [hc2]
        rfl
      rw [if_neg hn] at e
      simp only [List.replicate_zero, List.nil_append] at e
      exact normpath_good_dd_prefix _ _ hgood l1 l2 e

/-- The statement of `normpath_posix_dotdot` at `"/../a/../.."`, an absolute path. -/
theorem normpath_posix_dotdot_witness :
    (("/../a/../..".toList.length : Int) ≤ MAX_32BIT_INT) ∧
    "/../a/../..".toList.head? = some '/' ∧
    double_dot ∉ splitC '/' (normpath_posix "/../a/../..".toList) :=
  ⟨by decide, by decide,
    (normpath_posix_dotdot "/../a/../..".toList (by decide)).1 (by decide)⟩

/-- The shape of `normpath_nt(p)` for any `p` of a size that fits `int`, by whether the
path has a drive after slash conversion. -/
theorem normpath_nt_shape (p : Str) (h : (p.length : Int) ≤ MAX_32BIT_INT) :
    (∃ (x : Char) (n : Nat) (r : Str),
        p.map (fun c => if c = '/' then '\\' else c) =
          x :: ':' :: (List.replicate n '\\' ++ r) ∧
        r.head? ≠ some '\\' ∧
        normpath_nt p = [x, ':'] ++ List.replicate (min n 1) '\\' ++ joinC ['\\']
          ((splitC '\\' r).foldl (normpath_posix_step ((min n 1 : Nat) : Int)) [])) ∨
    (∃ (n : Nat) (r : Str),
        p.map (fun c => if c = '/' then '\\' else c) = List.replicate n '\\' ++ r ∧
        r.head? ≠ some '\\' ∧ p[1]? ≠ some ':' ∧
        normpath_nt p =
          if n = 0 ∧
              (splitC '\\' r).foldl (normpath_posix_step ((min n 1 : Nat) : Int)) [] = []
          then ['.']
          else List.replicate n '\\' ++ joinC ['\\']
            ((splitC '\\' r).foldl (normpath_posix_step ((min n 1 : Nat) : Int)) [])) := by
  by_cases hP1 : (p.map (fun c => if c = '/' then '\\' else c))[1]? = some ':'
  · left
    cases hPe : p.map (fun c => if c = '/' then '\\' else c) with
    | nil => rw [hPe] at hP1; simp at hP1
    | cons x l =>
      cases l with
      | nil => rw [hPe] at hP1; simp at hP1
      | cons y rest =>
        rw [hPe] at hP1
        have hy : y = ':' := by simpa using hP1
        subst hy
        obtain ⟨n, r, hrest, hr⟩ := exists_strip_leading '\\' rest
        subst hrest
        exact ⟨x, n, r, rfl, hr, normpath_nt_eq_drive p h x n r hPe hr⟩
  · right
    obtain ⟨n, r, hPe, hr⟩ := exists_strip_leading '\\'
      (p.map (fun c => if c = '/' then '\\' else c))
    have hp1 : p[1]? ≠ some ':' := fun hc => hP1 ((getElem?_one_map_colon p).2 hc)
    rw [hPe] at hP1
    exact ⟨n, r, hPe, hr, hp1, normpath_nt_eq_nodrive p h n r hPe hr hP1⟩

theorem normpath_nt_segments (k : Int) (r : Str) :
    ∀ s ∈ (splitC '\\' r).foldl (normpath_posix_step k) [],
      s ≠ [] ∧ s ≠ dot ∧ '\\' ∉ s ∧ ∀ c ∈ s, c ∈ r := by
  intro s hs
  rcases normpath_posix_fold_mem_ne k (splitC '\\' r) [] s hs with h1 | ⟨h1, h2, h3⟩
  · simp at h1
  · exact ⟨h2, h3, not_mem_of_mem_splitC '\\' r s h1, mem_of_mem_splitC '\\' r s h1⟩

/-- C28: for every string `p` (of a size that fits `int`), `normpath_nt(p)` contains no
`'/'` character. -/
theorem normpath_nt_no_forward_slash (p : Str) (h : (p.length : Int) ≤ MAX_32BIT_INT) :
    '/' ∉ normpath_nt p := by
  have hslash := slash_not_mem_map p
  rcases normpath_nt_shape p h with ⟨x, n, r, hP, _, hq⟩ | ⟨n, r, hP, _, _, hq⟩
  · rw [hP] at hslash
    rw [hq]
    intro hc
    simp only [List.mem_append, List.mem_cons, List.mem_replicate] at hc
    rcases hc with ((hc | hc | hc) | hc) | hc
    · apply hslash; rw [← hc]; simp
    · exact absurd hc (by decide)
    · simp at hc
    · exact absurd hc.2 (by decide)
    · rcases normpath_fold_joinC_mem '\\' _ r '/' hc with h1 | h1
      · exact absurd h1 (by decide)
      · apply hslash; simp [h1]
  · rw [hP] at hslash
    rw [hq]
    split_ifs
    · decide
    · intro hc
      simp only [List.mem_append, List.mem_replicate] at hc
      rcases hc with hc | hc
      · exact absurd hc.2 (by decide)
      · rcases normpath_fold_joinC_mem '\\' _ r '/' hc with h1 | h1
        · exact absurd h1 (by decide)
        · apply hslash; simp [h1]

/-- The statement of `normpath_nt_no_forward_slash` at `"c:/a/./b/../x"`. -/
theorem normpath_nt_no_forward_slash_witness :
    (("c:/a/./b/../x".toList.length : Int) ≤ MAX_32BIT_INT) ∧
    '/' ∉ normpath_nt "c:/a/./b/../x".toList :=
  ⟨by decide, normpath_nt_no_forward_slash "c:/a/./b/../x".toList (by decide)⟩

theorem leading_count_map_slash (p : Str) :
    leading_count (fun x => decide (x = '\\')) (p.map (fun c => if c = '/' then '\\' else c)) =
      leading_count (fun x => decide (x = '/' ∨ x = '\\')) p := by
  unfold leading_count
  induction p with
  | nil => rfl
  | cons y l ih =>
    by_cases h1 : y = '/'
    · subst h1
      simp only [List.map_cons, if_true]
      rw [List.takeWhile_cons_of_pos (by simp), List.takeWhile_cons_of_pos (by simp)]
      simp only [List.length_cons, ih]
    · by_cases h2 : y = '\\'
      · subst h2
        simp only [List.map_cons, if_neg h1]
        rw [List.takeWhile_cons_of_pos (by simp), List.takeWhile_cons_of_pos (by simp)]
        simp only [List.length_cons, ih]
      · simp only [List.map_cons, if_neg h1]
        rw [List.takeWhile_cons_of_neg (by simpa using h2),
          List.takeWhile_cons_of_neg (by simp [h1, h2])]

/-- C29: leading backslashes are preserved when there is no drive: for every string `p` (of
a size that fits `int`) whose second character is not `':'`, the number of leading
backslashes of `normpath_nt(p)` equals the number of leading characters of `p` that are `'/'`
or a backslash. -/
theorem normpath_nt_leading_backslashes (p : Str) (h : (p.length : Int) ≤ MAX_32BIT_INT)
    (hd : p[1]? ≠ some ':') :
    leading_count (fun x => decide (x = '\\')) (normpath_nt p) =
      leading_count (fun x => decide (x = '/' ∨ x = '\\')) p := by
  rw [← leading_count_map_slash]
  rcases normpath_nt_shape p h with ⟨x, n, r, hP, _, _⟩ | ⟨n, r, hP, hr, _, hq⟩
  · exfalso
    apply hd
    rw [← getElem?_one_map_colon, hP]
    simp
  · rw [hP, hq, leading_count_replicate_append '\\' n r hr]
    split_ifs with hc
    · rw [hc.1]
      decide
    · exact leading_count_replicate_append '\\' n _ (normpath_fold_joinC_head '\\' _ r)

/-- The statement of `normpath_nt_leading_backslashes` at `"//server/share/../x"`. -/
theorem normpath_nt_leading_backslashes_witness :
    (("//server/share/../x".toList.length : Int) ≤ MAX_32BIT_INT) ∧
    "//server/share/../x".toList[1]? ≠ some ':' ∧
    leading_count (fun x => decide (x = '\\')) (normpath_nt "//server/share/../x".toList) =
      leading_count (fun x => decide (x = '/' ∨ x = '\\')) "//server/share/../x".toList :=
  ⟨by decide, by decide,
    normpath_nt_leading_backslashes "//server/share/../x".toList (by decide) (by decide)⟩

/-- C30: normal form of a drive-rooted Windows path: for every string `p` (of a size that
fits `int`) whose second character is `':'` and whose third is `'/'` or a backslash,
`normpath_nt(p)` is the two-character drive (the first two characters of `p` after slash
conversion, which are those of `p` unless `p` begins with `'/'`), then exactly one backslash,
then segments joined by single backslashes, where no segment is empty, `"."` or `".."` or
holds a backslash. -/
theorem normpath_nt_drive_rooted (p : Str) (h : (p.length : Int) ≤ MAX_32BIT_INT)
    (hd : p[1]? = some ':') (hroot : p[2]? = some '/' ∨ p[2]? = some '\\') :
    (∃ segs : List Str,
      normpath_nt p = (p.take 2).map (fun c => if c = '/' then '\\' else c) ++ ['\\'] ++
        joinC ['\\'] segs ∧
      ∀ s ∈ segs, s ≠ [] ∧ s ≠ dot ∧ s ≠ double_dot ∧ '\\' ∉ s) ∧
    (p.head? ≠ some '/' → (p.take 2).map (fun c => if c = '/' then '\\' else c) = p.take 2) := by
  constructor
  · rcases normpath_nt_shape p h with ⟨x, n, r, hP, hr, hq⟩ | ⟨n, r, _, _, hnd, _⟩
    · have h2 : (p.map (fun c => if c = '/' then '\\' else c))[2]? = some '\\' := by
        rw [List.getElem?_map]
        rcases hroot with h2 | h2
        · rw [h2]; rfl
        · rw [h2]; rfl
      rw [hP] at h2
      have hn : 1 ≤ n := by
        cases n with
        | zero =>
          exfalso
          apply hr
          rw [List.head?_eq_getElem?]
          simpa using h2
        | succ m => omega
      have hmin : min n 1 = 1 := by omega
      rw [hmin] at hq
      have htake : (p.take 2).map (fun c => if c = '/' then '\\' else c) = [x, ':'] := by
        rw [List.map_take, hP]
        rfl
      refine ⟨_, by rw [hq, htake]; rfl, ?_⟩
      intro s hs
      have hseg := normpath_nt_segments ((1 : Nat) : Int) r s hs
      refine ⟨hseg.1, hseg.2.1, ?_, hseg.2.2.1⟩
      intro hdd
      exact normpath_good_no_dd ((1 : Nat) : Int) (by decide) _
        (normpath_fold_good _ (splitC '\\' r)) (hdd ▸ hs)
    · exact absurd hd hnd
  · intro hh
    cases p with
    | nil => rfl
    | cons a l =>
      have ha : a ≠ '/' := by simpa using hh
      cases l with
      | nil => simp [ha]
      | cons b l =>
        have hb : b = ':' := by simpa using hd
        subst hb
        simp [ha]

/-- The statement of `normpath_nt_drive_rooted` at `"c:/../a/./b/../x"`, and its value. -/
theorem normpath_nt_drive_rooted_witness :
    (("c:/../a/./b/../x".toList.length : Int) ≤ MAX_32BIT_INT) ∧
    "c:/../a/./b/../x".toList[1]? = some ':' ∧
    ("c:/../a/./b/../x".toList[2]? = some '/' ∨ "c:/../a/./b/../x".toList[2]? = some '\\') ∧
    normpath_nt "c:/../a/./b/../x".toList = "c:\\a\\x".toList ∧
    (∃ segs : List Str,
      normpath_nt "c:/../a/./b/../x".toList =
        ("c:/../a/./b/../x".toList.take 2).map (fun c => if c = '/' then '\\' else c) ++
          ['\\'] ++ joinC ['\\'] segs ∧
      ∀ s ∈ segs, s ≠ [] ∧ s ≠ dot ∧ s ≠ double_dot ∧ '\\' ∉ s) :=
  ⟨by decide, by decide, by decide, by decide,
    (normpath_nt_drive_rooted "c:/../a/./b/../x".toList (by decide) (by decide)
      (by decide)).1⟩

end path
end os

/-- C36: slicing at any index partitions the string: for every string `s` whose size fits
`int` and every integer `i` (negative, zero, or beyond the length),
`slice(s, 0, i) ++ slice(s, i) = s`. -/
theorem slice_partition (s : Str) (i : Int) (h : (s.length : Int) ≤ MAX_32BIT_INT) :
    slice s 0 i ++ slice s i = s :=
  slice_append_slice s i h

/-- The statement of `slice_partition` at `"abcde"` and `-2`, with the two slices. -/
theorem slice_partition_witness :
    slice "abcde".toList 0 (-2) = "abc".toList ∧ slice "abcde".toList (-2) = "de".toList ∧
    slice "abcde".toList 0 (-2) ++ slice "abcde".toList (-2) = "abcde".toList :=
  ⟨by decide, by decide, slice_partition "abcde".toList (-2) (by decide)⟩

/-- C32, failing input: `rfind("abab", "ab", 0, 3)` returns `-1`, although `"ab"` occurs
in `"abab"` at index 0 and that occurrence lies inside the slice `[0, 3)`: the library search
`str.rfind(sub, end)` finds the occurrence at index 2, which overruns `end`, and the function
gives up instead of looking further down. -/
theorem rfind_failing_input :
    rfind "abab".toList "ab".toList 0 3 = -1 ∧
    ADJUST_INDICES 0 3 ("abab".toList.length : Int) = (0, 3) ∧
    std_rfind "abab".toList "ab".toList 3 = some 2 ∧
    "ab".toList <+: "abab".toList.drop 0 ∧ (0 : Int) + ("ab".toList.length : Int) ≤ 3 := by
  refine ⟨by decide, by decide, by decide, by decide, by decide⟩

/-- C35, failing input: `islower("a1")` is false, although `"a1"` contains a cased character
and every cased character of it is lowercase: the loop rejects the digit. -/
theorem islower_failing_input :
    islower "a1".toList = false ∧
    (∃ c ∈ "a1".toList, cctype.islower c = true ∨ cctype.isupper c = true) ∧
    (∀ c ∈ "a1".toList, cctype.islower c = true ∨ cctype.isupper c = true →
      cctype.islower c = true) := by
  refine ⟨by decide, by decide, by decide⟩

/-- C39, failing input: `rsplit("aaa", "aa", -1)` is `["", "a"]` (the splits are made from
the front, by `split`), while `rsplit("aaa", "aa", 3)` is `["a", ""]` (the splits are made
from the end). -/
theorem rsplit_failing_input :
    rsplit "aaa".toList "aa".toList (-1) = ["".toList, "a".toList] ∧
    rsplit "aaa".toList "aa".toList 3 = ["a".toList, "".toList] ∧
    (3 : Int) ≥ ("aaa".toList.length : Int) := by
  refine ⟨by decide, by decide, by decide⟩

namespace os
namespace path

/-- A string that starts with `'/'` is normalised by `normpath_posix` to a string that
starts with `'/'`. -/
theorem normpath_posix_head_slash (p : Str) (h : (p.length : Int) ≤ MAX_32BIT_INT)
    (hp : p.head? = some '/') : (normpath_posix p).head? = some '/' := by
  obtain ⟨k, pk, hk, _, _, hshape⟩ := normpath_posix_shape p h
  have hl := normpath_posix_initial_slashes_of_leading p
  have hk1 : 1 ≤ k := by
    cases p with
    | nil => simp at hp
    | cons c l =>
      simp only [List.head?_cons, Option.some.injEq] at hp
      subst hp
      have : leading_count (fun x => decide (x = '/')) ('/' :: l) ≠ 0 := by
        simp [leading_count, List.takeWhile]
      rw [if_neg this] at hl
      rw [hk] at hl
      split_ifs at hl <;> omega
  rcases hshape with ⟨h0, _⟩ | ⟨he, _⟩
  · omega
  · rw [he]
    obtain ⟨k1, rfl⟩ : ∃ k1, k = k1 + 1 := ⟨k - 1, by omega⟩
    simp [List.replicate_succ]

/-- C40: for every string `p` and every string `cwd` with `isabs_posix(cwd)`, the sizes of
`p` and of `cwd` joined with a separator fitting `int`, `isabs_posix(abspath_posix(p, cwd))`
is true. -/
theorem isabs_posix_abspath_posix (p cwd : Str) (hcwd : isabs_posix cwd = true)
    (h : (cwd.length : Int) + 1 + (p.length : Int) ≤ MAX_32BIT_INT) :
    isabs_posix (abspath_posix p cwd) = true := by
  unfold isabs_posix forward_slash at *
  rw [startswith_single] at hcwd ⊢
  unfold abspath_posix
  dsimp only
  have hpl : (p.length : Int) ≤ MAX_32BIT_INT := by omega
  have hcl : (cwd.length : Int) ≤ MAX_32BIT_INT := by omega
  by_cases hp : p.head? = some '/'
  · have : isabs_posix p = true := (startswith_single p '/').2 hp
    rw [this]
    simp only [Bool.not_true, Bool.false_eq_true, if_false]
    exact normpath_posix_head_slash p hpl hp
  · have : isabs_posix p = false := by
      rw [← Bool.not_eq_true]
      unfold isabs_posix forward_slash
      rw [startswith_single]
      exact hp
    rw [this]
    simp only [Bool.not_false, if_true]
    rw [join_posix2_eq_step, join_posix_step_eq cwd p hcl, if_neg hp]
    cases cwd with
    | nil => simp at hcwd
    | cons c l =>
      simp only [List.head?_cons, Option.some.injEq] at hcwd
      subst hcwd
      by_cases h1 : ('/' :: l : Str) = [] ∨ ('/' :: l : Str).getLast? = some '/'
      · rw [if_pos h1]
        refine normpath_posix_head_slash _ ?_ (by simp)
        simp only [List.length_append, List.length_cons, Nat.cast_add, Nat.cast_one] at h ⊢
        omega
      · rw [if_neg h1]
        refine normpath_posix_head_slash _ ?_ (by simp)
        simp only [List.length_append, List.length_cons, List.length_nil, Nat.cast_add,
          Nat.cast_one, Nat.cast_zero] at h ⊢
        omega

/-- The statement of `isabs_posix_abspath_posix` at `p = "a/../b"`, `cwd = "/x/y"`, with the
value of `abspath_posix` there. -/
theorem isabs_posix_abspath_posix_witness :
    isabs_posix "/x/y".toList = true ∧
    abspath_posix "a/../b".toList "/x/y".toList = "/x/y/b".toList ∧
    isabs_posix (abspath_posix "a/../b".toList "/x/y".toList) = true :=
  ⟨by decide, by decide,
    isabs_posix_abspath_posix "a/../b".toList "/x/y".toList (by decide) (by decide)⟩

/-- The prefix loop of `normpath_nt` ends within `path.length + 1` iterations: every
iteration shortens `path`. -/
theorem normpath_nt_initial_terminates :
    ∀ (fuel : Nat) (pre path : Str), path.length + 1 ≤ fuel →
      ∃ pp, normpath_nt_initial fuel pre path = some pp := by
  intro fuel
  induction fuel with
  | zero => intro pre path h; omega
  | succ fuel ih =>
    intro pre path h
    unfold normpath_nt_initial
    by_cases hc : slice path 0 1 = double_back_slash
    · rw [if_pos hc]
      apply ih
      have hne : path ≠ [] := by
        rintro rfl
        revert hc
        decide
      have hlen : 0 < path.length := List.length_pos.2 hne
      have h1 := ADJUST_INDICES_fst_nat 1 MAX_32BIT_INT (path.length : Int)
      rw [Nat.cast_one] at h1
      rw [slice_eq, h1]
      simp only [List.length_take, List.length_drop]
      rw [show (1 : Int).toNat = 1 from rfl]
      omega
    · rw [if_neg hc]
      exact ⟨_, rfl⟩

/-- The segment loop of `normpath_nt` with checked accesses and an `int` index does what the
loop on lists does: started at an index `i ≥ 0` it never leaves the bounds of `comps`. -/
theorem normpath_nt_comps_checked_eq (pre : Str) :
    ∀ (fuel : Nat) (comps : List Str) (i : Nat),
      normpath_nt_comps_checked pre fuel comps (i : Int) =
        match normpath_nt_comps pre fuel comps i with
        | some c => .ok c
        | none => .error .out_of_fuel := by
  intro fuel
  induction fuel with
  | zero => intro comps i; rfl
  | succ fuel ih =>
    intro comps i
    unfold normpath_nt_comps_checked normpath_nt_comps
    by_cases hi : i < comps.length
    · have hi2 : (i : Int) < (comps.length : Int) := by exact_mod_cast hi
      rw [if_pos hi, if_pos hi2]
      have hat : vector_at comps (i : Int) = some comps[i] := by
        unfold vector_at
        rw [if_pos ⟨by omega, hi2⟩, Int.toNat_ofNat, List.getElem?_eq_getElem hi]
      have her : vector_erase comps (i : Int) = some (comps.eraseIdx i) := by
        unfold vector_erase
        rw [if_pos ⟨by omega, hi2⟩, Int.toNat_ofNat]
      rw [hat, List.getElem?_eq_getElem hi]
      dsimp only
      have e1 : (some comps[i] = some ([] : Str) ∨ some comps[i] = some dot) ↔
          ((comps[i].isEmpty = true) ∨ comps[i] = dot) := by
        simp [List.isEmpty_iff]
      by_cases h1 : (comps[i].isEmpty = true) ∨ comps[i] = dot
      · rw [if_pos h1, if_pos (e1.2 h1), her]
        exact ih _ _
      · rw [if_neg h1, if_neg (fun h => h1 (e1.1 h))]
        by_cases h2 : comps[i] = double_dot
        · rw [if_pos h2, if_pos (show some comps[i] = some double_dot by rw [h2])]
          have hrest : (if (i : Int) = 0 ∧ endswith pre double_back_slash = true then
                (match vector_erase comps (i : Int) with
                | none => Except.error loop_fault.out_of_bounds
                | some comps1 => normpath_nt_comps_checked pre fuel comps1 (i : Int))
              else normpath_nt_comps_checked pre fuel comps ((i : Int) + 1)) =
              (match (if i = 0 ∧ endswith pre double_back_slash = true then
                  normpath_nt_comps pre fuel (comps.eraseIdx i) i
                else normpath_nt_comps pre fuel comps (i + 1)) with
                | some c => Except.ok c
                | none => Except.error loop_fault.out_of_fuel) := by
            by_cases h3 : i = 0 ∧ endswith pre double_back_slash = true
            · rw [if_pos h3, if_pos ⟨by exact_mod_cast h3.1, h3.2⟩, her]
              exact ih _ _
            · rw [if_neg h3, if_neg (fun h => h3 ⟨by exact_mod_cast h.1, h.2⟩)]
              exact ih comps (i + 1)
          by_cases h0 : i > 0
          · have h0i : (i : Int) > 0 := by exact_mod_cast h0
            have hi1 : i - 1 < comps.length := by omega
            have hcast : (i : Int) - 1 = ((i - 1 : Nat) : Int) := by omega
            have hat1 : vector_at comps ((i : Int) - 1) = some comps[i - 1] := by
              unfold vector_at
              rw [hcast, if_pos ⟨by omega, by exact_mod_cast hi1⟩, Int.toNat_ofNat,
                List.getElem?_eq_getElem hi1]
            rw [if_pos h0i, hat1]
            dsimp only
            rw [List.getElem?_eq_getElem hi1]
            by_cases h4 : comps[i - 1] ≠ double_dot
            · rw [if_pos h4,
                if_pos (show i > 0 ∧ some comps[i - 1] ≠ some double_dot from
                  ⟨h0, by simpa using h4⟩)]
              have herr : vector_erase_range comps ((i : Int) - 1) ((i : Int) + 1) =
                  some (comps.take (i - 1) ++ comps.drop (i + 1)) := by
                unfold vector_erase_range
                rw [if_pos ⟨by omega, by omega, by omega⟩, hcast, Int.toNat_ofNat,
                  show ((i : Int) + 1) = ((i + 1 : Nat) : Int) by omega, Int.toNat_ofNat]
              rw [herr]
              dsimp only
              rw [hcast]
              exact ih _ _
            · rw [if_neg h4,
                if_neg (show ¬ (i > 0 ∧ some comps[i - 1] ≠ some double_dot) from
                  fun h => h4 (by simpa using h.2))]
              exact hrest
          · have h0i : ¬ (i : Int) > 0 := by omega
            rw [if_neg h0i,
              if_neg (show ¬ (i > 0 ∧ comps[i - 1]? ≠ some double_dot) from fun h => h0 h.1)]
            exact hrest
        · rw [if_neg h2, if_neg (show ¬ some comps[i] = some double_dot by simpa using h2)]
          exact ih comps (i + 1)
    · have hi2 : ¬ (i : Int) < (comps.length : Int) := by omega
      rw [if_neg hi, if_neg hi2]

/-- C31: `normpath_nt` is total. For every string `p` the prefix loop ends (within the
iterations the function allows it, when `p` has no drive letter), the segment loop ends
without reading or erasing `comps` outside its bounds, and the result of `normpath_nt` is
the prefix followed by the joined segments the two loops leave. -/
theorem normpath_nt_total (p : Str) :
    ∃ (pp : Str × Str) (comps1 : List Str),
      (if (splitdrive_nt (replace p forward_slash double_back_slash)).1.isEmpty then
        normpath_nt_initial
          ((splitdrive_nt (replace p forward_slash double_back_slash)).2.length + 1)
          (splitdrive_nt (replace p forward_slash double_back_slash)).1
          (splitdrive_nt (replace p forward_slash double_back_slash)).2 = some pp
      else
        pp = if startswith (splitdrive_nt (replace p forward_slash double_back_slash)).2
              double_back_slash then
            ((splitdrive_nt (replace p forward_slash double_back_slash)).1 ++ double_back_slash,
              lstrip (splitdrive_nt (replace p forward_slash double_back_slash)).2
                double_back_slash)
          else splitdrive_nt (replace p forward_slash double_back_slash)) ∧
      normpath_nt_comps_checked pp.1 (2 * (split pp.2 double_back_slash).length + 1)
        (split pp.2 double_back_slash) 0 = .ok comps1 ∧
      normpath_nt p = pp.1 ++ pystring.join double_back_slash
        (if pp.1.isEmpty ∧ comps1.isEmpty then comps1 ++ [dot] else comps1) := by
  generalize hP : replace p forward_slash double_back_slash = P
  have hcomps : ∀ pp : Str × Str, ∃ comps1,
      normpath_nt_comps pp.1 (2 * (split pp.2 double_back_slash).length + 1)
        (split pp.2 double_back_slash) 0 = some comps1 := by
    intro pp
    have := normpath_nt_comps_eq pp.1 (if endswith pp.1 double_back_slash = true then 1 else 0)
      (by intro h; rw [if_pos h]; decide) (by intro h; rw [if_neg h])
      (2 * (split pp.2 double_back_slash).length + 1) [] (split pp.2 double_back_slash)
      (by omega)
    exact ⟨_, this⟩
  have hmain : ∀ pp : Str × Str,
      (if (splitdrive_nt P).1.isEmpty then
        (normpath_nt_initial ((splitdrive_nt P).2.length + 1) (splitdrive_nt P).1
          (splitdrive_nt P).2).getD ([], [])
      else if startswith (splitdrive_nt P).2 double_back_slash then
        ((splitdrive_nt P).1 ++ double_back_slash, lstrip (splitdrive_nt P).2 double_back_slash)
      else ((splitdrive_nt P).1, (splitdrive_nt P).2)) = (pp.1, pp.2) →
      ∃ comps1,
        normpath_nt_comps_checked pp.1 (2 * (split pp.2 double_back_slash).length + 1)
          (split pp.2 double_back_slash) 0 = .ok comps1 ∧
        normpath_nt p = pp.1 ++ pystring.join double_back_slash
          (if pp.1.isEmpty ∧ comps1.isEmpty then comps1 ++ [dot] else comps1) := by
    intro pp hpp
    obtain ⟨comps1, hc⟩ := hcomps pp
    refine ⟨comps1, ?_, ?_⟩
    · have := normpath_nt_comps_checked_eq pp.1
        (2 * (split pp.2 double_back_slash).length + 1) (split pp.2 double_back_slash) 0
      rw [hc] at this
      exact this
    · exact normpath_nt_unfold p P pp.1 pp.2 comps1 hP hpp (by rw [hc]; rfl)
  by_cases he : (splitdrive_nt P).1.isEmpty = true
  · obtain ⟨pp, hpp⟩ := normpath_nt_initial_terminates ((splitdrive_nt P).2.length + 1)
      (splitdrive_nt P).1 (splitdrive_nt P).2 (le_refl _)
    obtain ⟨comps1, h1, h2⟩ := hmain pp (by rw [if_pos he, hpp]; rfl)
    exact ⟨pp, comps1, by rw [if_pos he]; exact hpp, h1, h2⟩
  · obtain ⟨comps1, h1, h2⟩ := hmain
      (if startswith (splitdrive_nt P).2 double_back_slash then
        ((splitdrive_nt P).1 ++ double_back_slash, lstrip (splitdrive_nt P).2 double_back_slash)
      else splitdrive_nt P)
      (by rw [if_neg he])
    exact ⟨_, comps1, by rw [if_neg he], h1, h2⟩

end path
end os

/-- The adjusted `end` does not exceed the length. -/
theorem ADJUST_INDICES_snd_le (s e : Int) (len : Nat) : (ADJUST_INDICES s e len).2 ≤ len := by
  unfold ADJUST_INDICES
  dsimp only
  split_ifs <;> omega

/-- The adjusted `end` is not negative. -/
theorem ADJUST_INDICES_snd_nonneg (s e : Int) (len : Nat) : 0 ≤ (ADJUST_INDICES s e len).2 := by
  unfold ADJUST_INDICES
  dsimp only
  split_ifs <;> omega

/-- The adjusted `end` does not depend on `start`. -/
theorem ADJUST_INDICES_snd_indep (s s1 e len : Int) :
    (ADJUST_INDICES s e len).2 = (ADJUST_INDICES s1 e len).2 := rfl

/-- The adjusted `start` is not negative. -/
theorem ADJUST_INDICES_fst_ge_zero (s e : Int) (len : Nat) :
    0 ≤ (ADJUST_INDICES s e len).1 := by
  unfold ADJUST_INDICES
  dsimp only
  split_ifs <;> omega

theorem isPrefixOf_iff (sub l : Str) : sub.isPrefixOf l = true ↔ sub <+: l :=
  List.isPrefixOf_iff_prefix

/-- The search of `std_find_aux` returns an index between the start index and the end. -/
theorem std_find_aux_bounds (sub : Str) :
    ∀ (l : Str) (i r : Nat), std_find_aux sub l i = some r → i ≤ r ∧ r ≤ i + l.length := by
  intro l
  induction l with
  | nil =>
    intro i r h
    unfold std_find_aux at h
    split_ifs at h
    simp only [Option.some.injEq] at h
    simp [h]
  | cons c l ih =>
    intro i r h
    unfold std_find_aux at h
    split_ifs at h
    · simp only [Option.some.injEq] at h
      simp only [List.length_cons]
      omega
    · have := ih (i + 1) r h
      simp only [List.length_cons]
      omega

/-- The index found by `std_find_aux` is an occurrence of `sub`, and the first one. -/
theorem std_find_aux_some (sub : Str) :
    ∀ (l : Str) (i r : Nat), std_find_aux sub l i = some r →
      sub <+: l.drop (r - i) ∧ ∀ q, q < r - i → ¬ sub <+: l.drop q := by
  intro l
  induction l with
  | nil =>
    intro i r h
    unfold std_find_aux at h
    split_ifs at h with hp
    simp only [Option.some.injEq] at h
    subst h
    refine ⟨?_, fun q hq => by omega⟩
    simpa using (isPrefixOf_iff sub []).1 hp
  | cons c l ih =>
    intro i r h
    unfold std_find_aux at h
    split_ifs at h with hp
    · simp only [Option.some.injEq] at h
      subst h
      refine ⟨?_, fun q hq => by omega⟩
      simpa using (isPrefixOf_iff sub (c :: l)).1 hp
    · have hb := std_find_aux_bounds sub l (i + 1) r h
      obtain ⟨h1, h2⟩ := ih (i + 1) r h
      have e : r - i = (r - (i + 1)) + 1 := by omega
      refine ⟨by rw [e, List.drop_succ_cons]; exact h1, ?_⟩
      intro q hq
      cases q with
      | zero =>
        rw [List.drop_zero]
        exact fun hpre => hp ((isPrefixOf_iff sub (c :: l)).2 hpre)
      | succ q =>
        rw [List.drop_succ_cons]
        exact h2 q (by omega)

/-- When `std_find_aux` finds nothing, `sub` occurs nowhere. -/
theorem std_find_aux_none (sub : Str) :
    ∀ (l : Str) (i : Nat), std_find_aux sub l i = none → ∀ q, ¬ sub <+: l.drop q := by
  intro l
  induction l with
  | nil =>
    intro i h q
    unfold std_find_aux at h
    split_ifs at h with hp
    rw [List.drop_nil]
    exact fun hpre => hp ((isPrefixOf_iff sub []).2 hpre)
  | cons c l ih =>
    intro i h q
    unfold std_find_aux at h
    split_ifs at h with hp
    cases q with
    | zero =>
      rw [List.drop_zero]
      exact fun hpre => hp ((isPrefixOf_iff sub (c :: l)).2 hpre)
    | succ q =>
      rw [List.drop_succ_cons]
      exact ih (i + 1) h q

/-- The start index only shifts the result of `std_find_aux`. -/
theorem std_find_aux_shift (sub : Str) :
    ∀ (l : Str) (i : Nat), std_find_aux sub l i = (std_find_aux sub l 0).map (fun r => r + i) := by
  intro l
  induction l with
  | nil =>
    intro i
    unfold std_find_aux
    split_ifs <;> simp
  | cons c l ih =>
    intro i
    unfold std_find_aux
    split_ifs
    · simp
    · rw [ih (i + 1), ih (0 + 1)]
      cases std_find_aux sub l 0 with
      | none => rfl
      | some r => simp only [Option.map_some', Option.some.injEq]; omega

/-- An occurrence of `sub` at index `q` lies inside the string. -/
theorem length_le_of_prefix_drop (sub l : Str) (q : Nat) (h : sub <+: l.drop q) :
    q + sub.length ≤ l.length ∨ sub = [] := by
  by_cases hs : sub = []
  · exact Or.inr hs
  · left
    have := h.length_le
    rw [List.length_drop] at this
    have : 0 < sub.length := List.length_pos.2 hs
    omega

/-- What `find` returns: either `-1`, when `sub` has no occurrence inside the adjusted
range, or the first index of such an occurrence. -/
theorem find_cases (str sub : Str) (start end_ : Int) :
    (find str sub start end_ = -1 ∧
      ¬ ∃ j : Nat, (ADJUST_INDICES start end_ str.length).1 ≤ (j : Int) ∧
        (j : Int) + sub.length ≤ (ADJUST_INDICES start end_ str.length).2 ∧
        sub <+: str.drop j) ∨
    (∃ r : Nat, find str sub start end_ = (r : Int) ∧
      ((ADJUST_INDICES start end_ str.length).1 ≤ (r : Int) ∧
        (r : Int) + sub.length ≤ (ADJUST_INDICES start end_ str.length).2 ∧
        sub <+: str.drop r) ∧
      ∀ j : Nat, (ADJUST_INDICES start end_ str.length).1 ≤ (j : Int) →
        (j : Int) + sub.length ≤ (ADJUST_INDICES start end_ str.length).2 →
        sub <+: str.drop j → r ≤ j) := by
  have h0 := ADJUST_INDICES_fst_ge_zero start end_ str.length
  have h1 := ADJUST_INDICES_snd_le start end_ str.length
  have h2 := ADJUST_INDICES_snd_nonneg start end_ str.length
  unfold find
  dsimp only
  generalize (ADJUST_INDICES start end_ str.length).1 = s1 at *
  generalize (ADJUST_INDICES start end_ str.length).2 = e1 at *
  obtain ⟨pos, rfl⟩ : ∃ pos : Nat, s1 = (pos : Int) := ⟨s1.toNat, by omega⟩
  rw [Int.toNat_ofNat]
  unfold std_find
  by_cases hpos : pos > str.length
  · rw [if_pos hpos]
    left
    refine ⟨rfl, ?_⟩
    rintro ⟨j, hj1, hj2, -⟩
    omega
  · rw [if_neg hpos]
    cases hf : std_find_aux sub (str.drop pos) pos with
    | none =>
      left
      refine ⟨rfl, ?_⟩
      rintro ⟨j, hj1, hj2, hj3⟩
      have := std_find_aux_none sub _ _ hf (j - pos)
      rw [List.drop_drop] at this
      rw [show pos + (j - pos) = j by omega] at this
      exact this hj3
    | some r =>
      have hb := std_find_aux_bounds sub _ _ _ hf
      obtain ⟨hp, hleast⟩ := std_find_aux_some sub _ _ _ hf
      rw [List.drop_drop, show pos + (r - pos) = r by omega] at hp
      have hmin : ∀ j : Nat, (pos : Int) ≤ (j : Int) → sub <+: str.drop j → r ≤ j := by
        intro j hj1 hj3
        by_contra hlt
        have := hleast (j - pos) (by omega)
        rw [List.drop_drop, show pos + (j - pos) = j by omega] at this
        exact this hj3
      dsimp only
      by_cases hover : (r : Int) + sub.length > e1
      · rw [if_pos hover]
        left
        refine ⟨rfl, ?_⟩
        rintro ⟨j, hj1, hj2, hj3⟩
        have := hmin j hj1 hj3
        omega
      · rw [if_neg hover]
        right
        exact ⟨r, rfl, ⟨by omega, by omega, hp⟩, fun j hj1 _ hj3 => hmin j hj1 hj3⟩

/-- C33: for every `str` whose size fits `int` and every `sub`, `start` and `end`, with
`(start', end')` the indices after `ADJUST_INDICES`, `find(str, sub, start, end)` is `-1` or
an index; it is the index `i` exactly when `sub` occurs in `str` at `i` with `start' ≤ i` and
`i + |sub| ≤ end'` and at no lower such index; and it is `-1` exactly when there is no such
occurrence. The bound is the one under which the conversion of `str.size()` to `int` is
exact. -/
theorem find_spec (str sub : Str) (start end_ : Int)
    (_h : (str.length : Int) ≤ MAX_32BIT_INT) :
    (find str sub start end_ = -1 ∨ 0 ≤ find str sub start end_) ∧
    (∀ i : Nat, find str sub start end_ = (i : Int) ↔
      (((ADJUST_INDICES start end_ str.length).1 ≤ (i : Int) ∧
        (i : Int) + sub.length ≤ (ADJUST_INDICES start end_ str.length).2 ∧
        sub <+: str.drop i) ∧
      ∀ j : Nat, (ADJUST_INDICES start end_ str.length).1 ≤ (j : Int) →
        (j : Int) + sub.length ≤ (ADJUST_INDICES start end_ str.length).2 →
        sub <+: str.drop j → i ≤ j)) ∧
    (find str sub start end_ = -1 ↔
      ¬ ∃ j : Nat, (ADJUST_INDICES start end_ str.length).1 ≤ (j : Int) ∧
        (j : Int) + sub.length ≤ (ADJUST_INDICES start end_ str.length).2 ∧
        sub <+: str.drop j) := by
  rcases find_cases str sub start end_ with ⟨hf, hno⟩ | ⟨r, hf, hocc, hleast⟩
  · refine ⟨Or.inl hf, ?_, ?_⟩
    · intro i
      constructor
      · intro h
        rw [hf] at h
        omega
      · rintro ⟨hi, -⟩
        exact absurd ⟨i, hi⟩ hno
    · exact ⟨fun _ => hno, fun _ => hf⟩
  · refine ⟨Or.inr (by rw [hf]; omega), ?_, ?_⟩
    · intro i
      constructor
      · intro h
        rw [hf] at h
        have : r = i := by exact_mod_cast h
        subst this
        exact ⟨hocc, hleast⟩
      · rintro ⟨hi, hil⟩
        rw [hf]
        have h1 := hleast i hi.1 hi.2.1 hi.2.2
        have h2 := hil r hocc.1 hocc.2.1 hocc.2.2
        have : r = i := by omega
        rw [this]
    · constructor
      · intro h
        rw [hf] at h
        omega
      · intro hno
        exact absurd ⟨r, hocc⟩ hno

/-- The statement of `find_spec` at `find("abcabc", "bc", 2, 6)`, which is 4: the occurrence
at index 4 lies inside the range, the one at index 1 does not; with the end at 5 nothing is
found. -/
theorem find_spec_witness :
    (("abcabc".toList.length : Int) ≤ MAX_32BIT_INT) ∧
    find "abcabc".toList "bc".toList 2 6 = 4 ∧
    find "abcabc".toList "bc".toList 2 5 = -1 ∧
    ((ADJUST_INDICES 2 6 "abcabc".toList.length).1 ≤ ((4 : Nat) : Int) ∧
      ((4 : Nat) : Int) + "bc".toList.length ≤ (ADJUST_INDICES 2 6 "abcabc".toList.length).2 ∧
      "bc".toList <+: "abcabc".toList.drop 4) :=
  ⟨by decide, by decide, by decide,
    (((find_spec "abcabc".toList "bc".toList 2 6 (by decide)).2.1 4).1 (by decide)).1⟩

/-- With an empty `sub`, `find` returns the adjusted `start` whenever that does not exceed
the adjusted `end`. -/
theorem find_empty (str : Str) (start end_ : Int)
    (h : (ADJUST_INDICES start end_ str.length).1 ≤ (ADJUST_INDICES start end_ str.length).2) :
    find str [] start end_ = (ADJUST_INDICES start end_ str.length).1 := by
  rcases find_cases str [] start end_ with ⟨-, hno⟩ | ⟨r, hf, hocc, hleast⟩
  · exfalso
    apply hno
    have h0 := ADJUST_INDICES_fst_ge_zero start end_ str.length
    refine ⟨(ADJUST_INDICES start end_ str.length).1.toNat, by omega, ?_, List.nil_prefix⟩
    simp only [List.length_nil, Nat.cast_zero, add_zero]
    omega
  · rw [hf]
    have h0 := ADJUST_INDICES_fst_ge_zero start end_ str.length
    have := hleast (ADJUST_INDICES start end_ str.length).1.toNat (by omega)
      (by simp only [List.length_nil, Nat.cast_zero, add_zero]; omega) List.nil_prefix
    omega

/-- With an empty `substr` the loop of `count` never reaches its `break`, from any `cursor`
whose adjusted value does not exceed the adjusted `end`. -/
theorem count_loop_empty (str : Str) (end_ : Int) :
    ∀ (fuel : Nat) (cursor nummatches : Int),
      (ADJUST_INDICES cursor end_ str.length).1 ≤ (ADJUST_INDICES cursor end_ str.length).2 →
      count_loop str [] end_ fuel cursor nummatches = none := by
  intro fuel
  induction fuel with
  | zero => intro cursor nummatches h; rfl
  | succ fuel ih =>
    intro cursor nummatches h
    unfold count_loop
    dsimp only
    rw [find_empty str cursor end_ h]
    have h0 := ADJUST_INDICES_fst_ge_zero cursor end_ str.length
    rw [if_neg (by omega)]
    apply ih
    simp only [List.length_nil, Nat.cast_zero, add_zero]
    rw [ADJUST_INDICES_fst_nonneg _ _ _ h0]
    exact h

/-- With a non-empty `substr` the loop of `count` reaches its `break` within
`str.length + 2` iterations. -/
theorem count_loop_terminates (str sub : Str) (end_ : Int) (hsub : sub ≠ []) :
    ∀ (fuel : Nat) (cursor nummatches : Int),
      ((str.length : Int) - (ADJUST_INDICES cursor end_ str.length).1).toNat + 2 ≤ fuel →
      ∃ k, count_loop str sub end_ fuel cursor nummatches = some k := by
  intro fuel
  induction fuel with
  | zero => intro cursor nummatches h; omega
  | succ fuel ih =>
    intro cursor nummatches h
    unfold count_loop
    dsimp only
    rcases find_cases str sub cursor end_ with ⟨hf, -⟩ | ⟨r, hf, hocc, -⟩
    · rw [hf, if_pos (by omega)]
      exact ⟨_, rfl⟩
    · rw [hf, if_neg (by omega)]
      apply ih
      have hn : 0 < sub.length := List.length_pos.2 hsub
      have h2 := ADJUST_INDICES_snd_le cursor end_ str.length
      rw [ADJUST_INDICES_fst_nonneg _ _ _ (by omega)]
      omega

/-- C34, failing inputs: with an empty `substr`, and `start` and `end` whose adjusted values
`start' ≤ end'` (every call with the default arguments is one), the loop of `count` never
reaches its `break`, however many iterations it is given: `find` returns `cursor` itself and
`cursor += 0` leaves it there. -/
theorem count_empty_substr_never_returns (str : Str) (start end_ : Int)
    (h : (ADJUST_INDICES start end_ str.length).1 ≤ (ADJUST_INDICES start end_ str.length).2) :
    ∀ fuel : Nat, count fuel str [] start end_ = none := by
  intro fuel
  unfold count
  exact count_loop_empty str end_ fuel start 0 h

/-- The statement of `count_empty_substr_never_returns` at `count("abc", "")`, with the value
`find` returns there, and a call with a non-empty `substr` for comparison. -/
theorem count_empty_substr_never_returns_witness :
    find "abc".toList [] 0 MAX_32BIT_INT = 0 ∧
    count 10 "abcabc".toList "bc".toList = some 2 ∧
    ∀ fuel : Nat, count fuel "abc".toList [] = none :=
  ⟨by decide, by decide,
    count_empty_substr_never_returns "abc".toList 0 MAX_32BIT_INT (by decide)⟩

theorem splitS_nil (sep : Str) (k : Nat) (m : Int) : splitS sep k m [] = [[]] := by
  cases k <;> rfl

theorem splitS_succ (sep : Str) (k : Nat) (m : Int) (c : Char) (l : Str) :
    splitS sep (k + 1) m (c :: l) = splitS sep k m l := rfl

theorem splitS_zero (sep : Str) (m : Int) (c : Char) (l : Str) :
    splitS sep 0 m (c :: l) =
      if sep.isPrefixOf (c :: l) ∧ 0 < m then [] :: splitS sep (sep.length - 1) (m - 1) l
      else prependHead [c] (splitS sep 0 m l) := rfl

theorem prependHead_ne_nil (a : Str) (l : List Str) : prependHead a l ≠ [] := by
  cases l <;> simp [prependHead]

theorem splitS_ne_nil (sep : Str) : ∀ (l : Str) (k : Nat) (m : Int), splitS sep k m l ≠ [] := by
  intro l
  induction l with
  | nil => intro k m; rw [splitS_nil]; simp
  | cons c l ih =>
    intro k m
    cases k with
    | succ k => rw [splitS_succ]; exact ih k m
    | zero =>
      rw [splitS_zero]
      split_ifs
      · simp
      · exact prependHead_ne_nil _ _

/-- Passing over `k` characters is dropping them. -/
theorem splitS_skip (sep : Str) :
    ∀ (l : Str) (k : Nat) (m : Int), splitS sep k m l = splitS sep 0 m (l.drop k) := by
  intro l
  induction l with
  | nil => intro k m; rw [List.drop_nil, splitS_nil, splitS_nil]
  | cons c l ih =>
    intro k m
    cases k with
    | succ k => rw [splitS_succ, List.drop_succ_cons]; exact ih k m
    | zero => rw [List.drop_zero]

theorem joinC_cons (sep x : Str) (l : List Str) (h : l ≠ []) :
    joinC sep (x :: l) = x ++ (sep ++ joinC sep l) := by
  cases l with
  | nil => exact absurd rfl h
  | cons y t => rfl

theorem joinC_prependHead (sep x : Str) (l : List Str) :
    joinC sep (prependHead x l) = x ++ joinC sep l := by
  cases l with
  | nil => simp [prependHead, joinC]
  | cons h t =>
    cases t with
    | nil => simp [prependHead, joinC]
    | cons y t => simp [prependHead, joinC]

/-- A non-empty prefix of `c :: l` leaves `l` after its remaining characters. -/
theorem drop_of_prefix_cons (sep : Str) (c : Char) (l : Str) (hsep : sep ≠ [])
    (h : sep <+: c :: l) : sep ++ l.drop (sep.length - 1) = c :: l := by
  obtain ⟨t, ht⟩ := h
  cases sep with
  | nil => exact absurd rfl hsep
  | cons a sep1 =>
    simp only [List.cons_append, List.cons.injEq] at ht
    obtain ⟨rfl, rfl⟩ := ht
    simp

/-- Joining the pieces with the separator gives the string back. -/
theorem joinC_splitS (sep : Str) (hsep : sep ≠ []) :
    ∀ (l : Str) (k : Nat) (m : Int), joinC sep (splitS sep k m l) = l.drop k := by
  intro l
  induction l with
  | nil => intro k m; rw [splitS_nil, List.drop_nil]; rfl
  | cons c l ih =>
    intro k m
    cases k with
    | succ k => rw [splitS_succ, List.drop_succ_cons]; exact ih k m
    | zero =>
      rw [splitS_zero, List.drop_zero]
      by_cases hc : sep.isPrefixOf (c :: l) = true ∧ 0 < m
      · rw [if_pos hc, joinC_cons _ _ _ (splitS_ne_nil _ _ _ _), ih, List.nil_append]
        exact drop_of_prefix_cons sep c l hsep ((isPrefixOf_iff _ _).1 hc.1)
      · rw [if_neg hc, joinC_prependHead, ih, List.drop_zero]
        rfl

/-- With no split left the rest of the string is one piece. -/
theorem splitS_nonpos (sep : Str) :
    ∀ (l : Str) (k : Nat) (m : Int), m ≤ 0 → splitS sep k m l = [l.drop k] := by
  intro l
  induction l with
  | nil => intro k m _; rw [splitS_nil, List.drop_nil]
  | cons c l ih =>
    intro k m hm
    cases k with
    | succ k => rw [splitS_succ, List.drop_succ_cons]; exact ih k m hm
    | zero =>
      rw [splitS_zero, if_neg (by omega), ih 0 m hm, List.drop_zero]
      rfl

/-- The pieces do not depend on the limit once it is at least the length. -/
theorem splitS_big (sep : Str) :
    ∀ (l : Str) (k : Nat) (m m1 : Int), (l.length : Int) ≤ m → (l.length : Int) ≤ m1 →
      splitS sep k m l = splitS sep k m1 l := by
  intro l
  induction l with
  | nil => intro k m m1 _ _; rw [splitS_nil, splitS_nil]
  | cons c l ih =>
    intro k m m1 hm hm1
    simp only [List.length_cons, Nat.cast_add, Nat.cast_one] at hm hm1
    cases k with
    | succ k => rw [splitS_succ, splitS_succ]; exact ih k m m1 (by omega) (by omega)
    | zero =>
      rw [splitS_zero, splitS_zero]
      by_cases hp : sep.isPrefixOf (c :: l) = true
      · rw [if_pos ⟨hp, by omega⟩, if_pos ⟨hp, by omega⟩,
          ih _ (m - 1) (m1 - 1) (by omega) (by omega)]
      · rw [if_neg (fun h => hp h.1), if_neg (fun h => hp h.1), ih 0 m m1 (by omega) (by omega)]

/-- The pieces in terms of the first occurrence of the separator. -/
theorem splitS_first (sep : Str) (hsep : sep ≠ []) :
    ∀ (l : Str) (m : Int),
      splitS sep 0 m l =
        match std_find_aux sep l 0 with
        | none => [l]
        | some r =>
          if 0 < m then l.take r :: splitS sep 0 (m - 1) (l.drop (r + sep.length)) else [l] := by
  intro l
  induction l with
  | nil =>
    intro m
    rw [splitS_nil]
    unfold std_find_aux
    have : sep.isPrefixOf [] = false := by
      cases sep with
      | nil => exact absurd rfl hsep
      | cons a t => rfl
    rw [this]
    rfl
  | cons c l ih =>
    intro m
    have hn : 0 < sep.length := List.length_pos.2 hsep
    rw [splitS_zero]
    unfold std_find_aux
    by_cases hp : sep.isPrefixOf (c :: l) = true
    · rw [if_pos hp]
      dsimp only
      by_cases hm : 0 < m
      · rw [if_pos ⟨hp, hm⟩, if_pos hm, splitS_skip]
        rw [show 0 + sep.length = (sep.length - 1) + 1 by omega, List.drop_succ_cons]
        rfl
      · rw [if_neg (fun h => hm h.2), if_neg hm, splitS_nonpos _ _ _ _ (by omega)]
        rfl
    · rw [if_neg (fun h => hp h.1), if_neg hp, std_find_aux_shift, ih m]
      cases hf : std_find_aux sep l 0 with
      | none => rfl
      | some r =>
        simp only [Option.map_some']
        by_cases hm : 0 < m
        · rw [if_pos hm, if_pos hm]
          rw [show r + (0 + 1) + sep.length = (r + sep.length) + 1 by omega, List.drop_succ_cons]
          rfl
        · rw [if_neg hm, if_neg hm]
          rfl

/-- The first piece is a prefix of the string. -/
theorem splitS_head_prefix (sep : Str) :
    ∀ (l : Str) (k : Nat) (m : Int), ∃ h t, splitS sep k m l = h :: t ∧ h <+: l.drop k := by
  intro l
  induction l with
  | nil => intro k m; exact ⟨[], [], splitS_nil _ _ _, by simp⟩
  | cons c l ih =>
    intro k m
    cases k with
    | succ k => rw [splitS_succ, List.drop_succ_cons]; exact ih k m
    | zero =>
      rw [splitS_zero, List.drop_zero]
      split_ifs
      · exact ⟨[], _, rfl, List.nil_prefix⟩
      · obtain ⟨h, t, e, hp⟩ := ih 0 m
        rw [e]
        rw [List.drop_zero] at hp
        exact ⟨c :: h, t, rfl, by simpa using hp⟩

/-- With a limit that is not reached, no piece contains the separator. -/
theorem splitS_no_sep (sep : Str) (hsep : sep ≠ []) :
    ∀ (l : Str) (k : Nat) (m : Int), (l.length : Int) ≤ m →
      ∀ x ∈ splitS sep k m l, ¬ sep <:+: x := by
  intro l
  induction l with
  | nil =>
    intro k m _ x hx
    rw [splitS_nil] at hx
    simp only [List.mem_singleton] at hx
    subst hx
    intro h
    exact hsep (List.eq_nil_of_infix_nil h)
  | cons c l ih =>
    intro k m hm x hx
    simp only [List.length_cons, Nat.cast_add, Nat.cast_one] at hm
    cases k with
    | succ k =>
      rw [splitS_succ] at hx
      exact ih k m (by omega) x hx
    | zero =>
      rw [splitS_zero] at hx
      by_cases hp : sep.isPrefixOf (c :: l) = true
      · rw [if_pos ⟨hp, by omega⟩] at hx
        rcases List.mem_cons.1 hx with rfl | hx
        · intro h
          exact hsep (List.eq_nil_of_infix_nil h)
        · exact ih _ (m - 1) (by omega) x hx
      · rw [if_neg (fun h => hp h.1)] at hx
        obtain ⟨h, t, e, hpre⟩ := splitS_head_prefix sep l 0 m
        rw [e] at hx
        have ih1 := ih 0 m (by omega)
        rw [e] at ih1
        simp only [prependHead, List.singleton_append] at hx
        rcases List.mem_cons.1 hx with rfl | hx
        · intro hin
          rw [List.infix_cons_iff] at hin
          rcases hin with hin | hin
          · apply hp
            rw [isPrefixOf_iff]
            rw [List.drop_zero] at hpre
            exact hin.trans (by simpa using hpre)
          · exact ih1 h (List.mem_cons_self _ _) hin
        · exact ih1 x (List.mem_cons_of_mem _ hx)

/-- The test of `split` at index `i` is the test whether the separator occurs there. -/
theorem split_test_iff (str sep : Str) (i : Nat) (hsep : sep ≠ []) :
    (str[i]? = sep[0]? ∧ substr str i sep.length = sep) ↔ sep <+: str.drop i := by
  unfold substr
  constructor
  · rintro ⟨-, h⟩
    rw [List.prefix_iff_eq_take]
    exact h.symm
  · intro h
    have h2 := (List.prefix_iff_eq_take.1 h).symm
    refine ⟨?_, h2⟩
    obtain ⟨t, ht⟩ := h
    cases sep with
    | nil => exact absurd rfl hsep
    | cons a sep1 =>
      have : (str.drop i)[0]? = some a := by rw [← ht]; simp
      rw [List.getElem?_drop] at this
      simpa using this

/-- The main loop of `split` computes the pieces of `splitS`. -/
theorem split_loop_eq_splitS (str sep : Str) (hsep : sep ≠ []) :
    ∀ (fuel i j : Nat) (maxsplit : Int) (result : List Str),
      j ≤ i → i ≤ str.length → str.length - i + 1 ≤ fuel →
      ∃ j1 result1, split_loop str sep fuel i j maxsplit result = some (j1, result1) ∧
        result1 ++ [substr str j1 (str.length - j1)] =
          result ++ prependHead (substr str j (i - j)) (splitS sep 0 maxsplit (str.drop i)) := by
  have hn : 0 < sep.length := List.length_pos.2 hsep
  intro fuel
  induction fuel with
  | zero => intro i j maxsplit result _ _ hf; omega
  | succ fuel ih =>
    intro i j maxsplit result hj hi hf
    unfold split_loop
    by_cases h1 : i + sep.length ≤ str.length
    · rw [if_pos h1]
      have hlt : i < str.length := by omega
      have hd : str.drop i = str[i] :: str.drop (i + 1) := List.drop_eq_getElem_cons hlt
      have hx : str[i]? = some str[i] := List.getElem?_eq_getElem hlt
      by_cases h2 : str[i]? = sep[0]? ∧ substr str i sep.length = sep
      · rw [if_pos h2]
        have hp : sep.isPrefixOf (str[i] :: str.drop (i + 1)) = true := by
          rw [isPrefixOf_iff, ← hd]
          exact (split_test_iff str sep i hsep).1 h2
        by_cases hm : maxsplit ≤ 0
        · rw [if_pos hm]
          refine ⟨j, result, rfl, ?_⟩
          rw [splitS_nonpos _ _ _ _ hm, List.drop_zero]
          simp only [prependHead, substr]
          congr 2
          rw [show str.length - j = (i - j) + (str.length - i) by omega, List.take_add,
            List.drop_drop, show j + (i - j) = i by omega]
          congr 1
          rw [List.take_of_length_le (by rw [List.length_drop])]
        · rw [if_neg hm]
          obtain ⟨j1, result1, e1, e2⟩ := ih (i + sep.length) (i + sep.length) (maxsplit - 1)
            (result ++ [substr str j (i - j)]) (le_refl _) (by omega) (by omega)
          refine ⟨j1, result1, e1, ?_⟩
          rw [e2, hd, splitS_zero, if_pos ⟨hp, by omega⟩, splitS_skip sep (str.drop (i + 1)),
            List.drop_drop, show i + 1 + (sep.length - 1) = i + sep.length by omega]
          have e3 : substr str (i + sep.length) (i + sep.length - (i + sep.length)) = [] := by
            simp [substr]
          rw [e3, prependHead_nil_left _ (splitS_ne_nil _ _ _ _)]
          simp [prependHead]
      · rw [if_neg h2]
        have hp : ¬ sep.isPrefixOf (str[i] :: str.drop (i + 1)) = true := by
          rw [isPrefixOf_iff, ← hd]
          exact fun h => h2 ((split_test_iff str sep i hsep).2 h)
        obtain ⟨j1, result1, e1, e2⟩ := ih (i + 1) j maxsplit result
          (by omega) (by omega) (by omega)
        refine ⟨j1, result1, e1, ?_⟩
        rw [e2, hd, splitS_zero, if_neg (fun h => hp h.1), prependHead_prependHead,
          substr_snoc str j i _ hj hx]
    · rw [if_neg h1]
      refine ⟨j, result, rfl, ?_⟩
      have hnone : std_find_aux sep (str.drop i) 0 = none := by
        cases hf2 : std_find_aux sep (str.drop i) 0 with
        | none => rfl
        | some r =>
          have hb := std_find_aux_bounds sep _ _ _ hf2
          obtain ⟨hpre, -⟩ := std_find_aux_some sep _ _ _ hf2
          have := hpre.length_le
          simp only [List.length_drop] at this hb
          omega
      rw [splitS_first sep hsep, hnone]
      simp only [prependHead, substr]
      congr 2
      rw [show str.length - j = (i - j) + (str.length - i) by omega, List.take_add,
        List.drop_drop, show j + (i - j) = i by omega]
      congr 1
      rw [List.take_of_length_le (by rw [List.length_drop])]

/-- For a non-empty separator, `split` computes the pieces of `splitS`. -/
theorem split_eq_splitS (s sep : Str) (maxsplit : Int) (hsep : sep ≠ []) :
    split s sep maxsplit = splitS sep 0 (if maxsplit < 0 then MAX_32BIT_INT else maxsplit) s := by
  unfold split
  dsimp only
  have hn : 0 < sep.length := List.length_pos.2 hsep
  rw [if_neg (by omega)]
  obtain ⟨j1, result1, e1, e2⟩ := split_loop_eq_splitS s sep hsep (s.length + 1) 0 0
    (if maxsplit < 0 then MAX_32BIT_INT else maxsplit) [] (le_refl _) (Nat.zero_le _) (by omega)
  rw [e1]
  dsimp only
  rw [e2]
  simp only [List.nil_append, Nat.sub_zero, List.drop_zero, substr, List.take_zero]
  exact prependHead_nil_left _ (splitS_ne_nil _ _ _ _)

/-- C37: joining undoes splitting. For every string `s` whose size fits `int`, every
non-empty separator `sep` and every integer `maxsplit`,
`join(sep, split(s, sep, maxsplit)) = s`; and when `maxsplit < 0`, no element of
`split(s, sep, maxsplit)` contains `sep`. -/
theorem join_split (s sep : Str) (maxsplit : Int) (hsep : sep ≠ [])
    (h : (s.length : Int) ≤ MAX_32BIT_INT) :
    join sep (split s sep maxsplit) = s ∧
    (maxsplit < 0 → ∀ x ∈ split s sep maxsplit, ¬ sep <:+: x) := by
  rw [split_eq_splitS s sep maxsplit hsep, join_eq_joinC, joinC_splitS sep hsep, List.drop_zero]
  refine ⟨rfl, ?_⟩
  intro hm
  rw [if_pos hm]
  exact splitS_no_sep sep hsep s 0 MAX_32BIT_INT h

/-- The statement of `join_split` at `"a--b---c"` and `"--"`, with the value of `split`. -/
theorem join_split_witness :
    split "a--b---c".toList "--".toList (-1) = ["a".toList, "b".toList, "-c".toList] ∧
    split "a--b---c".toList "--".toList 1 = ["a".toList, "b---c".toList] ∧
    (join "--".toList (split "a--b---c".toList "--".toList (-1)) = "a--b---c".toList ∧
      ((-1 : Int) < 0 → ∀ x ∈ split "a--b---c".toList "--".toList (-1),
        ¬ "--".toList <:+: x)) :=
  ⟨by decide, by decide, join_split "a--b---c".toList "--".toList (-1) (by decide) (by decide)⟩

/-- The search of `replace` in `done ++ todo` from the end of `done` is the search for the
first occurrence in `todo`. -/
theorem find_from (done todo old : Str)
    (h : ((done ++ todo).length : Int) ≤ MAX_32BIT_INT) :
    find (done ++ todo) old (done.length : Int) =
      match std_find_aux old todo 0 with
      | none => -1
      | some r => ((done.length + r : Nat) : Int) := by
  unfold find
  dsimp only
  rw [ADJUST_INDICES_fst_nat, ADJUST_INDICES_snd_max _ _ h, Int.toNat_ofNat]
  unfold std_find
  rw [if_neg (by rw [List.length_append]; omega), List.drop_left, std_find_aux_shift]
  cases hf : std_find_aux old todo 0 with
  | none => rfl
  | some r =>
    simp only [Option.map_some']
    obtain ⟨hpre, -⟩ := std_find_aux_some old _ _ _ hf
    have hb := std_find_aux_bounds old _ _ _ hf
    have hl := hpre.length_le
    simp only [List.length_drop, Nat.sub_zero] at hl
    have : ¬ (((r + done.length : Nat) : Int) + (old.length : Int) >
        (((done ++ todo).length : Nat) : Int)) := by
      rw [List.length_append]
      push_cast
      omega
    rw [if_neg this, Nat.add_comm]

/-- When the replacement is not shorter than the separator, the joined pieces are not shorter
than the string. -/
theorem length_le_joinC_splitS (old new : Str) (hold : old ≠ [])
    (hlen : old.length ≤ new.length) :
    ∀ (l : Str) (k : Nat) (m : Int),
      (l.drop k).length ≤ (joinC new (splitS old k m l)).length := by
  have hn : 0 < old.length := List.length_pos.2 hold
  intro l
  induction l with
  | nil => intro k m; simp
  | cons c l ih =>
    intro k m
    cases k with
    | succ k => rw [splitS_succ, List.drop_succ_cons]; exact ih k m
    | zero =>
      rw [splitS_zero, List.drop_zero]
      split_ifs
      · rw [joinC_cons _ _ _ (splitS_ne_nil _ _ _ _)]
        have := ih (old.length - 1) (m - 1)
        simp only [List.length_drop, List.length_cons, List.nil_append, List.length_append]
          at this ⊢
        omega
      · rw [joinC_prependHead]
        have := ih 0 m
        simp only [List.drop_zero, List.length_cons, List.length_append, List.length_singleton,
          List.length_nil] at this ⊢
        omega

/-- The loop of `replace`, entered with `done` already rewritten and `todo` still to be
searched, returns `done` followed by the pieces of `todo` joined by `newstr`; `m` is the
number of replacements still allowed. -/
theorem replace_loop_eq (old new : Str) (count : Int) (hold : old ≠ []) :
    ∀ (fuel : Nat) (done todo : Str) (sofar m : Int), todo.length + 1 ≤ fuel →
      ((done ++ todo).length : Int) ≤ MAX_32BIT_INT →
      ((done ++ joinC new (splitS old 0 m todo)).length : Int) ≤ MAX_32BIT_INT →
      (count > -1 → m = count - sofar) → (¬ count > -1 → (todo.length : Int) ≤ m) →
      replace_loop old new count fuel (done ++ todo) (find (done ++ todo) old done.length) sofar =
        some (done ++ joinC new (splitS old 0 m todo)) := by
  have hn : 0 < old.length := List.length_pos.2 hold
  intro fuel
  induction fuel with
  | zero => intro done todo sofar m hf; omega
  | succ fuel ih =>
    intro done todo sofar m hf ha hb hm1 hm2
    unfold replace_loop
    rw [find_from done todo old ha]
    cases hfind : std_find_aux old todo 0 with
    | none =>
      rw [splitS_first old hold todo m, hfind]
      dsimp only
      rw [if_neg (fun h => h.1 rfl)]
      rfl
    | some r =>
      rw [splitS_first old hold todo m, hfind] at hb ⊢
      dsimp only at hb ⊢
      obtain ⟨hpre, -⟩ := std_find_aux_some old _ _ _ hfind
      have hl := hpre.length_le
      simp only [List.length_drop, Nat.sub_zero] at hl
      have hb0 := std_find_aux_bounds old _ _ _ hfind
      have hr : r + old.length ≤ todo.length := by omega
      have hc : ((done.length + r : Nat) : Int) ≠ -1 ∧
          ((done.length + r : Nat) : Int) ≤ ((done ++ todo).length : Int) := by
        refine ⟨by omega, ?_⟩
        rw [List.length_append]
        push_cast
        omega
      rw [if_pos hc]
      by_cases hlim : count > -1 ∧ sofar ≥ count
      · rw [if_pos hlim]
        have : ¬ 0 < m := by
          have := hm1 hlim.1
          omega
        rw [if_neg this]
        rfl
      · rw [if_neg hlim]
        have hmpos : 0 < m := by
          by_cases hcnt : count > -1
          · have := hm1 hcnt
            have : ¬ sofar ≥ count := fun h => hlim ⟨hcnt, h⟩
            omega
          · have := hm2 hcnt
            omega
        rw [if_pos hmpos] at hb
        rw [if_pos hmpos, if_pos (by omega), Int.toNat_ofNat]
        have hs1 : std_replace (done ++ todo) (done.length + r) old.length new =
            (done ++ todo.take r ++ new) ++ todo.drop (r + old.length) := by
          unfold std_replace
          rw [List.take_append,
            show done.length + r + old.length = done.length + (r + old.length) by omega,
            List.drop_append]
        have hcur : ((done.length + r : Nat) : Int) + (new.length : Int) =
            (((done ++ todo.take r ++ new).length : Nat) : Int) := by
          simp only [List.length_append, List.length_take]
          push_cast
          omega
        rw [hs1, hcur]
        rw [joinC_cons _ _ _ (splitS_ne_nil _ _ _ _)] at hb ⊢
        have hfin : done ++ (todo.take r ++ (new ++
            joinC new (splitS old 0 (m - 1) (todo.drop (r + old.length))))) =
            (done ++ todo.take r ++ new) ++
              joinC new (splitS old 0 (m - 1) (todo.drop (r + old.length))) := by
          simp only [List.append_assoc]
        rw [hfin] at hb ⊢
        apply ih
        · rw [List.length_drop]
          omega
        · by_cases hcmp : new.length ≤ old.length
          · simp only [List.length_append, List.length_take, List.length_drop] at ha ⊢
            push_cast at ha ⊢
            omega
          · have hL := length_le_joinC_splitS old new hold (by omega)
              (todo.drop (r + old.length)) 0 (m - 1)
            rw [List.drop_zero] at hL
            simp only [List.length_append] at hb hL ⊢
            push_cast at hb ⊢
            omega
        · exact hb
        · intro hcnt
          have := hm1 hcnt
          omega
        · intro hcnt
          have := hm2 hcnt
          rw [List.length_drop]
          omega

/-- C38: `replace` agrees with split-then-join. For every string `s`, every non-empty
`oldstr`, every `newstr` and every integer `count`, the sizes of `s` and of the result
fitting `int`, `replace(s, oldstr, newstr, count) = join(newstr, split(s, oldstr, count))`. -/
theorem replace_eq_join_split (s oldstr newstr : Str) (count : Int) (hold : oldstr ≠ [])
    (h : (s.length : Int) ≤ MAX_32BIT_INT)
    (h2 : ((join newstr (split s oldstr count)).length : Int) ≤ MAX_32BIT_INT) :
    replace s oldstr newstr count = join newstr (split s oldstr count) := by
  rw [split_eq_splitS s oldstr count hold, join_eq_joinC] at h2 ⊢
  unfold replace
  have := replace_loop_eq oldstr newstr count hold (s.length + 2) [] s 0
    (if count < 0 then MAX_32BIT_INT else count) (by omega) (by simpa using h)
    (by simpa using h2)
    (by intro hc; rw [if_neg (by omega)]; omega)
    (by intro hc; rw [if_pos (by omega)]; exact h)
  simp only [List.nil_append, List.length_nil, Nat.cast_zero] at this
  rw [this]
  rfl

/-- The statement of `replace_eq_join_split` at `replace("a--b---c", "--", "+", 1)` and with
no limit, with the values of `replace`. -/
theorem replace_eq_join_split_witness :
    replace "a--b---c".toList "--".toList "+".toList 1 = "a+b---c".toList ∧
    replace "a--b---c".toList "--".toList "+".toList (-1) = "a+b+-c".toList ∧
    replace "a--b---c".toList "--".toList "+".toList 1 =
      join "+".toList (split "a--b---c".toList "--".toList 1) :=
  ⟨by decide, by decide,
    replace_eq_join_split "a--b---c".toList "--".toList "+".toList 1 (by decide) (by decide)
      (by decide)⟩

end pystring
